import Mathlib

/-!
# libutreexo, RAM forest

A shallow embedding of `src/src/ram_forest.cpp` (class `RamForest`) together with
the declarations of `src/include/ram_forest.h` and `src/src/accumulator.h`.

Conventions of the embedding.

* `uint64_t` values are natural numbers; the development stays below `2 ^ 64`
  wherever a value is produced by the code (the snapshot header is reduced
  modulo `2 ^ 64` explicitly).
* A failing `assert`, a throwing `std::vector::at` and an out-of-range
  `operator[]` are all the result `none`.
* A member function becomes a function from the state before the call to the
  result and the state after the call.
* The node pool only bounds how many handles may be alive; handles are plain
  values here.
* `state.h`, `accumulator.cpp` and `crypto/common.h` are not among the sources.
  What the code needs from them is either a parameter (`ParentHash`,
  `ProofPositions`) or a definition whose doc comment starts with
  "Modelled from the spec".
-/

namespace utreexo

/-! ## Data model -/

/-- One octet of a hash or of the snapshot file. -/
abbrev Byte := Fin 256

/-- The type `using Hash = std::array<uint8_t, 32>` of accumulator.h:11. -/
abbrev Hash := { l : List Byte // l.length = 32 }

/-- The type `using Leaf = std::pair<Hash, bool>` of accumulator.h:12. -/
abbrev Leaf := Hash × Bool

/-- The hash whose 32 bytes all equal `b`; used for concrete examples. -/
def mkHash (b : Byte) : Hash := ⟨List.replicate 32 b, by simp⟩

/-- The map `std::unordered_map<Hash, uint64_t, LeafHasher>` of ram_forest.h:24,
as an association list; the operations below keep one entry per key. -/
abbrev PosMap := List (Hash × Nat)

namespace PosMap

/-- The lookup `m_posmap.find(hash)`: `none` stands for `m_posmap.end()`. -/
def find : PosMap → Hash → Option Nat
  | [], _ => none
  | (k, v) :: m, h => if k = h then some v else find m h

/-- The assignment `m_posmap[h] = p`: overwrite the entry of `h`, or create it. -/
def assign : PosMap → Hash → Nat → PosMap
  | [], h, p => [(h, p)]
  | (k, v) :: m, h, p => if k = h then (k, p) :: m else (k, v) :: assign m h p

/-- The number of entries `m_posmap.size()`. -/
def size (m : PosMap) : Nat := m.length

/-- The call `m_posmap.erase(h)`: the entry of `h` goes, if there is one. -/
def erase (m : PosMap) (h : Hash) : PosMap := m.filter (fun e => !decide (e.1 = h))

/-- The access `m_posmap[h]` as such: a missing key is created with value 0. -/
def touch (m : PosMap) (h : Hash) : PosMap :=
  match find m h with
  | none => assign m h 0
  | some _ => m

/-- The statement `std::swap(m_posmap[a], m_posmap[b])`: both accesses create
their key when it is missing, then the two values change places. -/
def swapValues (m : PosMap) (a b : Hash) : PosMap :=
  let m2 := touch (touch m a) b
  assign (assign m2 a ((find m2 b).getD 0)) b ((find m2 a).getD 0)

/-- The second part of invariant R3 for a position map and a vector of leaf
hashes: "posmap[h] == p ⇔ row[0][p] == h". -/
def Indexes (m : PosMap) (row : List Hash) : Prop :=
  ∀ h p, find m h = some p ↔ row[p]? = some h

end PosMap

/-! ## Position algebra (`ForestState`) -/

namespace ForestState

/-- Bit length by repeated halving; `fuel` bounds the number of halvings. -/
def bitLen : Nat → Nat → Nat
  | 0, _ => 0
  | fuel + 1, n => if n = 0 then 0 else bitLen fuel (n / 2) + 1

/-- Modelled from the spec: `ForestState::NumRows` (state.h is not among the
sources). "NumRows(N) = bit-length of N (0 if N=0)". -/
def NumRows (n : Nat) : Nat := bitLen n n

/-- Modelled from the spec: the exponent `H` of the position layout (state.h is
not among the sources). "H = ceil(log2(N))"; for `n ≥ 1` this is the bit length
of `n - 1`, and it is `0` for `n = 0`. -/
def LayoutRows (n : Nat) : Nat := bitLen n (n - 1)

/-- Modelled from the spec: `ForestState::HasRoot` (state.h is not among the
sources). "HasRoot(N, row) = the row-th bit of N is set". -/
def HasRoot (n row : Nat) : Bool := n.testBit row

/-- Modelled from the spec: the first position of row `row` in a layout of
exponent `H` (state.h is not among the sources). "row 0 contains positions
0..N-1; row r contains 2^H, 2^H + 2^(H-1), …": row 0 starts at 0, row 1 at
`2^H`, row 2 at `2^H + 2^(H-1)`, and so on. -/
def rowStart (H row : Nat) : Nat := 2 ^ (H + 1) - 2 ^ (H + 1 - row)

/-- The number of consecutive set bits of `pos` from bit `k - 1` downwards. -/
def leadingOnes (pos : Nat) : Nat → Nat
  | 0 => 0
  | k + 1 => if pos.testBit k then leadingOnes pos k + 1 else 0

/-- Modelled from the spec: `ForestState::DetectRow` (state.h is not among the
sources). "DetectRow(pos) = row inferred from the leading-ones prefix of pos
interpreted against H": the count of set bits of `pos` from bit `H` downwards. -/
def DetectRow (n pos : Nat) : Nat := leadingOnes pos (LayoutRows n + 1)

/-- Modelled from the spec: `ForestState::RowOffset` (state.h is not among the
sources). "RowOffset(pos) = first position on that row". -/
def RowOffset (n pos : Nat) : Nat := rowStart (LayoutRows n) (DetectRow n pos)

/-- Modelled from the spec: `ForestState::Parent` (state.h is not among the
sources). "standard binary-heap-like arithmetic applied against the row
layout": the node with index `i` of row `r` has the node with index `i / 2` of
row `r + 1` as its parent. -/
def Parent (n pos : Nat) : Nat :=
  rowStart (LayoutRows n) (DetectRow n pos + 1) + (pos - RowOffset n pos) / 2

/-- The set bits of `n` among `lo, lo + 1, …, lo + c - 1`, highest first. -/
def bitsDesc (n : Nat) : Nat → Nat → List Nat
  | _, 0 => []
  | lo, c + 1 => bitsDesc n (lo + 1) c ++ (if n.testBit lo then [lo] else [])

/-- The bits `0, …, j - 1` of `n` are all set. -/
def LowBitsSet (n j : Nat) : Prop := ∀ r, r < j → n.testBit r = true

/-- The rows that hold a root under `n` leaves: the set bits of `n`, highest
(tallest tree) first. -/
def rootRows (n : Nat) : List Nat := bitsDesc n 0 (NumRows n)

/-- The number of set bits of `n`. -/
def popcount (n : Nat) : Nat := ((List.range (NumRows n)).filter (fun r => n.testBit r)).length

/-- Modelled from the spec: the position, in a layout of exponent `H`, of the
root of the tree of `2^row` leaves of a forest of `leaves` leaves (state.h is
not among the sources). "RootPosition(N, row) = the root at a given row if
HasRoot": the taller trees come first, so the tree starts at leaf
`(leaves >> (row+1)) << (row+1)` and its root has index
`2 * (leaves >> (row+1))` on row `row`. -/
def rootPositionIn (H leaves row : Nat) : Nat := rowStart H row + 2 * (leaves >>> (row + 1))

/-- Modelled from the spec: `ForestState::RootPosition` (state.h is not among
the sources). -/
def RootPosition (n row : Nat) : Nat := rootPositionIn (LayoutRows n) n row

/-- Modelled from the spec: `ForestState::RootPositions` (state.h is not among
the sources). "RootPositions(N) = positions of the roots, taller trees first,
derived from the set bits of N from high to low". -/
def RootPositions (n : Nat) : List Nat := (rootRows n).map (RootPosition n)

/-- Modelled from the spec: `ForestState::RootPositions(num_leaves)` with an
argument, as `FinalizeRemove` calls it (state.h is not among the sources): the
root positions of a forest of `leaves` leaves, written in the position layout
of the state `n`. "Rebuild the root handle list from RootPositions(N')". -/
def RootPositionsOf (n leaves : Nat) : List Nat :=
  (rootRows leaves).map (rootPositionIn (LayoutRows n) leaves)

/-- Modelled from the spec: `ForestState::Child` (state.h is not among the
sources). "standard binary-heap-like arithmetic applied against the row
layout": the node with index `i` of row `r` has the nodes with index `2 i` and
`2 i + 1` of row `r - 1` as its children. -/
def Child (n pos side : Nat) : Nat :=
  rowStart (LayoutRows n) (DetectRow n pos - 1) + 2 * (pos - RowOffset n pos) + side

/-- Modelled from the spec: `ForestState::LeftDescendant` (state.h is not among
the sources). "standard binary-heap-like arithmetic applied against the row
layout": the leftmost descendant `drop_rows` rows below the node with index `i`
of row `r` has index `i * 2^drop_rows` on row `r - drop_rows`. -/
def LeftDescendant (n pos drop_rows : Nat) : Nat :=
  rowStart (LayoutRows n) (DetectRow n pos - drop_rows) + (pos - RowOffset n pos) * 2 ^ drop_rows

/-- Modelled from the spec: `ForestState::CheckTargetsSanity` (state.h is not
among the sources). "all targets are on row 0, strictly increasing, < N". -/
def CheckTargetsSanity (n : Nat) (targets : List Nat) : Bool :=
  targets.all (fun t => decide (DetectRow n t = 0) && decide (t < n)) &&
    decide (targets.Pairwise (· < ·))

end ForestState

/-! ## The forest -/

/-- The handle `RamForest::Node` (ram_forest.cpp:13-41) built by the
constructor that takes a hash: the hash, the leaf count it was created under,
and its position. -/
structure Node where
  /-- Field `m_hash`. -/
  m_hash : Hash
  /-- Field `m_num_leaves`. -/
  m_num_leaves : Nat
  /-- Field `m_position`. -/
  m_position : Nat
deriving DecidableEq

/-- The class `Accumulator::BatchProof` (accumulator.h:19-43). -/
structure BatchProof where
  /-- The positions of the leaves that are being proven. -/
  targets : List Nat
  /-- The proof hashes for the targets. -/
  proof : List Hash
deriving DecidableEq

/-- The data members of `RamForest` (ram_forest.h:12-34) and of its base class
that the operations below touch. -/
structure RamForest where
  /-- The leaf count of the forest state. -/
  m_num_leaves : Nat
  /-- A vector of hashes for each row. -/
  m_data : List (List Hash)
  /-- A map from leaf hashes to their positions. -/
  m_posmap : PosMap
  /-- The roots of the accumulator. -/
  m_roots : List Node
deriving DecidableEq

/-- Row `r` of a row vector, empty when the vector has no such row. -/
def rowAt (d : List (List Hash)) (r : Nat) : List Hash := d.getD r []

/-- The statement `data.at(row).push_back(h)`: `none` when `at` throws. -/
def pushAt : List (List Hash) → Nat → Hash → Option (List (List Hash))
  | [], _, _ => none
  | r :: rs, 0, h => some ((r ++ [h]) :: rs)
  | r :: rs, n + 1, h => (pushAt rs n h).map (fun rs' => r :: rs')

namespace RamForest

/-- The constructor `RamForest::RamForest(uint64_t num_leaves, int max_nodes)`
(ram_forest.cpp:89-94): one empty row, nothing else. -/
def init (num_leaves : Nat) : RamForest :=
  { m_num_leaves := num_leaves, m_data := [[]], m_posmap := [], m_roots := [] }

/-- The function `RamForest::Read` (ram_forest.cpp:190-203). -/
def Read (f : RamForest) (pos : Nat) : Option Hash :=
  let row := ForestState.DetectRow f.m_num_leaves pos
  let offset := ForestState.RowOffset f.m_num_leaves pos
  if row < f.m_data.length then
    let row_data := rowAt f.m_data row
    if pos - offset < row_data.length then row_data[pos - offset]? else none
  else none

/-- The function `RamForest::MergeRoot` (ram_forest.cpp:241-259). -/
def MergeRoot (f : RamForest) (parent_pos : Nat) (parent_hash : Hash) : Option RamForest :=
  if 2 ≤ f.m_roots.length then
    let roots := f.m_roots.dropLast.dropLast
    let row := ForestState.DetectRow f.m_num_leaves parent_pos
    if row < f.m_data.length then
      match pushAt f.m_data row parent_hash with
      | none => none
      | some data =>
        let node : Node := ⟨parent_hash, f.m_num_leaves, parent_pos⟩
        some { f with m_data := data, m_roots := roots ++ [node] }
    else none
  else none

/-- The function `RamForest::NewLeaf` (ram_forest.cpp:261-273). -/
def NewLeaf (f : RamForest) (leaf : Leaf) : Option RamForest :=
  match pushAt f.m_data 0 leaf.1 with
  | none => none
  | some data =>
    let new_root : Node := ⟨leaf.1, f.m_num_leaves, f.m_num_leaves⟩
    some { f with
      m_data := data
      m_roots := f.m_roots ++ [new_root]
      m_posmap := PosMap.assign f.m_posmap leaf.1 new_root.m_position }

end RamForest

/-! ## The shared `Add` driver -/

namespace Accumulator

/-- Modelled from the spec: the root-merging loop of `Accumulator::Add`
(accumulator.cpp is not among the sources). "Root-merging loop: while the
lowest bits of the pre-increment N indicate that two same-row roots now exist
…, pop both, compute their parent hash (left ‖ right), append it to row r+1,
push a new root handle at the parent position"; accumulator.h:125 words the
condition as "mergeRoot should be called for every consecutive least
significant bit that is set to 1". `n` is the leaf count before the
increment, `row` the bit under test; `none` at `fuel = 0` means the loop did
not finish. -/
def mergeRoots (ParentHash : Hash → Hash → Hash) :
    Nat → Nat → Nat → RamForest → Option RamForest
  | 0, _, _, _ => none
  | fuel + 1, n, row, f =>
    if ForestState.HasRoot n row then
      match f.m_roots.reverse with
      | right :: left :: _ =>
        match f.MergeRoot (ForestState.Parent f.m_num_leaves right.m_position)
            (ParentHash left.m_hash right.m_hash) with
        | none => none
        | some g => mergeRoots ParentHash fuel n (row + 1) g
      | _ => none
    else some f

/-- Modelled from the spec: one round of `Accumulator::Add` (accumulator.cpp is
not among the sources). "a. Append L.hash to row 0; record posmap[L.hash] = N;
push a new root handle for position N. b. Increment N. c. Root-merging loop". -/
def addLeaf (ParentHash : Hash → Hash → Hash) (f : RamForest) (leaf : Leaf) :
    Option RamForest :=
  match f.NewLeaf leaf with
  | none => none
  | some g =>
    mergeRoots ParentHash (ForestState.NumRows f.m_num_leaves + 1) f.m_num_leaves 0
      { g with m_num_leaves := g.m_num_leaves + 1 }

/-- Modelled from the spec: `Accumulator::Add` (accumulator.cpp is not among
the sources). "For each new leaf L in order: …"; the rounds have no failure
exit, so the result is `true` whenever they complete. -/
def Add (ParentHash : Hash → Hash → Hash) : RamForest → List Leaf → Option (Bool × RamForest)
  | f, [] => some (true, f)
  | f, leaf :: leaves =>
    match addLeaf ParentHash f leaf with
    | none => none
    | some g => Add ParentHash g leaves

end Accumulator

/-- The hash that ends up on row `k` above a new node of hash `c` when it is
merged `k` times, `lefts` being the hashes of the roots it meets (nearest
first): `c` itself for `k = 0`, then `ParentHash left below`. -/
def mergeHash (ParentHash : Hash → Hash → Hash) : List Hash → Hash → Nat → Hash
  | _, c, 0 => c
  | [], c, _ + 1 => c
  | a :: lefts, c, k + 1 => mergeHash ParentHash lefts (ParentHash a c) k

/-- The position map after `m[h] = n`, `m[h'] = n + 1`, … for the hashes of a
list in order. -/
def assignFrom : PosMap → List Hash → Nat → PosMap
  | m, [], _ => m
  | m, h :: hs, n => assignFrom (PosMap.assign m h n) hs (n + 1)

namespace RamForest

/-- The lengths the code gives to the rows: row `r` holds `N >> r` hashes (the
number of complete nodes of height `r` over `N` leaves), and a row that does
not exist holds none. -/
def RowLengths (f : RamForest) : Prop :=
  ∀ r, (rowAt f.m_data r).length = f.m_num_leaves >>> r

/-- Invariant R2 (Merkle): every entry of a row `r + 1` is the parent hash of
the entries `2 i` and `2 i + 1` of row `r`, which both exist. -/
def R2 (ParentHash : Hash → Hash → Hash) (f : RamForest) : Prop :=
  ∀ r i, i < (rowAt f.m_data (r + 1)).length →
    ∃ a b, (rowAt f.m_data r)[2 * i]? = some a ∧ (rowAt f.m_data r)[2 * i + 1]? = some b ∧
      (rowAt f.m_data (r + 1))[i]? = some (ParentHash a b)

/-- Invariant R3 (position map): "|posmap| == N; posmap[h] == p ⇔ row[0][p] == h". -/
def R3 (f : RamForest) : Prop :=
  PosMap.size f.m_posmap = f.m_num_leaves ∧
    ∀ h p, PosMap.find f.m_posmap h = some p ↔ (rowAt f.m_data 0)[p]? = some h

/-- Invariant R4 (roots): one handle per set bit of `N`, taller tree first, the
handle of the tree of height `r` carrying the hash stored in row `r` at the
index `(N >> r) - 1` of that tree's root. -/
def R4 (f : RamForest) : Prop :=
  f.m_roots.map (fun x => some x.m_hash) =
    (ForestState.rootRows f.m_num_leaves).map
      (fun r => (rowAt f.m_data r)[(f.m_num_leaves >>> r) - 1]?)

end RamForest

namespace RamForest

/-- The preallocation loop of `RamForest::Add` (ram_forest.cpp:372-378): for
`row = 0 .. rows`, append an empty row when `row >= m_data.size()`; `reserve`
does not change the contents. -/
def preallocate (d : List (List Hash)) (rows : Nat) : List (List Hash) :=
  (List.range (rows + 1)).foldl (fun d row => if d.length ≤ row then d ++ [[]] else d) d

/-- The function `RamForest::Add` (ram_forest.cpp:358-386). -/
def Add (ParentHash : Hash → Hash → Hash) (f : RamForest) (leaves : List Leaf) :
    Option (Bool × RamForest) :=
  if leaves.any (fun leaf => (PosMap.find f.m_posmap leaf.1).isSome) then
    some (false, f)
  else
    let next_num_leaves := f.m_num_leaves + leaves.length
    let data := preallocate f.m_data (ForestState.NumRows next_num_leaves)
    if ForestState.NumRows next_num_leaves < data.length then
      match Accumulator.Add ParentHash { f with m_data := data } leaves with
      | none => none
      | some (ok, g) =>
        if next_num_leaves = g.m_num_leaves then
          if PosMap.size g.m_posmap = g.m_num_leaves then some (ok, g) else none
        else none
    else none

/-- The first loop of `RamForest::Prove` (ram_forest.cpp:318-325): `none` is
the early `return false`. -/
def lookupTargets (m : PosMap) : List Hash → List Nat → Option (List Nat)
  | [], targets => some targets
  | hash :: rest, targets =>
    match PosMap.find m hash with
    | none => none
    | some pos => lookupTargets m rest (targets ++ [pos])

/-- The second loop of `RamForest::Prove` (ram_forest.cpp:335-338): read every
proof position, `none` when a `Read` fails. -/
def readAll (f : RamForest) : List Nat → Option (List Hash)
  | [] => some []
  | pos :: rest =>
    match f.Read pos with
    | none => none
    | some h => (readAll f rest).map (fun hs => h :: hs)

/-- The function `RamForest::Prove` (ram_forest.cpp:313-343). `ProofPositions`
stands for `ForestState(n).ProofPositions(sorted_targets).first`, which is not
among the sources; `proof` is the caller's object. The function is `const`:
the state after the call is the state before it. -/
def Prove (ProofPositions : Nat → List Nat → List Nat) (f : RamForest) (proof : BatchProof)
    (targetHashes : List Hash) : Option (Bool × BatchProof × RamForest) :=
  match lookupTargets f.m_posmap targetHashes [] with
  | none => some (false, proof, f)
  | some targets =>
    let sorted_targets := targets.insertionSort (· ≤ ·)
    if ForestState.CheckTargetsSanity f.m_num_leaves sorted_targets then
      match readAll f (ProofPositions f.m_num_leaves sorted_targets) with
      | none => none
      | some proof_hashes => some (true, ⟨targets, proof_hashes⟩, f)
    else none

/-- The function `RamForest::Verify` (ram_forest.cpp:345-356). -/
def Verify (f : RamForest) (_proof : BatchProof) : List Hash → Bool × RamForest
  | [] => (true, f)
  | hash :: rest =>
    match PosMap.find f.m_posmap hash with
    | none => (false, f)
    | some _ => Verify f _proof rest

end RamForest

/-! ## Removal: `FinalizeRemove`, `SwapRange`, `SwapSubTrees` -/

/-- The call `row.resize(n)` on a vector of hashes: cut to `n` entries, or
filled up to `n` entries with value-initialised (all zero) hashes. -/
def resizeRow (row : List Hash) (n : Nat) : List Hash :=
  row.take n ++ List.replicate (n - row.length) (mkHash 0)

/-- The statement `std::swap(row[x], row[y])`; `none` for an index outside the
vector. -/
def swapAt (row : List Hash) (x y : Nat) : Option (List Hash) :=
  match row[x]?, row[y]? with
  | some a, some b => some ((row.set x b).set y a)
  | _, _ => none

/-- The entry `p` of a row whose ranges `[x, x + R)` and `[y, y + R)` have
changed places, in terms of the row before. -/
def exchanged (row : List Hash) (x y R p : Nat) : Option Hash :=
  if x ≤ p ∧ p < x + R then row[p - x + y]?
  else if y ≤ p ∧ p < y + R then row[p - y + x]?
  else row[p]?

namespace RamForest

/-- The first loop of `RamForest::FinalizeRemove` (ram_forest.cpp:282-284):
`m_posmap.erase(Read(pos))` for `count` positions from `pos` on; `none` when a
`Read` fails. -/
def eraseLoop (f : RamForest) : Nat → Nat → PosMap → Option PosMap
  | 0, _, m => some m
  | count + 1, pos, m =>
    match f.Read pos with
    | none => none
    | some h => eraseLoop f count (pos + 1) (PosMap.erase m h)

/-- The second loop of `RamForest::FinalizeRemove` (ram_forest.cpp:290-294):
`m_data.at(row).resize(num_leaves); num_leaves >>= 1` for `count` rows from
`row` on; `none` when `at` throws. -/
def resizeRows : List (List Hash) → Nat → Nat → Nat → Option (List (List Hash))
  | d, 0, _, _ => some d
  | d, count + 1, row, num_leaves =>
    match d[row]? with
    | none => none
    | some r => resizeRows (d.set row (resizeRow r num_leaves)) count (row + 1) (num_leaves / 2)

/-- The third loop of `RamForest::FinalizeRemove` (ram_forest.cpp:303-308): a
handle for each new position, created under `next_num_leaves` and given the
hash `Read(new_pos)`; `none` when a `Read` fails. -/
def selectRoots (f : RamForest) (next_num_leaves : Nat) : List Nat → Option (List Node)
  | [] => some []
  | new_pos :: rest =>
    match f.Read new_pos with
    | none => none
    | some h =>
      (selectRoots f next_num_leaves rest).map (fun nodes => ⟨h, next_num_leaves, new_pos⟩ :: nodes)

/-- The function `RamForest::FinalizeRemove` (ram_forest.cpp:275-311). The
leaf count `m_num_leaves` is not assigned by it. -/
def FinalizeRemove (f : RamForest) (next_num_leaves : Nat) : Option RamForest :=
  if next_num_leaves ≤ f.m_num_leaves then
    match eraseLoop f (f.m_num_leaves - next_num_leaves) next_num_leaves f.m_posmap with
    | none => none
    | some posmap =>
      if PosMap.size posmap = next_num_leaves then
        match resizeRows f.m_data (ForestState.NumRows f.m_num_leaves) 0 next_num_leaves with
        | none => none
        | some data =>
          match selectRoots { f with m_posmap := posmap, m_data := data } next_num_leaves
              (ForestState.RootPositionsOf f.m_num_leaves next_num_leaves) with
          | none => none
          | some new_roots =>
            some { f with m_posmap := posmap, m_data := data, m_roots := new_roots }
      else none
  else none

/-- The loop of `RamForest::SwapRange` (ram_forest.cpp:213-218) on the row
vector `rowData` and the position map; `x` and `y` are `from - offset_from` and
`to - offset_to`, `i` runs over `count` values. `none` for an index outside
the row. -/
def swapLoop (row x y : Nat) : Nat → Nat → List Hash × PosMap → Option (List Hash × PosMap)
  | 0, _, st => some st
  | count + 1, i, (rowData, m) =>
    match swapAt rowData (x + i) (y + i) with
    | none => none
    | some rowData' =>
      match rowData'[x + i]?, rowData'[y + i]? with
      | some a, some b =>
        swapLoop row x y count (i + 1)
          (rowData', if row = 0 then PosMap.swapValues m a b else m)
      | _, _ => none

/-- The function `RamForest::SwapRange` (ram_forest.cpp:205-219); `none` when
`at` throws or an index is outside the row. -/
def SwapRange (f : RamForest) (src dst range : Nat) : Option RamForest :=
  let row := ForestState.DetectRow f.m_num_leaves src
  let offset_from := ForestState.RowOffset f.m_num_leaves src
  let offset_to := ForestState.RowOffset f.m_num_leaves dst
  match f.m_data[row]? with
  | none => none
  | some rowData =>
    match swapLoop row (src - offset_from) (dst - offset_to) range 0 (rowData, f.m_posmap) with
    | none => none
    | some (rowData', posmap) =>
      some { f with m_data := f.m_data.set row rowData', m_posmap := posmap }

/-- The loop of `RamForest::SwapSubTrees` (ram_forest.cpp:231-235), returning
the state and the final value of `to`; `none` at `fuel = 0` means the loop did
not finish. -/
def swapSubTreesLoop : Nat → Nat → Nat → Nat → RamForest → Option (RamForest × Nat)
  | 0, _, _, _, _ => none
  | fuel + 1, range, src, dst, f =>
    if range ≠ 0 then
      match f.SwapRange src dst range with
      | none => none
      | some g =>
        swapSubTreesLoop fuel (range / 2) (ForestState.Parent f.m_num_leaves src)
          (ForestState.Parent f.m_num_leaves dst) g
    else some (f, dst)

/-- The expression `1 << row` of `RamForest::SwapSubTrees`
(ram_forest.cpp:231), a shift of the `int` constant `1` whose result
initialises the `uint64_t range`: `2^row` for `row < 31`; at `row = 31` the
shift yields the `int` with bit pattern `0x80000000`, which converts to
`2^64 - 2^31`; from `row = 32` on the shift count reaches the width of `int`
and the expression has no defined value (`none`). -/
def intShiftLeftOne (row : Nat) : Option Nat :=
  if row < 31 then some (2 ^ row)
  else if row = 31 then some (2 ^ 64 - 2 ^ 31)
  else none

/-- The function `RamForest::SwapSubTrees` (ram_forest.cpp:221-239), returning
the handle it makes and the state. `uninit` is the content of the new handle's
`m_hash`, which its constructor does not set. A `uint64_t range` is 0 after at
most 64 halvings, so 65 rounds of fuel let the loop finish. -/
def SwapSubTrees (uninit : Hash) (f : RamForest) (src dst : Nat) : Option (Node × RamForest) :=
  let row := ForestState.DetectRow f.m_num_leaves src
  if row = ForestState.DetectRow f.m_num_leaves dst then
    match intShiftLeftOne row with
    | none => none
    | some range =>
      match swapSubTreesLoop 65 range
          (ForestState.LeftDescendant f.m_num_leaves src row)
          (ForestState.LeftDescendant f.m_num_leaves dst row) f with
      | none => none
      | some (g, dst') => some (⟨uninit, g.m_num_leaves, dst'⟩, g)
  else none

end RamForest

/-! ## Node handles -/

namespace Node

/-- The constructor `Node(forest, num_leaves, pos)` (ram_forest.cpp:21-28): it
leaves `m_hash` as it is, `uninit` being what the field holds. -/
def unset (uninit : Hash) (num_leaves pos : Nat) : Node := ⟨uninit, num_leaves, pos⟩

/-- The function `RamForest::Node::GetHash` (ram_forest.cpp:44-47). -/
def GetHash (nd : Node) : Hash := nd.m_hash

/-- The function `RamForest::Node::ReHash` (ram_forest.cpp:49-66), returning
the handle and the forest after the call; `none` when a `Read` fails, `at`
throws, or the written index is outside the row. -/
def ReHash (ParentHash : Hash → Hash → Hash) (nd : Node) (f : RamForest) :
    Option (Node × RamForest) :=
  let left_child_pos := ForestState.Child nd.m_num_leaves nd.m_position 0
  let right_child_pos := ForestState.Child nd.m_num_leaves nd.m_position 1
  match f.Read left_child_pos, f.Read right_child_pos with
  | some left_child_hash, some right_child_hash =>
    let h := ParentHash left_child_hash right_child_hash
    let row := ForestState.DetectRow nd.m_num_leaves nd.m_position
    let offset := ForestState.RowOffset nd.m_num_leaves nd.m_position
    match f.m_data[row]? with
    | none => none
    | some rowData =>
      if nd.m_position - offset < rowData.length then
        some ({ nd with m_hash := h },
          { f with m_data := f.m_data.set row (rowData.set (nd.m_position - offset) h) })
      else none
  | _, _ => none

/-- The function `RamForest::Node::Parent` (ram_forest.cpp:68-85) over a given
`RootPosition` function, together with the rows at which it evaluates that
function, in order: the source evaluates `state.RootPosition(row)` once, before
it tests `row_has_root && is_root`. The first component is the returned handle,
`none` standing for `nullptr`; `uninit` is the content of the new handle's
`m_hash`. -/
def ParentWith (RootPosition : Nat → Nat → Nat) (uninit : Hash) (nd : Node) :
    Option Node × List Nat :=
  let parent_pos := ForestState.Parent nd.m_num_leaves nd.m_position
  let row := ForestState.DetectRow nd.m_num_leaves nd.m_position
  let row_has_root := ForestState.HasRoot nd.m_num_leaves row
  let is_root := decide (RootPosition nd.m_num_leaves row = nd.m_position)
  (if row_has_root && is_root then none else some (unset uninit nd.m_num_leaves parent_pos),
    [row])

/-- The function `RamForest::Node::Parent` (ram_forest.cpp:68-85) with the rows
at which it evaluates `ForestState::RootPosition`. -/
def ParentTraced (uninit : Hash) (nd : Node) : Option Node × List Nat :=
  ParentWith ForestState.RootPosition uninit nd

/-- The function `RamForest::Node::Parent` (ram_forest.cpp:68-85). -/
def Parent (uninit : Hash) (nd : Node) : Option Node := (ParentTraced uninit nd).1

end Node

/-! ## The snapshot file -/

/-- The `std::fstream m_file` of ram_forest.h:34: the bytes of the file, the
file position, and whether the stream is in a failed state (`failbit`, which a
read that meets the end of the file sets). -/
structure FileStream where
  /-- The contents of the file. -/
  bytes : List Byte
  /-- The file position. -/
  pos : Nat
  /-- Whether `fail()` is true. -/
  failed : Bool
deriving DecidableEq

namespace FileStream

/-- The call `seekg(0)`: a failed stream stays where it is. -/
def seekg0 (s : FileStream) : FileStream :=
  if s.failed then s else { s with pos := 0 }

/-- The call `read(buf, n)` on a buffer of `n` bytes, returning the buffer
after the call. A failed stream extracts nothing. When fewer than `n` bytes are
left, those are stored at the front of the buffer, the rest of the buffer keeps
its previous contents, and the stream fails. -/
def read (s : FileStream) (n : Nat) (buf : { l : List Byte // l.length = n }) :
    { l : List Byte // l.length = n } × FileStream :=
  if s.failed then (buf, s)
  else
    if h : ((s.bytes.drop s.pos).take n).length < n then
      (⟨(s.bytes.drop s.pos).take n ++ buf.1.drop ((s.bytes.drop s.pos).take n).length, by
          simp only [List.length_append, List.length_drop, buf.2]
          omega⟩,
        { s with pos := s.pos + ((s.bytes.drop s.pos).take n).length, failed := true })
    else
      (⟨(s.bytes.drop s.pos).take n, by
          have h1 : ((s.bytes.drop s.pos).take n).length ≤ n := List.length_take_le _ _
          omega⟩,
        { s with pos := s.pos + n })

/-- The call `write(data, data.size())`: a failed stream writes nothing;
otherwise the bytes at the file position are overwritten and the file grows as
needed. -/
def write (s : FileStream) (data : List Byte) : FileStream :=
  if s.failed then s
  else
    { s with
      bytes := s.bytes.take s.pos ++ data ++ s.bytes.drop (s.pos + data.length)
      pos := s.pos + data.length }

end FileStream

/-- The `k` low-order base-256 digits of `n`, most significant first. -/
def beBytes : Nat → Nat → List Byte
  | 0, _ => []
  | k + 1, n => beBytes k (n / 256) ++ [⟨n % 256, Nat.mod_lt _ (by norm_num)⟩]

/-- Modelled from the spec: `WriteBE64` (crypto/common.h is not among the
sources). "offset 0: 8-byte big-endian N"; the argument is a `uint64_t`, so the
bytes encode `n mod 2^64`. -/
def WriteBE64 (n : Nat) : List Byte := beBytes 8 n

/-- Modelled from the spec: `ReadBE64` (crypto/common.h is not among the
sources). "offset 0: 8-byte big-endian N". -/
def ReadBE64 (buf : { l : List Byte // l.length = 8 }) : Nat :=
  buf.1.foldl (fun acc b => acc * 256 + b.val) 0

/-- The bytes of the hashes of a row, in order. -/
def rowBytes (row : List Hash) : List Byte := row.flatMap (fun h => h.1)

namespace RamForest

/-- The bytes that follow the header in a snapshot, as spec 4.6 lays them out
and as `Commit` writes them: for `count` rows from row `i` on, the first
`num_hashes` hashes of the row, `num_hashes` halving from row to row. -/
def payload (data : List (List Hash)) : Nat → Nat → Nat → List Byte
  | 0, _, _ => []
  | count + 1, i, num_hashes =>
    rowBytes ((rowAt data i).take num_hashes) ++ payload data count (i + 1) (num_hashes / 2)

/-- The inner loop of `RamForest::Commit` (ram_forest.cpp:181-183),
`for (int j = 0; j < num_hashes; ++j)` writing `m_data[i][j]`: `count` rounds
are left and `j` is the counter. `none` when `m_data[i][j]` is outside the row,
and when `++j` would pass `2^31 - 1`, the largest `int`: the overflow of the
counter has no defined behaviour. -/
def commitRow (row : List Hash) : Nat → Nat → FileStream → Option FileStream
  | 0, _, s => some s
  | count + 1, j, s =>
    match row[j]? with
    | none => none
    | some h => if j + 1 < 2 ^ 31 then commitRow row count (j + 1) (s.write h.1) else none

/-- The outer loop of `RamForest::Commit` (ram_forest.cpp:179-185); `count` is
the number of rows still to visit, `i` the row, `none` a failed assertion, a
row that does not exist, or an inner loop without a result. -/
def commitRows (data : List (List Hash)) : Nat → Nat → Nat → FileStream → Option FileStream
  | 0, _, _, s => some s
  | count + 1, i, num_hashes, s =>
    match data[i]? with
    | none => none
    | some row =>
      if num_hashes ≤ row.length then
        match commitRow row num_hashes 0 s with
        | none => none
        | some s' => commitRows data count (i + 1) (num_hashes / 2) s'
      else none

/-- The function `RamForest::Commit` (ram_forest.cpp:167-188). -/
def Commit (f : RamForest) (s : FileStream) : Option (Bool × RamForest × FileStream) :=
  let s1 := (s.seekg0).write (WriteBE64 f.m_num_leaves)
  match commitRows f.m_data (ForestState.NumRows f.m_num_leaves + 1) 0 f.m_num_leaves s1 with
  | none => none
  | some s2 => some (true, f, s2)

/-- A bound on the size of a row that holds for every implementation: a
`std::vector<Hash>` of 32-byte hashes cannot reach `2^59` elements, whose bytes
would not fit `size_t`; the `push_back` that would bring it there throws. -/
def maxRowHashes : Nat := 2 ^ 59

/-- The inner loop of `RamForest::Restore` (ram_forest.cpp:141-151) for one
row; `i` counts the hashes read so far, `uninit row i` is the content of the
local `hash` before the read. The hash is pushed whatever the read yields.
`capacity` is the number of hashes that the memory of the process lets a row
vector hold. `none` stands for a row `m_data[row]` that does not exist, or for a
`push_back` that throws because the row cannot grow: it holds `capacity` hashes
already (`std::bad_alloc`), or it would reach `maxRowHashes`. -/
def restoreRow (capacity : Nat) (uninit : Nat → Nat → Hash) (num_leaves num_hashes row : Nat) :
    Nat → Nat → Nat → RamForest × FileStream → Option (RamForest × FileStream)
  | 0, _, _, st => some st
  | count + 1, i, pos, (f, s) =>
    if (rowAt f.m_data row).length < capacity ∧
        (rowAt f.m_data row).length + 1 < maxRowHashes then
      match pushAt f.m_data row (s.read 32 (uninit row i)).1 with
      | none => none
      | some data =>
        restoreRow capacity uninit num_leaves num_hashes row count (i + 1) (pos + 1)
          ({ f with
              m_data := data
              m_posmap :=
                if num_hashes = num_leaves then
                  PosMap.assign f.m_posmap (s.read 32 (uninit row i)).1 pos
                else f.m_posmap },
            (s.read 32 (uninit row i)).2)
    else none

/-- The outer loop of `RamForest::Restore` (ram_forest.cpp:139-156); `none` at
`fuel = 0` means the loop did not finish. The argument of `RowOffset` is the
row number, as in the source. -/
def restoreRows (capacity : Nat) (uninit : Nat → Nat → Hash) (num_leaves : Nat) :
    Nat → Nat → Nat → RamForest × FileStream → Option (RamForest × FileStream)
  | 0, _, _, _ => none
  | fuel + 1, num_hashes, row, (f, s) =>
    if 0 < num_hashes then
      match restoreRow capacity uninit num_leaves num_hashes row num_hashes 0
          (ForestState.RowOffset num_leaves row) (f, s) with
      | none => none
      | some (g, s') =>
        restoreRows capacity uninit num_leaves fuel (num_hashes / 2) (row + 1)
          ({ g with m_data := g.m_data ++ [[]] }, s')
    else some (f, s)

/-- The last loop of `RamForest::Restore` (ram_forest.cpp:160-162): one handle
per root position, carrying `Read(pos)`; `none` when a `Read` fails. -/
def restoreRoots (f : RamForest) : List Nat → Option (List Node)
  | [] => some []
  | pos :: rest =>
    match f.Read pos with
    | none => none
    | some h => (restoreRoots f rest).map (fun nodes => ⟨h, f.m_num_leaves, pos⟩ :: nodes)

/-- The function `RamForest::Restore` (ram_forest.cpp:125-165). `uninit8` and
`uninit` are the contents of the locals `uint64_buf` and `hash` before they are
read into, `capacity` is the number of hashes that the memory lets a row hold.
`none` stands for a call that does not return: a row that cannot grow to the
announced size, or a failed `Read`. -/
def Restore (capacity : Nat) (uninit8 : { l : List Byte // l.length = 8 })
    (uninit : Nat → Nat → Hash)
    (f : RamForest) (s : FileStream) : Option (Bool × RamForest × FileStream) :=
  let s1 := s.seekg0
  let num_leaves := ReadBE64 (s1.read 8 uninit8).1
  match restoreRows capacity uninit num_leaves (ForestState.NumRows num_leaves + 1) num_leaves 0
      ({ f with m_num_leaves := num_leaves }, (s1.read 8 uninit8).2) with
  | none => none
  | some (g, s2) =>
    match restoreRoots g (ForestState.RootPositions num_leaves) with
    | none => none
    | some nodes => some (true, { g with m_roots := g.m_roots ++ nodes }, s2)

/-- The number of hashes that a snapshot of `n` leaves holds in the rows below
row `row`: row `r` holds `n >> r` of them. -/
def hashesBelow (n : Nat) : Nat → Nat
  | 0 => 0
  | row + 1 => hashesBelow n row + n >>> row

/-- The leaf count that `Restore` takes from a file with contents `bytes`
opened at its start (ram_forest.cpp:128-132): the value of the eight-byte buffer
after the first read, `uninit8` being what the buffer held before. -/
def headerLeaves (uninit8 : { l : List Byte // l.length = 8 }) (bytes : List Byte) : Nat :=
  ReadBE64 (((FileStream.mk bytes 0 false).seekg0).read 8 uninit8).1

/-- The stream of a file with contents `bytes`, opened at its start, once
`Restore` has read the header and `k` hashes: at offset `8 + 32 k` when the file
holds that many bytes, and otherwise at the end of the file in its failed
state. -/
def streamAt (bytes : List Byte) (k : Nat) : FileStream :=
  if 8 + 32 * k ≤ bytes.length then ⟨bytes, 8 + 32 * k, false⟩ else ⟨bytes, bytes.length, true⟩

end RamForest

/-! ## Reachable states and sample data -/

/-- The states reached from the empty forest by a sequence of calls of
`RamForest::Add` that return true. -/
inductive Reach (ParentHash : Hash → Hash → Hash) : RamForest → Prop
  | init : Reach ParentHash (RamForest.init 0)
  | add (f g : RamForest) (leaves : List Leaf) :
      Reach ParentHash f → RamForest.Add ParentHash f leaves = some (true, g) →
      Reach ParentHash g

/-- The states in which the merging loop of one round of the `Add` driver
stands at its head: `n` is the leaf count before the round and `row` the bit
under test. A round starts, by `NewLeaf` and the increment, from a state with
the code's row lengths whose rows `0 .. NumRows(n + 1) - 1` exist (every state
reached by `Add` is one, also between two leaves of a batch); each `MergeRoot`
call on the two last roots leads to the next loop head. -/
inductive MergeState (ParentHash : Hash → Hash → Hash) : Nat → Nat → RamForest → Prop
  | start (f g : RamForest) (leaf : Leaf) :
      RamForest.RowLengths f → ForestState.NumRows (f.m_num_leaves + 1) ≤ f.m_data.length →
      f.NewLeaf leaf = some g →
      MergeState ParentHash f.m_num_leaves 0 { g with m_num_leaves := g.m_num_leaves + 1 }
  | next (n row : Nat) (g g' : RamForest) (right left : Node) (rest : List Node) :
      MergeState ParentHash n row g → ForestState.HasRoot n row = true →
      g.m_roots.reverse = right :: left :: rest →
      g.MergeRoot (ForestState.Parent g.m_num_leaves right.m_position)
        (ParentHash left.m_hash right.m_hash) = some g' →
      MergeState ParentHash n (row + 1) g'

/-- A stand-in for the hash of two children in concrete examples: byte `i` of
the result is `2 x + 3 y + 7` for the bytes `x`, `y` at `i` of the children. -/
def sampleParentHash (a b : Hash) : Hash :=
  ⟨List.zipWith (fun x y => 2 * x + 3 * y + 7) a.1 b.1, by simp [a.2, b.2]⟩

/-- The forest after `Add([h1, h2, h3])` on the empty forest, with
`sampleParentHash` and `h_i = mkHash i`. -/
def sampleForest3 : RamForest :=
  { m_num_leaves := 3
    m_data := [[mkHash 1, mkHash 2, mkHash 3], [sampleParentHash (mkHash 1) (mkHash 2)], []]
    m_posmap := [(mkHash 1, 0), (mkHash 2, 1), (mkHash 3, 2)]
    m_roots := [⟨sampleParentHash (mkHash 1) (mkHash 2), 2, 2⟩, ⟨mkHash 3, 2, 2⟩] }

/-- The forest after `Add([h1, h2, h3, h4])` on the empty forest, with
`sampleParentHash` and `h_i = mkHash i`. -/
def sampleForest4 : RamForest :=
  { m_num_leaves := 4
    m_data := [[mkHash 1, mkHash 2, mkHash 3, mkHash 4],
      [sampleParentHash (mkHash 1) (mkHash 2), sampleParentHash (mkHash 3) (mkHash 4)],
      [sampleParentHash (sampleParentHash (mkHash 1) (mkHash 2))
        (sampleParentHash (mkHash 3) (mkHash 4))],
      []]
    m_posmap := [(mkHash 1, 0), (mkHash 2, 1), (mkHash 3, 2), (mkHash 4, 3)]
    m_roots := [⟨sampleParentHash (sampleParentHash (mkHash 1) (mkHash 2))
      (sampleParentHash (mkHash 3) (mkHash 4)), 4, 6⟩] }

/-- A forest state of `2^32` leaves with every row `r = 0 .. 32` holding its
`2^(32 - r)` hashes (all zero), an empty position map and no root handle. -/
def bigForest : RamForest :=
  { m_num_leaves := 2 ^ 32,
    m_data := (List.range 33).map (fun r => List.replicate (2 ^ (32 - r)) (mkHash 0)),
    m_posmap := [],
    m_roots := [] }

/-- An eight-byte buffer of zeros, for concrete examples. -/
def zeroBuffer8 : { l : List Byte // l.length = 8 } := ⟨List.replicate 8 0, by simp⟩

/-- A file stream whose file already holds 200 bytes and whose position is 5,
for concrete examples. -/
def sampleStream : FileStream := { bytes := List.replicate 200 9, pos := 5, failed := false }

/-! ## Lemmas on the position map -/

namespace PosMap

theorem find_assign_self (m : PosMap) (h : Hash) (p : Nat) : find (assign m h p) h = some p := by
  induction m with
  | nil => simp [assign, find]
  | cons e m ih =>
    obtain ⟨k, v⟩ := e
    by_cases hk : k = h
    · simp [assign, find, hk]
    · simp [assign, find, hk, ih]

theorem find_assign_ne (m : PosMap) (h h' : Hash) (p : Nat) (hne : h ≠ h') :
    find (assign m h p) h' = find m h' := by
  induction m with
  | nil => simp [assign, find, hne]
  | cons e m ih =>
    obtain ⟨k, v⟩ := e
    by_cases hk : k = h
    · subst hk
      simp [assign, find, hne]
    · by_cases hk' : k = h'
      · subst hk'
        simp [assign, find, hk]
      · simp [assign, find, hk, hk', ih]

theorem size_assign_of_find_none (m : PosMap) (h : Hash) (p : Nat) (hn : find m h = none) :
    size (assign m h p) = size m + 1 := by
  induction m with
  | nil => simp [assign, size]
  | cons e m ih =>
    obtain ⟨k, v⟩ := e
    by_cases hk : k = h
    · simp [find, hk] at hn
    · simp only [find, hk, if_false] at hn
      have := ih hn
      simp only [size] at this
      simp [assign, hk, size, this]

end PosMap

/-! ## Lemmas on the lookups of `Prove` and `Verify` -/

namespace RamForest

theorem lookupTargets_eq_none (m : PosMap) (hs : List Hash) (acc : List Nat) :
    lookupTargets m hs acc = none ↔ ∃ h ∈ hs, PosMap.find m h = none := by
  induction hs generalizing acc with
  | nil => simp [lookupTargets]
  | cons h hs ih =>
    cases hf : PosMap.find m h with
    | none => simp [lookupTargets, hf]
    | some p => simp [lookupTargets, hf, ih]

theorem lookupTargets_eq_some (m : PosMap) (hs : List Hash) (acc ts : List Nat)
    (h : lookupTargets m hs acc = some ts) :
    ∃ new, ts = acc ++ new ∧ hs.map (PosMap.find m) = new.map some := by
  induction hs generalizing acc with
  | nil =>
    simp only [lookupTargets, Option.some.injEq] at h
    exact ⟨[], by simp [h]⟩
  | cons x hs ih =>
    cases hf : PosMap.find m x with
    | none => simp [lookupTargets, hf] at h
    | some p =>
      simp only [lookupTargets, hf] at h
      obtain ⟨new, h1, h2⟩ := ih _ h
      exact ⟨p :: new, by simp [h1], by simp [hf, h2]⟩

theorem readAll_eq_some (f : RamForest) (ps : List Nat) (hs : List Hash)
    (h : readAll f ps = some hs) : ps.map f.Read = hs.map some := by
  induction ps generalizing hs with
  | nil =>
    simp only [readAll, Option.some.injEq] at h
    simp [← h]
  | cons p ps ih =>
    cases hr : f.Read p with
    | none => simp [readAll, hr] at h
    | some x =>
      simp only [readAll, hr] at h
      cases hrest : readAll f ps with
      | none => simp [hrest] at h
      | some rest =>
        simp only [hrest, Option.map_some', Option.some.injEq] at h
        simp [← h, hr, ih rest hrest]

theorem verify_fst (f : RamForest) (bp : BatchProof) (hs : List Hash) :
    (Verify f bp hs).1 = true ↔ ∀ h ∈ hs, PosMap.find f.m_posmap h ≠ none := by
  induction hs with
  | nil => simp [Verify]
  | cons h hs ih =>
    cases hf : PosMap.find f.m_posmap h with
    | none => simp [Verify, hf]
    | some p => simp [Verify, hf, ih]

theorem verify_snd (f : RamForest) (bp : BatchProof) (hs : List Hash) :
    (Verify f bp hs).2 = f := by
  induction hs with
  | nil => simp [Verify]
  | cons h hs ih =>
    cases hf : PosMap.find f.m_posmap h with
    | none => simp [Verify, hf]
    | some p => simp [Verify, hf, ih]

/-! ## Claims on `Add` with a known leaf, `Prove` and `Verify` -/

/-- C1: when some leaf of the batch has a hash that is already a key of the
position map, `RamForest::Add` returns false and the state after the call
(leaf count, rows, position map, root list) is the state before it. -/
theorem add_known_leaf_rejected (ParentHash : Hash → Hash → Hash) (f : RamForest)
    (leaves : List Leaf)
    (h : ∃ leaf ∈ leaves, PosMap.find f.m_posmap leaf.1 ≠ none) :
    Add ParentHash f leaves = some (false, f) := by
  have hany : leaves.any (fun leaf => (PosMap.find f.m_posmap leaf.1).isSome) = true := by
    obtain ⟨leaf, hmem, hne⟩ := h
    rw [List.any_eq_true]
    exact ⟨leaf, hmem, Option.isSome_iff_ne_none.mpr hne⟩
  simp [Add, hany]

/-- C6: `RamForest::Prove` returns false, with the caller's proof object and the
state untouched, exactly when some target hash is not a key of the position
map; and whatever it returns, the state is unchanged and a false result leaves
the caller's proof object as it was. -/
theorem prove_false_iff_unknown (ProofPositions : Nat → List Nat → List Nat) (f : RamForest)
    (proof : BatchProof) (targetHashes : List Hash) :
    (Prove ProofPositions f proof targetHashes = some (false, proof, f) ↔
        ∃ h ∈ targetHashes, PosMap.find f.m_posmap h = none) ∧
      ∀ ok out g, Prove ProofPositions f proof targetHashes = some (ok, out, g) →
        g = f ∧ (ok = false → out = proof) := by
  constructor
  · rw [← lookupTargets_eq_none f.m_posmap targetHashes []]
    cases hl : lookupTargets f.m_posmap targetHashes [] with
    | none => simp [Prove, hl]
    | some ts =>
      simp only [Prove, hl, reduceCtorEq, iff_false]
      split
      · split <;> simp
      · simp
  · intro ok out g hp
    cases hl : lookupTargets f.m_posmap targetHashes [] with
    | none =>
      simp only [Prove, hl, Option.some.injEq, Prod.mk.injEq] at hp
      obtain ⟨h1, h2, h3⟩ := hp
      exact ⟨h3.symm, fun _ => h2.symm⟩
    | some ts =>
      simp only [Prove, hl] at hp
      split at hp
      · split at hp
        · simp at hp
        · simp only [Option.some.injEq, Prod.mk.injEq] at hp
          obtain ⟨h1, h2, h3⟩ := hp
          exact ⟨h3.symm, fun h => by simp [← h1] at h⟩
      · simp at hp

/-- C7: when `RamForest::Prove` returns true, the targets of the emitted proof
are the position-map positions of the target hashes in the caller's order, and
its proof hashes are the hashes that `Read` returns at
`ProofPositions(sorted targets)`, in the order of `ProofPositions`. -/
theorem prove_true_output (ProofPositions : Nat → List Nat → List Nat) (f : RamForest)
    (proof out : BatchProof) (targetHashes : List Hash) (g : RamForest)
    (h : Prove ProofPositions f proof targetHashes = some (true, out, g)) :
    targetHashes.map (PosMap.find f.m_posmap) = out.targets.map some ∧
      (ProofPositions f.m_num_leaves (out.targets.insertionSort (· ≤ ·))).map f.Read =
        out.proof.map some := by
  cases hl : lookupTargets f.m_posmap targetHashes [] with
  | none => simp [Prove, hl] at h
  | some ts =>
    simp only [Prove, hl] at h
    split at h
    · split at h
      · simp at h
      · rename_i hs hr
        simp only [Option.some.injEq, Prod.mk.injEq, true_and] at h
        obtain ⟨h2, -⟩ := h
        subst h2
        obtain ⟨new, h1, h3⟩ := lookupTargets_eq_some _ _ _ _ hl
        simp only [List.nil_append] at h1
        subst h1
        exact ⟨h3, readAll_eq_some _ _ _ hr⟩
    · simp at h

/-- C8: `RamForest::Verify` returns true exactly when every target hash is a key
of the position map; its result is the same for any two proof arguments; and
the state after the call is the state before it. -/
theorem verify_checks_only_membership (f : RamForest) (proof : BatchProof)
    (target_hashes : List Hash) :
    ((Verify f proof target_hashes).1 = true ↔
        ∀ h ∈ target_hashes, PosMap.find f.m_posmap h ≠ none) ∧
      (∀ other : BatchProof, (Verify f other target_hashes).1 = (Verify f proof target_hashes).1) ∧
      (Verify f proof target_hashes).2 = f := by
  refine ⟨verify_fst f proof target_hashes, ?_, verify_snd f proof target_hashes⟩
  intro other
  rw [Bool.eq_iff_iff, verify_fst f other target_hashes, verify_fst f proof target_hashes]

end RamForest

/-! ## Lemmas on bit lengths and on the increment of a leaf count -/

namespace ForestState

theorem bitLen_le_iff (fuel n k : Nat) (hf : n ≤ fuel) : bitLen fuel n ≤ k ↔ n < 2 ^ k := by
  induction fuel generalizing n k with
  | zero =>
    have h0 : n = 0 := by omega
    subst h0
    simp [bitLen]
  | succ fuel ih =>
    by_cases hn : n = 0
    · subst hn
      simp [bitLen]
    · simp only [bitLen, hn, if_false]
      cases k with
      | zero =>
        simp only [pow_zero, Nat.lt_one_iff]
        omega
      | succ k =>
        rw [Nat.add_le_add_iff_right, ih (n / 2) k (by omega), pow_succ]
        omega

theorem NumRows_le_iff (n k : Nat) : NumRows n ≤ k ↔ n < 2 ^ k :=
  bitLen_le_iff n n k le_rfl

theorem lt_two_pow_NumRows (n : Nat) : n < 2 ^ NumRows n :=
  (NumRows_le_iff n _).mp le_rfl

theorem lt_NumRows_iff (n k : Nat) : k < NumRows n ↔ 2 ^ k ≤ n := by
  rw [← not_le, NumRows_le_iff, not_lt]

theorem NumRows_mono {m n : Nat} (h : m ≤ n) : NumRows m ≤ NumRows n := by
  rw [NumRows_le_iff]
  exact lt_of_le_of_lt h (lt_two_pow_NumRows n)

theorem bitLen_eq_NumRows (fuel n : Nat) (hf : n ≤ fuel) : bitLen fuel n = NumRows n := by
  apply le_antisymm
  · exact (bitLen_le_iff fuel n _ hf).mpr (lt_two_pow_NumRows n)
  · exact (NumRows_le_iff n _).mpr ((bitLen_le_iff fuel n _ hf).mp le_rfl)

theorem LayoutRows_eq (n : Nat) : LayoutRows n = NumRows (n - 1) :=
  bitLen_eq_NumRows n (n - 1) (Nat.sub_le n 1)

theorem LayoutRows_succ (n : Nat) : LayoutRows (n + 1) = NumRows n := by
  rw [LayoutRows_eq, Nat.add_sub_cancel]

theorem le_two_pow_LayoutRows (n : Nat) : n ≤ 2 ^ LayoutRows n := by
  rw [LayoutRows_eq]
  have := lt_two_pow_NumRows (n - 1)
  omega

theorem testBit_lt_NumRows {n r : Nat} (h : n.testBit r = true) : r < NumRows n :=
  (lt_NumRows_iff n r).mpr (Nat.testBit_implies_ge h)

theorem testBit_eq_false_of_NumRows_le {n r : Nat} (h : NumRows n ≤ r) : n.testBit r = false := by
  cases hb : n.testBit r with
  | false => rfl
  | true =>
    have := testBit_lt_NumRows hb
    omega

theorem testBit_iff_shiftRight_odd (n r : Nat) : n.testBit r = true ↔ (n >>> r) % 2 = 1 := by
  rw [Nat.testBit_to_div_mod, Nat.shiftRight_eq_div_pow]
  simp

theorem testBit_false_iff_shiftRight_even (n r : Nat) :
    n.testBit r = false ↔ (n >>> r) % 2 = 0 := by
  rw [← Bool.not_eq_true, testBit_iff_shiftRight_odd]
  omega

theorem shiftRight_succ_of_lowBitsSet {n j : Nat} (h : LowBitsSet n j) :
    ∀ r, r ≤ j → (n + 1) >>> r = (n >>> r) + 1 := by
  intro r
  induction r with
  | zero => intro _; rfl
  | succ r ih =>
    intro hr
    have h1 := ih (by omega)
    have h2 := (testBit_iff_shiftRight_odd n r).mp (h r (by omega))
    rw [Nat.shiftRight_succ, Nat.shiftRight_succ, h1]
    omega

theorem shiftRight_succ_above {n t : Nat} (h : LowBitsSet n t) (hc : n.testBit t = false) :
    ∀ r, t < r → (n + 1) >>> r = n >>> r := by
  intro r hr
  obtain ⟨d, rfl⟩ : ∃ d, r = t + 1 + d := ⟨r - (t + 1), by omega⟩
  have h1 := shiftRight_succ_of_lowBitsSet h t le_rfl
  have h2 := (testBit_false_iff_shiftRight_even n t).mp hc
  have h3 : (n + 1) >>> (t + 1) = n >>> (t + 1) := by
    rw [Nat.shiftRight_succ, Nat.shiftRight_succ, h1]
    omega
  rw [Nat.shiftRight_add (n + 1) (t + 1) d, Nat.shiftRight_add n (t + 1) d, h3]

theorem testBit_succ_above {n t : Nat} (h : LowBitsSet n t) (hc : n.testBit t = false)
    (r : Nat) (hr : t < r) : (n + 1).testBit r = n.testBit r := by
  have h1 := shiftRight_succ_above h hc r hr
  rw [Bool.eq_iff_iff, testBit_iff_shiftRight_odd, testBit_iff_shiftRight_odd, h1]

theorem testBit_succ_at {n t : Nat} (h : LowBitsSet n t) (hc : n.testBit t = false) :
    (n + 1).testBit t = true := by
  have h1 := shiftRight_succ_of_lowBitsSet h t le_rfl
  have h2 := (testBit_false_iff_shiftRight_even n t).mp hc
  rw [testBit_iff_shiftRight_odd, h1]
  omega

theorem testBit_succ_below {n t : Nat} (h : LowBitsSet n t) (r : Nat) (hr : r < t) :
    (n + 1).testBit r = false := by
  have h1 := shiftRight_succ_of_lowBitsSet h r (by omega)
  have h2 := (testBit_iff_shiftRight_odd n r).mp (h r hr)
  rw [testBit_false_iff_shiftRight_even, h1]
  omega

theorem lowBitsSet_le_NumRows {n t : Nat} (h : LowBitsSet n t) : t ≤ NumRows n := by
  cases t with
  | zero => exact Nat.zero_le _
  | succ t => exact testBit_lt_NumRows (h t (Nat.lt_succ_self t))

theorem two_pow_le_succ_of_lowBitsSet {n t : Nat} (h : LowBitsSet n t) : 2 ^ t ≤ n + 1 := by
  have h1 := shiftRight_succ_of_lowBitsSet h t le_rfl
  rw [Nat.shiftRight_eq_div_pow, Nat.shiftRight_eq_div_pow] at h1
  by_contra hlt
  rw [Nat.div_eq_of_lt (by omega)] at h1
  exact Nat.succ_ne_zero _ h1.symm

theorem lowBitsSet_lt_NumRows_succ {n t : Nat} (h : LowBitsSet n t) : t < NumRows (n + 1) :=
  (lt_NumRows_iff (n + 1) t).mpr (two_pow_le_succ_of_lowBitsSet h)

/-- Every number has a lowest clear bit, with all bits below it set. -/
theorem exists_lowest_clear_bit (n : Nat) :
    ∃ t, LowBitsSet n t ∧ n.testBit t = false := by
  have hex : ∃ t, n.testBit t = false :=
    ⟨NumRows n, testBit_eq_false_of_NumRows_le le_rfl⟩
  refine ⟨Nat.find hex, ?_, Nat.find_spec hex⟩
  intro r hr
  have := Nat.find_min hex hr
  simpa using this

end ForestState


/-! ## Lemmas on the list of root rows -/

namespace ForestState

theorem mem_bitsDesc (n : Nat) (lo c r : Nat) :
    r ∈ bitsDesc n lo c ↔ lo ≤ r ∧ r < lo + c ∧ n.testBit r = true := by
  induction c generalizing lo with
  | zero =>
    simp only [bitsDesc, List.not_mem_nil, false_iff]
    omega
  | succ c ih =>
    simp only [bitsDesc, List.mem_append, ih]
    cases hb : n.testBit lo with
    | true =>
      simp only [if_true, List.mem_singleton]
      constructor
      · rintro (⟨h1, h2, h3⟩ | rfl)
        · exact ⟨by omega, by omega, h3⟩
        · exact ⟨le_rfl, by omega, hb⟩
      · rintro ⟨h1, h2, h3⟩
        by_cases he : r = lo
        · exact Or.inr he
        · exact Or.inl ⟨by omega, by omega, h3⟩
    | false =>
      simp only [Bool.false_eq_true, if_false, List.not_mem_nil, or_false]
      constructor
      · rintro ⟨h1, h2, h3⟩
        exact ⟨by omega, by omega, h3⟩
      · rintro ⟨h1, h2, h3⟩
        have hne : r ≠ lo := by
          rintro rfl
          rw [hb] at h3
          exact Bool.false_ne_true h3
        exact ⟨by omega, by omega, h3⟩

theorem pairwise_bitsDesc (n : Nat) (lo c : Nat) : (bitsDesc n lo c).Pairwise (· > ·) := by
  induction c generalizing lo with
  | zero => simp [bitsDesc]
  | succ c ih =>
    simp only [bitsDesc]
    rw [List.pairwise_append]
    refine ⟨ih (lo + 1), ?_, ?_⟩
    · split <;> simp
    · intro a ha b hb
      have h1 := (mem_bitsDesc n (lo + 1) c a).mp ha
      split at hb
      · simp only [List.mem_singleton] at hb
        omega
      · simp at hb

theorem bitsDesc_congr (m n : Nat) (lo c : Nat)
    (h : ∀ r, lo ≤ r → r < lo + c → m.testBit r = n.testBit r) :
    bitsDesc m lo c = bitsDesc n lo c := by
  induction c generalizing lo with
  | zero => simp [bitsDesc]
  | succ c ih =>
    simp only [bitsDesc]
    rw [ih (lo + 1) (fun r h1 h2 => h r (by omega) (by omega)), h lo le_rfl (by omega)]

theorem bitsDesc_eq_nil (n : Nat) (lo c : Nat)
    (h : ∀ r, lo ≤ r → r < lo + c → n.testBit r = false) : bitsDesc n lo c = [] := by
  induction c generalizing lo with
  | zero => simp [bitsDesc]
  | succ c ih =>
    simp only [bitsDesc]
    rw [ih (lo + 1) (fun r h1 h2 => h r (by omega) (by omega)), h lo le_rfl (by omega)]
    simp

theorem bitsDesc_all_set (n : Nat) (lo c : Nat)
    (h : ∀ r, lo ≤ r → r < lo + c → n.testBit r = true) :
    bitsDesc n lo c = (List.range' lo c).reverse := by
  induction c generalizing lo with
  | zero => simp [bitsDesc]
  | succ c ih =>
    simp only [bitsDesc]
    rw [ih (lo + 1) (fun r h1 h2 => h r (by omega) (by omega)), h lo le_rfl (by omega),
      List.range'_succ]
    simp

theorem bitsDesc_add (n : Nat) (lo t c : Nat) :
    bitsDesc n lo (t + c) = bitsDesc n (lo + t) c ++ bitsDesc n lo t := by
  induction t generalizing lo with
  | zero => simp [bitsDesc]
  | succ t ih =>
    have h1 : t + 1 + c = (t + c) + 1 := by omega
    have h2 : lo + (t + 1) = lo + 1 + t := by omega
    rw [h1, h2]
    simp only [bitsDesc]
    rw [ih (lo + 1), List.append_assoc]

theorem rootRows_eq_of_cover (n c : Nat) (h : NumRows n ≤ c) : rootRows n = bitsDesc n 0 c := by
  obtain ⟨d, rfl⟩ : ∃ d, c = NumRows n + d := ⟨c - NumRows n, by omega⟩
  rw [bitsDesc_add, bitsDesc_eq_nil n (0 + NumRows n) d]
  · rfl
  · intro r h1 _
    exact testBit_eq_false_of_NumRows_le (by omega)

theorem mem_rootRows (n r : Nat) : r ∈ rootRows n ↔ n.testBit r = true := by
  unfold rootRows
  rw [mem_bitsDesc]
  constructor
  · exact fun h => h.2.2
  · intro h
    exact ⟨Nat.zero_le _, by have := testBit_lt_NumRows h; omega, h⟩

theorem pairwise_rootRows (n : Nat) : (rootRows n).Pairwise (· > ·) :=
  pairwise_bitsDesc n 0 _

theorem length_bitsDesc (n : Nat) (lo c : Nat) :
    (bitsDesc n lo c).length = ((List.range' lo c).filter (fun r => n.testBit r)).length := by
  induction c generalizing lo with
  | zero => simp [bitsDesc]
  | succ c ih =>
    simp only [bitsDesc, List.length_append, ih (lo + 1), List.range'_succ]
    by_cases hb : n.testBit lo = true
    · simp [hb, List.filter_cons]
    · simp [hb, List.filter_cons]

theorem length_rootRows (n : Nat) : (rootRows n).length = popcount n := by
  unfold rootRows popcount
  rw [length_bitsDesc, List.range_eq_range']

/-- When `t` is the lowest clear bit of `n`, the root rows of `n` and of `n + 1`
share the rows above `t`; below, `n` has the rows `t - 1, …, 0` and `n + 1` has
the single row `t`. -/
theorem rootRows_succ_decomp (n t : Nat) (h : LowBitsSet n t) (hc : n.testBit t = false) :
    ∃ hi : List Nat, (∀ r ∈ hi, t < r) ∧
      rootRows n = hi ++ (List.range' 0 t).reverse ∧ rootRows (n + 1) = hi ++ [t] := by
  refine ⟨bitsDesc n (t + 1) (NumRows (n + 1)), ?_, ?_, ?_⟩
  · intro r hr
    have := (mem_bitsDesc _ _ _ _).mp hr
    omega
  · rw [rootRows_eq_of_cover n ((t + 1) + NumRows (n + 1))
      (le_trans (NumRows_mono (Nat.le_succ n)) (Nat.le_add_left _ _)), bitsDesc_add]
    congr 1
    · rw [Nat.zero_add]
    · rw [bitsDesc_add, bitsDesc_all_set n 0 t (fun r _ h2 => h r (by omega))]
      rw [bitsDesc_eq_nil n (0 + t) 1 (fun r h1 h2 => by
        have : r = t := by omega
        rw [this]; exact hc)]
      rfl
  · rw [rootRows_eq_of_cover (n + 1) ((t + 1) + NumRows (n + 1)) (Nat.le_add_left _ _),
      bitsDesc_add]
    congr 1
    · rw [Nat.zero_add]
      exact bitsDesc_congr _ _ _ _ (fun r h1 _ => testBit_succ_above h hc r (by omega))
    · rw [bitsDesc_add, bitsDesc_eq_nil (n + 1) 0 t
        (fun r _ h2 => testBit_succ_below h r (by omega))]
      simp [bitsDesc, testBit_succ_at h hc]

theorem popcount_succ (n t : Nat) (h : LowBitsSet n t) (hc : n.testBit t = false) :
    popcount (n + 1) + t = popcount n + 1 := by
  obtain ⟨hi, -, h1, h2⟩ := rootRows_succ_decomp n t h hc
  rw [← length_rootRows, ← length_rootRows, h1, h2]
  simp
  omega

/-! ## Lemmas on the position layout -/

theorem rowStart_zero (H : Nat) : rowStart H 0 = 0 := by
  simp [rowStart]

theorem leadingOnes_congr (x y : Nat) (k : Nat) (h : ∀ b, b < k → x.testBit b = y.testBit b) :
    leadingOnes x k = leadingOnes y k := by
  induction k with
  | zero => rfl
  | succ k ih =>
    simp only [leadingOnes]
    rw [h k (Nat.lt_succ_self k), ih (fun b hb => h b (by omega))]

theorem leadingOnes_block (r : Nat) :
    ∀ K i, r < K → i < 2 ^ (K - 1 - r) → leadingOnes (2 ^ K - 2 ^ (K - r) + i) K = r := by
  induction r with
  | zero =>
    intro K i hK hi
    obtain ⟨K, rfl⟩ : ∃ k, K = k + 1 := ⟨K - 1, by omega⟩
    simp only [Nat.sub_zero, Nat.add_sub_cancel, Nat.sub_self, Nat.zero_add] at hi ⊢
    simp [leadingOnes, Nat.testBit_lt_two_pow hi]
  | succ r ih =>
    intro K i hK hi
    obtain ⟨K, rfl⟩ : ∃ k, K = k + 1 := ⟨K - 1, by omega⟩
    have e1 : K + 1 - (r + 1) = K - r := by omega
    have e2 : K + 1 - 1 - (r + 1) = K - 1 - r := by omega
    rw [e2] at hi
    rw [e1]
    have hp1 : 2 ^ (K - r) ≤ 2 ^ K := Nat.pow_le_pow_right (by norm_num) (Nat.sub_le K r)
    have hp2 : 2 ^ (K - r) = 2 * 2 ^ (K - 1 - r) := by
      rw [← pow_succ']
      congr 1
      omega
    have hx : 2 ^ (K + 1) - 2 ^ (K - r) + i = 2 ^ K + (2 ^ K - 2 ^ (K - r) + i) := by
      rw [pow_succ]
      omega
    have hy : 2 ^ K - 2 ^ (K - r) + i < 2 ^ K := by omega
    rw [hx]
    simp only [leadingOnes]
    rw [Nat.testBit_two_pow_add_eq, Nat.testBit_lt_two_pow hy]
    simp only [Bool.not_false, if_true]
    rw [leadingOnes_congr _ (2 ^ K - 2 ^ (K - r) + i) K
      (fun b hb => Nat.testBit_two_pow_add_gt hb _)]
    rw [ih K i (by omega) hi]

theorem DetectRow_row (n r i : Nat) (hr : r ≤ LayoutRows n) (hi : i < 2 ^ (LayoutRows n - r)) :
    DetectRow n (rowStart (LayoutRows n) r + i) = r := by
  unfold DetectRow rowStart
  exact leadingOnes_block r (LayoutRows n + 1) i (by omega) (by simpa using hi)

theorem RowOffset_row (n r i : Nat) (hr : r ≤ LayoutRows n) (hi : i < 2 ^ (LayoutRows n - r)) :
    RowOffset n (rowStart (LayoutRows n) r + i) = rowStart (LayoutRows n) r := by
  unfold RowOffset
  rw [DetectRow_row n r i hr hi]

theorem Parent_row (n r i : Nat) (hr : r ≤ LayoutRows n) (hi : i < 2 ^ (LayoutRows n - r)) :
    Parent n (rowStart (LayoutRows n) r + i) = rowStart (LayoutRows n) (r + 1) + i / 2 := by
  unfold Parent
  rw [RowOffset_row n r i hr hi, DetectRow_row n r i hr hi, Nat.add_sub_cancel_left]

theorem shiftRight_lt_of_lt_two_pow {n H : Nat} (h : n < 2 ^ H) (r : Nat) (hr : r ≤ H) :
    n >>> r < 2 ^ (H - r) := by
  rw [Nat.shiftRight_eq_div_pow]
  apply Nat.div_lt_of_lt_mul
  rw [← pow_add]
  have : r + (H - r) = H := by omega
  rw [this]
  exact h

end ForestState

/-! ## Lemmas on rows -/

theorem rowAt_nil (r : Nat) : rowAt [] r = [] := by
  simp [rowAt]

theorem rowAt_cons_zero (x : List Hash) (d : List (List Hash)) : rowAt (x :: d) 0 = x := by
  simp [rowAt]

theorem rowAt_cons_succ (x : List Hash) (d : List (List Hash)) (r : Nat) :
    rowAt (x :: d) (r + 1) = rowAt d r := by
  simp [rowAt]

theorem rowAt_of_length_le (d : List (List Hash)) (r : Nat) (h : d.length ≤ r) :
    rowAt d r = [] := by
  simp [rowAt, List.getElem?_eq_none h]

theorem pushAt_spec (d : List (List Hash)) (r : Nat) (h : Hash) (hr : r < d.length) :
    ∃ d', pushAt d r h = some d' ∧ d'.length = d.length ∧
      ∀ r', rowAt d' r' = rowAt d r' ++ (if r' = r then [h] else []) := by
  induction d generalizing r with
  | nil => simp at hr
  | cons x d ih =>
    cases r with
    | zero =>
      refine ⟨(x ++ [h]) :: d, rfl, rfl, ?_⟩
      intro r'
      cases r' with
      | zero => simp [rowAt_cons_zero]
      | succ r' => simp [rowAt_cons_succ]
    | succ r =>
      obtain ⟨d', h1, h2, h3⟩ := ih r (by simpa using hr)
      refine ⟨x :: d', by simp [pushAt, h1], by simp [h2], ?_⟩
      intro r'
      cases r' with
      | zero => simp [rowAt_cons_zero]
      | succ r' => simpa [rowAt_cons_succ] using h3 r'

theorem mergeHash_zero (PH : Hash → Hash → Hash) (l : List Hash) (c : Hash) :
    mergeHash PH l c 0 = c := by
  cases l <;> rfl

theorem mergeHash_cons_succ (PH : Hash → Hash → Hash) (a : Hash) (l : List Hash) (c : Hash)
    (k : Nat) : mergeHash PH (a :: l) c (k + 1) = mergeHash PH l (PH a c) k := rfl

/-! ## The merging loop -/

namespace RamForest

theorem MergeRoot_spec (g : RamForest) (pre : List Node) (left node : Node) (ppos : Nat)
    (ph : Hash) (row : Nat) (hroots : g.m_roots = pre ++ [left] ++ [node])
    (hrow : ForestState.DetectRow g.m_num_leaves ppos = row) (hlen : row < g.m_data.length) :
    ∃ d, pushAt g.m_data row ph = some d ∧
      MergeRoot g ppos ph =
        some { g with m_data := d, m_roots := pre ++ [⟨ph, g.m_num_leaves, ppos⟩] } := by
  obtain ⟨d, h1, -, -⟩ := pushAt_spec g.m_data row ph hlen
  refine ⟨d, h1, ?_⟩
  have h2 : 2 ≤ g.m_roots.length := by simp [hroots]
  have h3 : g.m_roots.dropLast.dropLast = pre := by simp [hroots]
  simp only [MergeRoot, h2, if_true, hrow, hlen, h1, h3]

end RamForest

namespace Accumulator

open ForestState in
theorem mergeRoots_spec (PH : Hash → Hash → Hash) (n t : Nat) (hlow : LowBitsSet n t)
    (hc : n.testBit t = false) :
    ∀ (k j : Nat), j + k = t → ∀ fuel, k < fuel →
      ∀ (g : RamForest) (pre : List Node) (node : Node),
        g.m_num_leaves = n + 1 → g.m_roots = pre ++ [node] →
        node.m_position = rowStart (NumRows n) j + (n >>> j) →
        k ≤ pre.length → t < g.m_data.length →
        ∃ g', mergeRoots PH fuel n j g = some g' ∧ g'.m_num_leaves = n + 1 ∧
          g'.m_posmap = g.m_posmap ∧ g'.m_data.length = g.m_data.length ∧
          (∀ r, rowAt g'.m_data r = rowAt g.m_data r ++
            (if j < r ∧ r ≤ t then
              [mergeHash PH (pre.map (fun x => x.m_hash)).reverse node.m_hash (r - j)]
            else [])) ∧
          g'.m_roots.map (fun x => x.m_hash) =
            (pre.map (fun x => x.m_hash)).take (pre.length - k) ++
              [mergeHash PH (pre.map (fun x => x.m_hash)).reverse node.m_hash k] := by
  intro k
  induction k with
  | zero =>
    intro j hj fuel hfuel g pre node hN hroots hpos hpre hdata
    obtain ⟨fuel, rfl⟩ : ∃ f, fuel = f + 1 := ⟨fuel - 1, by omega⟩
    have hjt : j = t := by omega
    subst hjt
    refine ⟨g, by simp [mergeRoots, HasRoot, hc], hN, rfl, rfl, ?_, ?_⟩
    · intro r
      have : ¬ (j < r ∧ r ≤ j) := by omega
      simp [this]
    · simp [hroots, mergeHash_zero]
  | succ k ih =>
    intro j hj fuel hfuel g pre node hN hroots hpos hpre hdata
    obtain ⟨fuel, rfl⟩ : ∃ f, fuel = f + 1 := ⟨fuel - 1, by omega⟩
    have hjt : j < t := by omega
    have hbit : n.testBit j = true := hlow j hjt
    have htH : t ≤ NumRows n := lowBitsSet_le_NumRows hlow
    have hne : pre ≠ [] := by
      intro h0
      rw [h0] at hpre
      simp at hpre
    obtain ⟨pre0, left, rfl⟩ : ∃ pre0 left, pre = pre0 ++ [left] :=
      ⟨pre.dropLast, pre.getLast hne, (List.dropLast_concat_getLast hne).symm⟩
    have hL : LayoutRows (n + 1) = NumRows n := LayoutRows_succ n
    have hsh := shiftRight_lt_of_lt_two_pow (lt_two_pow_NumRows n)
    have hpp : Parent g.m_num_leaves node.m_position =
        rowStart (NumRows n) (j + 1) + (n >>> (j + 1)) := by
      rw [hN, hpos, ← hL, Parent_row (n + 1) j (n >>> j) (by omega)
        (by rw [hL]; exact hsh j (by omega)), Nat.shiftRight_succ]
    have hrow : DetectRow g.m_num_leaves (Parent g.m_num_leaves node.m_position) = j + 1 := by
      rw [hpp, hN, ← hL]
      exact DetectRow_row (n + 1) (j + 1) _ (by omega) (by rw [hL]; exact hsh (j + 1) (by omega))
    obtain ⟨d, hd, hmr⟩ := RamForest.MergeRoot_spec g pre0 left node
      (Parent g.m_num_leaves node.m_position) (PH left.m_hash node.m_hash) (j + 1)
      hroots hrow (by omega)
    obtain ⟨d', hd', hdlen, hdrows⟩ := pushAt_spec g.m_data (j + 1) (PH left.m_hash node.m_hash)
      (by omega)
    rw [hd] at hd'
    cases hd'
    have hrev : g.m_roots.reverse = node :: left :: pre0.reverse := by simp [hroots]
    obtain ⟨g', h1, h2, h3, h4, h5, h6⟩ := ih (j + 1) (by omega) fuel (by omega)
      { g with m_data := d,
               m_roots := pre0 ++ [⟨PH left.m_hash node.m_hash, g.m_num_leaves,
                 Parent g.m_num_leaves node.m_position⟩] }
      pre0 ⟨PH left.m_hash node.m_hash, g.m_num_leaves, Parent g.m_num_leaves node.m_position⟩
      hN rfl hpp (by simpa using hpre) (by simpa [hdlen] using hdata)
    refine ⟨g', ?_, h2, h3, by rw [h4]; exact hdlen, ?_, ?_⟩
    · simp only [mergeRoots, HasRoot, hbit, if_true, hrev, hmr]
      exact h1
    · intro r
      rw [h5 r]
      simp only [hdrows r, List.map_append, List.map_cons, List.map_nil, List.reverse_append,
        List.reverse_cons, List.reverse_nil, List.nil_append, List.singleton_append,
        List.append_assoc]
      congr 1
      by_cases hr1 : r = j + 1
      · subst hr1
        have e1 : j + 1 - j = 1 := by omega
        have e2 : ¬ (j + 1 < j + 1 ∧ j + 1 ≤ t) := by omega
        have e3 : (j < j + 1 ∧ j + 1 ≤ t) := by omega
        simp [e1, e2, e3, mergeHash_cons_succ, mergeHash_zero]
      · by_cases hr2 : j + 1 < r ∧ r ≤ t
        · have e3 : (j < r ∧ r ≤ t) := by omega
          have e4 : r - j = (r - (j + 1)) + 1 := by omega
          simp only [hr1, hr2, e3, if_true, if_false, List.nil_append, and_self]
          rw [e4, mergeHash_cons_succ]
        · have e3 : ¬ (j < r ∧ r ≤ t) := by omega
          simp [hr1, hr2, e3]
    · rw [h6]
      simp only [List.map_append, List.map_cons, List.map_nil, List.reverse_append,
        List.reverse_cons, List.reverse_nil, List.nil_append, List.singleton_append,
        List.length_append, List.length_singleton, mergeHash_cons_succ]
      congr 1
      have e5 : pre0.length + 1 - (k + 1) = pre0.length - k := by omega
      rw [e5, List.take_append_of_le_length (by simp)]

open ForestState in
theorem addLeaf_spec (PH : Hash → Hash → Hash) (f : RamForest) (leaf : Leaf) (t : Nat)
    (hlow : LowBitsSet f.m_num_leaves t) (hc : f.m_num_leaves.testBit t = false)
    (hroots : t ≤ f.m_roots.length) (hdata : t < f.m_data.length) :
    ∃ g, addLeaf PH f leaf = some g ∧ g.m_num_leaves = f.m_num_leaves + 1 ∧
      g.m_posmap = PosMap.assign f.m_posmap leaf.1 f.m_num_leaves ∧
      g.m_data.length = f.m_data.length ∧
      (∀ r, rowAt g.m_data r = rowAt f.m_data r ++
        (if r ≤ t then [mergeHash PH (f.m_roots.map (fun x => x.m_hash)).reverse leaf.1 r]
          else [])) ∧
      g.m_roots.map (fun x => x.m_hash) =
        (f.m_roots.map (fun x => x.m_hash)).take (f.m_roots.length - t) ++
          [mergeHash PH (f.m_roots.map (fun x => x.m_hash)).reverse leaf.1 t] := by
  obtain ⟨d, hd, hdlen, hdrows⟩ := pushAt_spec f.m_data 0 leaf.1 (by omega)
  obtain ⟨g', h1, h2, h3, h4, h5, h6⟩ := mergeRoots_spec PH f.m_num_leaves t hlow hc t 0
    (by omega) (NumRows f.m_num_leaves + 1) (by have := lowBitsSet_le_NumRows hlow; omega)
    { m_num_leaves := f.m_num_leaves + 1, m_data := d,
      m_posmap := PosMap.assign f.m_posmap leaf.1 f.m_num_leaves,
      m_roots := f.m_roots ++ [⟨leaf.1, f.m_num_leaves, f.m_num_leaves⟩] }
    f.m_roots ⟨leaf.1, f.m_num_leaves, f.m_num_leaves⟩ rfl rfl
    (by simp [rowStart_zero]) hroots (by simpa [hdlen] using hdata)
  refine ⟨g', ?_, h2, h3, by rw [h4]; exact hdlen, ?_, h6⟩
  · simp only [addLeaf, RamForest.NewLeaf, hd]
    exact h1
  · intro r
    rw [h5 r]
    simp only [hdrows r, List.append_assoc]
    congr 1
    cases r with
    | zero => simp [mergeHash_zero]
    | succ r =>
      by_cases hr : r + 1 ≤ t
      · simp [hr]
      · simp [hr]

end Accumulator

/-! ## One round of `Add` keeps the row lengths, R2 and R4 -/

theorem getElem?_append_of_eq_some {α : Type} (l l' : List α) (i : Nat) (a : α)
    (h : l[i]? = some a) : (l ++ l')[i]? = some a := by
  obtain ⟨hi, _⟩ := List.getElem?_eq_some.mp h
  rw [List.getElem?_append_left hi, h]

theorem getElem?_append_singleton_length {α : Type} (l : List α) (a : α) (i : Nat)
    (h : i = l.length) : (l ++ [a])[i]? = some a := by
  subst h
  simp

theorem mergeHash_succ_of_getElem? (PH : Hash → Hash → Hash) :
    ∀ (r : Nat) (lefts : List Hash) (c a : Hash), lefts[r]? = some a →
      mergeHash PH lefts c (r + 1) = PH a (mergeHash PH lefts c r) := by
  intro r
  induction r with
  | zero =>
    intro lefts c a h
    cases lefts with
    | nil => simp at h
    | cons b l =>
      simp only [List.getElem?_cons_zero, Option.some.injEq] at h
      subst h
      simp [mergeHash_cons_succ, mergeHash_zero]
  | succ r ih =>
    intro lefts c a h
    cases lefts with
    | nil => simp at h
    | cons b l =>
      simp only [List.getElem?_cons_succ] at h
      rw [mergeHash_cons_succ, ih l (PH b c) a h, mergeHash_cons_succ]

namespace Accumulator

open ForestState RamForest in
theorem addLeaf_preserves (PH : Hash → Hash → Hash) (f : RamForest) (leaf : Leaf)
    (hL : RowLengths f) (h2 : R2 PH f) (h4 : R4 f)
    (hdata : NumRows (f.m_num_leaves + 1) < f.m_data.length) :
    ∃ g, addLeaf PH f leaf = some g ∧ g.m_num_leaves = f.m_num_leaves + 1 ∧
      g.m_posmap = PosMap.assign f.m_posmap leaf.1 f.m_num_leaves ∧
      g.m_data.length = f.m_data.length ∧
      rowAt g.m_data 0 = rowAt f.m_data 0 ++ [leaf.1] ∧
      RowLengths g ∧ R2 PH g ∧ R4 g := by
  obtain ⟨t, hlow, hc⟩ := exists_lowest_clear_bit f.m_num_leaves
  obtain ⟨hi, hhi, hrn, hrn1⟩ := rootRows_succ_decomp f.m_num_leaves t hlow hc
  have hlen : f.m_roots.length = hi.length + t := by
    have := congrArg List.length h4
    simpa [hrn] using this
  obtain ⟨g, hg, hN, hpm, hdl, hrows, hroots⟩ := addLeaf_spec PH f leaf t hlow hc
    (by omega) (by have := lowBitsSet_lt_NumRows_succ hlow; omega)
  have hsh1 := shiftRight_succ_of_lowBitsSet hlow
  have hsh2 := shiftRight_succ_above hlow hc
  -- the hashes of the roots that get merged
  have hrev : (f.m_roots.map (fun x => x.m_hash)).reverse.map some =
      (List.range' 0 t).map (fun r => (rowAt f.m_data r)[(f.m_num_leaves >>> r) - 1]?) ++
        (hi.map (fun r => (rowAt f.m_data r)[(f.m_num_leaves >>> r) - 1]?)).reverse := by
    have h5 := congrArg List.reverse h4
    rw [hrn] at h5
    simpa [List.map_reverse] using h5
  have hK1 : ∀ r, r < t → ∃ a, (f.m_roots.map (fun x => x.m_hash)).reverse[r]? = some a ∧
      (rowAt f.m_data r)[(f.m_num_leaves >>> r) - 1]? = some a := by
    intro r hr
    have h6 := congrArg (fun l => l[r]?) hrev
    simp only [List.getElem?_map] at h6
    rw [List.getElem?_append_left (by simpa using hr)] at h6
    rw [List.getElem?_map, List.getElem?_range' _ _ hr] at h6
    simp only [Nat.zero_add, Nat.one_mul, Option.map_some'] at h6
    cases hx : (f.m_roots.map (fun x => x.m_hash)).reverse[r]? with
    | none =>
      rw [hx] at h6
      simp at h6
    | some a =>
      rw [hx] at h6
      simp only [Option.map_some', Option.some.injEq] at h6
      exact ⟨a, rfl, h6.symm⟩
  have hrow0 : rowAt g.m_data 0 = rowAt f.m_data 0 ++ [leaf.1] := by
    rw [hrows 0]
    simp [mergeHash_zero]
  have hLg : RowLengths g := by
    intro r
    rw [hrows r, hN, List.length_append, hL r]
    by_cases hr : r ≤ t
    · simp only [hr, if_true, List.length_singleton]
      exact (hsh1 r hr).symm
    · simp only [hr, if_false, List.length_nil, Nat.add_zero]
      exact (hsh2 r (by omega)).symm
  refine ⟨g, hg, hN, hpm, hdl, hrow0, hLg, ?_, ?_⟩
  · intro r i hi'
    rw [hLg (r + 1), hN] at hi'
    by_cases hold : i < f.m_num_leaves >>> (r + 1)
    · obtain ⟨a, b, ha, hb, hab⟩ := h2 r i (by rw [hL (r + 1)]; exact hold)
      refine ⟨a, b, ?_, ?_, ?_⟩
      · rw [hrows r]
        exact getElem?_append_of_eq_some _ _ _ _ ha
      · rw [hrows r]
        exact getElem?_append_of_eq_some _ _ _ _ hb
      · rw [hrows (r + 1)]
        exact getElem?_append_of_eq_some _ _ _ _ hab
    · have hrt : r + 1 ≤ t := by
        by_contra hgt
        rw [hsh2 (r + 1) (by omega)] at hi'
        exact hold hi'
      have hi2 : i = f.m_num_leaves >>> (r + 1) := by
        rw [hsh1 (r + 1) hrt] at hi'
        omega
      obtain ⟨a, ha1, ha2⟩ := hK1 r (by omega)
      have hodd := (testBit_iff_shiftRight_odd _ r).mp (hlow r (by omega))
      have hhalf : f.m_num_leaves >>> (r + 1) = (f.m_num_leaves >>> r) / 2 :=
        Nat.shiftRight_succ _ _
      refine ⟨a, mergeHash PH (f.m_roots.map (fun x => x.m_hash)).reverse leaf.1 r, ?_, ?_, ?_⟩
      · rw [hrows r]
        apply getElem?_append_of_eq_some
        have e : 2 * i = (f.m_num_leaves >>> r) - 1 := by omega
        rw [e]
        exact ha2
      · rw [hrows r]
        simp only [show r ≤ t by omega, if_true]
        apply getElem?_append_singleton_length
        rw [hL r]
        omega
      · rw [hrows (r + 1)]
        simp only [hrt, if_true]
        rw [mergeHash_succ_of_getElem? PH r _ leaf.1 a ha1]
        apply getElem?_append_singleton_length
        rw [hL (r + 1)]
        exact hi2
  · unfold R4
    rw [hN, hrn1]
    have h7 : g.m_roots.map (fun x => some x.m_hash) =
        (g.m_roots.map (fun x => x.m_hash)).map some := by simp
    have h8 : (f.m_roots.map (fun x => x.m_hash)).map some =
        f.m_roots.map (fun x => some x.m_hash) := by simp
    rw [h7, hroots, List.map_append, List.map_take, h8, h4, hrn, List.map_append, hlen,
      Nat.add_sub_cancel, List.take_left' (by simp), List.map_append]
    congr 1
    · apply List.map_congr_left
      intro r hr
      have hr' := hhi r hr
      rw [hrows r, hsh2 r hr']
      simp [show ¬ r ≤ t by omega]
    · rw [List.map_singleton, List.map_singleton, hrows t, hsh1 t le_rfl]
      simp only [le_refl, if_true, Nat.add_sub_cancel]
      congr 1
      exact (getElem?_append_singleton_length _ _ _ (hL t).symm).symm

end Accumulator

/-! ## Lemmas on a run of assignments and on the preallocation -/

theorem find_assignFrom_of_not_mem (hs : List Hash) :
    ∀ (m : PosMap) (n : Nat) (h : Hash), h ∉ hs →
      PosMap.find (assignFrom m hs n) h = PosMap.find m h := by
  induction hs with
  | nil => intro m n h _; rfl
  | cons x hs ih =>
    intro m n h hmem
    simp only [List.mem_cons, not_or] at hmem
    simp only [assignFrom]
    rw [ih _ _ _ hmem.2, PosMap.find_assign_ne _ _ _ _ (Ne.symm hmem.1)]

theorem find_assignFrom_getElem (hs : List Hash) (hnd : hs.Nodup) :
    ∀ (m : PosMap) (n i : Nat) (h : Hash), hs[i]? = some h →
      PosMap.find (assignFrom m hs n) h = some (n + i) := by
  induction hs with
  | nil => intro m n i h hi; simp at hi
  | cons x hs ih =>
    intro m n i h hi
    rw [List.nodup_cons] at hnd
    simp only [assignFrom]
    cases i with
    | zero =>
      simp only [List.getElem?_cons_zero, Option.some.injEq] at hi
      subst hi
      rw [find_assignFrom_of_not_mem hs _ _ _ hnd.1, PosMap.find_assign_self]
      rfl
    | succ i =>
      simp only [List.getElem?_cons_succ] at hi
      rw [ih hnd.2 _ _ i h hi]
      congr 1
      omega

theorem size_assignFrom (hs : List Hash) (hnd : hs.Nodup) :
    ∀ (m : PosMap) (n : Nat), (∀ h ∈ hs, PosMap.find m h = none) →
      PosMap.size (assignFrom m hs n) = PosMap.size m + hs.length := by
  induction hs with
  | nil => intro m n _; rfl
  | cons x hs ih =>
    intro m n hfresh
    rw [List.nodup_cons] at hnd
    simp only [assignFrom]
    rw [ih hnd.2 _ _ (fun h hh => by
      rw [PosMap.find_assign_ne _ _ _ _ (fun e => hnd.1 (by rw [e]; exact hh))]
      exact hfresh h (List.mem_cons_of_mem _ hh))]
    rw [PosMap.size_assign_of_find_none _ _ _ (hfresh x (List.mem_cons_self _ _))]
    simp only [List.length_cons]
    omega

namespace RamForest

theorem preallocate_aux (l : List Nat) :
    ∀ d : List (List Hash),
      (∀ r, rowAt (l.foldl (fun d row => if d.length ≤ row then d ++ [[]] else d) d) r =
        rowAt d r) ∧
      d.length ≤ (l.foldl (fun d row => if d.length ≤ row then d ++ [[]] else d) d).length := by
  induction l with
  | nil => intro d; simp
  | cons x l ih =>
    intro d
    simp only [List.foldl_cons]
    obtain ⟨h1, h2⟩ := ih (if d.length ≤ x then d ++ [[]] else d)
    constructor
    · intro r
      rw [h1 r]
      split
      · rename_i hx
        by_cases hr : r < d.length
        · simp [rowAt, List.getElem?_append_left hr]
        · by_cases hr2 : r = d.length
          · subst hr2
            simp [rowAt]
          · rw [rowAt_of_length_le _ _ (by simp; omega), rowAt_of_length_le _ _ (by omega)]
      · rfl
    · refine le_trans ?_ h2
      split
      · simp
      · exact le_rfl

theorem rowAt_preallocate (d : List (List Hash)) (rows r : Nat) :
    rowAt (preallocate d rows) r = rowAt d r :=
  (preallocate_aux _ d).1 r

theorem le_length_foldl_range (d : List (List Hash)) (m : Nat) :
    m ≤ ((List.range m).foldl (fun d row => if d.length ≤ row then d ++ [[]] else d) d).length := by
  induction m with
  | zero => exact Nat.zero_le _
  | succ m ih =>
    rw [List.range_succ, List.foldl_append]
    simp only [List.foldl_cons, List.foldl_nil]
    split
    · simp only [List.length_append, List.length_singleton]
      omega
    · omega

theorem lt_length_preallocate (d : List (List Hash)) (rows : Nat) :
    rows < (preallocate d rows).length :=
  le_length_foldl_range d (rows + 1)

end RamForest

namespace ForestState

theorem lowBitsSet_le_popcount {n t : Nat} (h : LowBitsSet n t) (hc : n.testBit t = false) :
    t ≤ popcount n := by
  obtain ⟨hi, -, h1, -⟩ := rootRows_succ_decomp n t h hc
  rw [← length_rootRows, h1]
  simp

end ForestState

/-! ## The `Add` driver on a whole batch -/

namespace Accumulator

open ForestState in
theorem Add_spec (PH : Hash → Hash → Hash) :
    ∀ (leaves : List Leaf) (f : RamForest), popcount f.m_num_leaves ≤ f.m_roots.length →
      NumRows (f.m_num_leaves + leaves.length) < f.m_data.length →
      ∃ g, Add PH f leaves = some (true, g) ∧
        g.m_num_leaves = f.m_num_leaves + leaves.length ∧
        g.m_posmap = assignFrom f.m_posmap (leaves.map (fun l => l.1)) f.m_num_leaves ∧
        rowAt g.m_data 0 = rowAt f.m_data 0 ++ leaves.map (fun l => l.1) ∧
        g.m_data.length = f.m_data.length := by
  intro leaves
  induction leaves with
  | nil =>
    intro f _ _
    exact ⟨f, rfl, rfl, rfl, by simp, rfl⟩
  | cons leaf leaves ih =>
    intro f hroots hdata
    obtain ⟨t, hlow, hc⟩ := exists_lowest_clear_bit f.m_num_leaves
    have ht1 := lowBitsSet_le_popcount hlow hc
    have ht2 := lowBitsSet_lt_NumRows_succ hlow
    have ht3 : NumRows (f.m_num_leaves + 1) ≤ NumRows (f.m_num_leaves + (leaf :: leaves).length) :=
      NumRows_mono (by simp)
    obtain ⟨g, hg, hN, hpm, hdl, hrows, hr⟩ := addLeaf_spec PH f leaf t hlow hc
      (by omega) (by omega)
    have hpc := popcount_succ f.m_num_leaves t hlow hc
    have hrl : g.m_roots.length = f.m_roots.length - t + 1 := by
      have := congrArg List.length hr
      simpa using this
    obtain ⟨g', h1, h2, h3, h4, h5⟩ := ih g (by rw [hN]; omega)
      (by
        rw [hN, hdl]
        simp only [List.length_cons] at hdata
        have e : f.m_num_leaves + 1 + leaves.length = f.m_num_leaves + (leaves.length + 1) := by
          omega
        rw [e]
        exact hdata)
    refine ⟨g', ?_, ?_, ?_, ?_, ?_⟩
    · simp only [Add, hg]
      exact h1
    · rw [h2, hN]
      simp only [List.length_cons]
      omega
    · rw [h3, hpm, hN]
      rfl
    · rw [h4, hrows 0]
      simp [mergeHash_zero]
    · rw [h5, hdl]

open ForestState RamForest in
theorem Add_preserves (PH : Hash → Hash → Hash) :
    ∀ (leaves : List Leaf) (f : RamForest), RowLengths f → R2 PH f → R4 f →
      NumRows (f.m_num_leaves + leaves.length) < f.m_data.length →
      ∃ g, Add PH f leaves = some (true, g) ∧
        g.m_num_leaves = f.m_num_leaves + leaves.length ∧
        g.m_data.length = f.m_data.length ∧ RowLengths g ∧ R2 PH g ∧ R4 g := by
  intro leaves
  induction leaves with
  | nil =>
    intro f hL h2 h4 _
    exact ⟨f, rfl, rfl, rfl, hL, h2, h4⟩
  | cons leaf leaves ih =>
    intro f hL h2 h4 hdata
    have ht3 : NumRows (f.m_num_leaves + 1) ≤ NumRows (f.m_num_leaves + (leaf :: leaves).length) :=
      NumRows_mono (by simp)
    obtain ⟨g, hg, hN, -, hdl, -, hLg, h2g, h4g⟩ := addLeaf_preserves PH f leaf hL h2 h4
      (by omega)
    obtain ⟨g', h1, hN', hdl', hL', h2', h4'⟩ := ih g hLg h2g h4g
      (by
        rw [hN, hdl]
        simp only [List.length_cons] at hdata
        have e : f.m_num_leaves + 1 + leaves.length = f.m_num_leaves + (leaves.length + 1) := by
          omega
        rw [e]
        exact hdata)
    refine ⟨g', ?_, ?_, by rw [hdl', hdl], hL', h2', h4'⟩
    · simp only [Add, hg]
      exact h1
    · rw [hN', hN]
      simp only [List.length_cons]
      omega

end Accumulator

/-! ## Claims on `Add` -/

namespace RamForest

open ForestState in
theorem Read_RootPosition (f : RamForest) (r : Nat)
    (hrow : r < f.m_data.length) (hbit : f.m_num_leaves.testBit r = true) :
    f.Read (RootPosition f.m_num_leaves r) = (rowAt f.m_data r)[(f.m_num_leaves >>> r) - 1]? := by
  have hN := le_two_pow_LayoutRows f.m_num_leaves
  have hge := Nat.testBit_implies_ge hbit
  have hr : r ≤ LayoutRows f.m_num_leaves := by
    by_contra hlt
    have : 2 ^ LayoutRows f.m_num_leaves < 2 ^ r := Nat.pow_lt_pow_right (by norm_num) (by omega)
    omega
  have hodd := (testBit_iff_shiftRight_odd _ r).mp hbit
  have hhalf : f.m_num_leaves >>> (r + 1) = (f.m_num_leaves >>> r) / 2 := Nat.shiftRight_succ _ _
  have hle : f.m_num_leaves >>> r ≤ 2 ^ (LayoutRows f.m_num_leaves - r) := by
    rw [Nat.shiftRight_eq_div_pow, ← Nat.pow_div hr (by norm_num)]
    exact Nat.div_le_div_right hN
  have hi : 2 * (f.m_num_leaves >>> (r + 1)) < 2 ^ (LayoutRows f.m_num_leaves - r) := by omega
  have hidx : 2 * (f.m_num_leaves >>> (r + 1)) = (f.m_num_leaves >>> r) - 1 := by omega
  unfold Read RootPosition rootPositionIn
  rw [DetectRow_row _ r _ hr hi, RowOffset_row _ r _ hr hi]
  simp only [Nat.add_sub_cancel_left, hidx, hrow, if_true]
  split
  · rfl
  · rename_i hlt
    rw [List.getElem?_eq_none (by omega)]

theorem R4_length {f : RamForest} (h : R4 f) :
    f.m_roots.length = ForestState.popcount f.m_num_leaves := by
  have := congrArg List.length h
  simpa [ForestState.length_rootRows] using this

end RamForest

open ForestState RamForest in
theorem Reach_inv (PH : Hash → Hash → Hash) (f : RamForest) (h : Reach PH f) :
    RowLengths f ∧ R2 PH f ∧ R4 f ∧ NumRows f.m_num_leaves < f.m_data.length := by
  induction h with
  | init =>
    refine ⟨?_, ?_, ?_, ?_⟩
    · intro r
      cases r with
      | zero => rfl
      | succ r => simp [RamForest.init, rowAt]
    · intro r i hi
      simp [RamForest.init, rowAt] at hi
    · rfl
    · decide
  | add f g leaves _ hadd ih =>
    obtain ⟨hL, h2, h4, _⟩ := ih
    obtain ⟨g0, h1, hN, hdl, hL', h2', h4'⟩ := Accumulator.Add_preserves PH leaves
      { f with m_data := preallocate f.m_data (NumRows (f.m_num_leaves + leaves.length)) }
      (fun r => by rw [← hL r]; exact congrArg List.length (rowAt_preallocate _ _ r))
      (fun r i hi => by
        simp only [rowAt_preallocate] at hi ⊢
        exact h2 r i hi)
      (by
        unfold R4
        simp only [rowAt_preallocate]
        exact h4)
      (lt_length_preallocate _ _)
    unfold RamForest.Add at hadd
    split at hadd
    · simp at hadd
    · simp only [lt_length_preallocate, if_true, h1] at hadd
      split at hadd
      · split at hadd
        · simp only [Option.some.injEq, Prod.mk.injEq, true_and] at hadd
          subst hadd
          refine ⟨hL', h2', h4', ?_⟩
          rw [hdl, hN]
          exact lt_length_preallocate _ _
        · simp at hadd
      · simp at hadd

theorem reach_sampleForest3 : Reach sampleParentHash sampleForest3 :=
  Reach.add (RamForest.init 0) sampleForest3
    [(mkHash 1, false), (mkHash 2, false), (mkHash 3, true)] Reach.init (by decide)

namespace RamForest

/-- C2 (the code at the failing input): on the empty forest, `Add([h, h])` passes
the duplicate check, the driver appends both leaves (leaf count 2, one
position-map entry), and the final assertion `m_posmap.size() == m_num_leaves`
fails: the call does not return false and the state is not left unchanged. -/
theorem add_repeated_hash_asserts (ParentHash : Hash → Hash → Hash) (h : Hash) (b1 b2 : Bool) :
    Add ParentHash (init 0) [(h, b1), (h, b2)] = none ∧
      ∃ g, Accumulator.Add ParentHash
          { init 0 with m_data := preallocate (init 0).m_data (ForestState.NumRows 2) }
          [(h, b1), (h, b2)] = some (true, g) ∧
        g.m_num_leaves = 2 ∧ PosMap.size g.m_posmap = 1 := by
  obtain ⟨g, h1, h2, h3, -, -⟩ := Accumulator.Add_spec ParentHash [(h, b1), (h, b2)]
    { init 0 with m_data := preallocate (init 0).m_data (ForestState.NumRows 2) }
    (by decide) (lt_length_preallocate _ _)
  have hpm : g.m_posmap = [(h, 1)] := by
    rw [h3]
    simp [assignFrom, PosMap.assign, init]
  have hN : g.m_num_leaves = 2 := by
    rw [h2]
    rfl
  refine ⟨?_, g, h1, hN, by rw [hpm]; rfl⟩
  have hany : List.any [(h, b1), (h, b2)]
      (fun leaf => (PosMap.find (init 0).m_posmap leaf.1).isSome) = false := by
    simp [init, PosMap.find]
  unfold Add
  rw [hany]
  simp only [Bool.false_eq_true, if_false]
  have hlen : (init 0).m_num_leaves + [(h, b1), (h, b2)].length = 2 := rfl
  rw [hlen]
  simp only [lt_length_preallocate, if_true, h1, hN, hpm, PosMap.size]
  simp

/-- C3: on a state that satisfies R3 and whose root list holds a handle for
every tree (at least popcount(N) handles, as R4 gives), `RamForest::Add` of `k`
leaves with pairwise distinct hashes, none of them a key of the position map,
returns true (so both final assertions hold); afterwards the leaf count is
`N + k`, row 0 is the old row 0 followed by the new hashes in input order, the
position map sends the `i`-th new hash to `N + i`, keeps every old entry, and
has `N + k` entries. -/
theorem add_fresh_leaves (ParentHash : Hash → Hash → Hash) (f : RamForest) (leaves : List Leaf)
    (hR3 : R3 f) (hroots : ForestState.popcount f.m_num_leaves ≤ f.m_roots.length)
    (hnd : (leaves.map (fun l => l.1)).Nodup)
    (hfresh : ∀ leaf ∈ leaves, PosMap.find f.m_posmap leaf.1 = none) :
    ∃ g, Add ParentHash f leaves = some (true, g) ∧
      g.m_num_leaves = f.m_num_leaves + leaves.length ∧
      rowAt g.m_data 0 = rowAt f.m_data 0 ++ leaves.map (fun l => l.1) ∧
      (∀ i h, (leaves.map (fun l => l.1))[i]? = some h →
        PosMap.find g.m_posmap h = some (f.m_num_leaves + i)) ∧
      (∀ h p, PosMap.find f.m_posmap h = some p → PosMap.find g.m_posmap h = some p) ∧
      PosMap.size g.m_posmap = f.m_num_leaves + leaves.length := by
  have hany : leaves.any (fun leaf => (PosMap.find f.m_posmap leaf.1).isSome) = false := by
    rw [List.any_eq_false]
    intro leaf hl
    simp [hfresh leaf hl]
  have hfresh' : ∀ h ∈ leaves.map (fun l => l.1), PosMap.find f.m_posmap h = none := by
    intro h hh
    obtain ⟨leaf, hl, rfl⟩ := List.mem_map.mp hh
    exact hfresh leaf hl
  obtain ⟨g, h1, h2, h3, h4, -⟩ := Accumulator.Add_spec ParentHash leaves
    { f with m_data := preallocate f.m_data (ForestState.NumRows (f.m_num_leaves + leaves.length)) }
    hroots (lt_length_preallocate _ _)
  simp only [rowAt_preallocate] at h4
  simp only at h2 h3
  have hsize : PosMap.size g.m_posmap = f.m_num_leaves + leaves.length := by
    rw [h3, size_assignFrom _ hnd _ _ hfresh', hR3.1]
    simp
  refine ⟨g, ?_, h2, h4, ?_, ?_, hsize⟩
  · unfold Add
    rw [hany]
    simp only [Bool.false_eq_true, if_false, lt_length_preallocate, if_true, h1, h2, hsize]
  · intro i h hi
    rw [h3]
    exact find_assignFrom_getElem _ hnd _ _ i h hi
  · intro h p hp
    rw [h3, find_assignFrom_of_not_mem _ _ _ _ (fun hmem => by
      rw [hfresh' h hmem] at hp
      simp at hp)]
    exact hp

/-- Witness for C3: the empty forest and the leaves `h1, h2, h3`. -/
theorem add_fresh_leaves_witness :
    ∃ g, Add sampleParentHash (init 0) [(mkHash 1, false), (mkHash 2, false), (mkHash 3, true)] =
        some (true, g) ∧
      g.m_num_leaves = (init 0).m_num_leaves + 3 ∧
      rowAt g.m_data 0 = rowAt (init 0).m_data 0 ++ [mkHash 1, mkHash 2, mkHash 3] ∧
      (∀ i h, ([mkHash 1, mkHash 2, mkHash 3] : List Hash)[i]? = some h →
        PosMap.find g.m_posmap h = some ((init 0).m_num_leaves + i)) ∧
      (∀ h p, PosMap.find (init 0).m_posmap h = some p → PosMap.find g.m_posmap h = some p) ∧
      PosMap.size g.m_posmap = (init 0).m_num_leaves + 3 :=
  add_fresh_leaves sampleParentHash (init 0)
    [(mkHash 1, false), (mkHash 2, false), (mkHash 3, true)]
    ⟨rfl, by intro h p; cases p <;> simp [init, PosMap.find, rowAt]⟩ (by decide) (by decide)
    (by intro leaf _; rfl)

end RamForest

/-- C4: in every state reached from the empty forest by successful `Add` calls
the root list holds exactly popcount(N) handles; the rows that hold a root are
the set bits of `N` listed in decreasing order (taller tree first); and the
handle of the tree of height `r` carries the hash stored in row `r` at index
`(N >> r) - 1`, which is the hash that `Read` returns at that tree's root
position. -/
theorem roots_after_adds (ParentHash : Hash → Hash → Hash) (f : RamForest)
    (h : Reach ParentHash f) :
    f.m_roots.length = ForestState.popcount f.m_num_leaves ∧
      (ForestState.rootRows f.m_num_leaves).Pairwise (· > ·) ∧
      (∀ r, r ∈ ForestState.rootRows f.m_num_leaves ↔ f.m_num_leaves.testBit r = true) ∧
      f.m_roots.map (fun x => some x.m_hash) =
        (ForestState.rootRows f.m_num_leaves).map
          (fun r => (rowAt f.m_data r)[(f.m_num_leaves >>> r) - 1]?) ∧
      f.m_roots.map (fun x => some x.m_hash) =
        (ForestState.RootPositions f.m_num_leaves).map f.Read := by
  obtain ⟨-, -, h4, hrows⟩ := Reach_inv ParentHash f h
  refine ⟨RamForest.R4_length h4, ForestState.pairwise_rootRows _, ForestState.mem_rootRows _, h4,
    ?_⟩
  rw [h4]
  unfold ForestState.RootPositions
  rw [List.map_map]
  apply List.map_congr_left
  intro r hr
  have hbit := (ForestState.mem_rootRows _ r).mp hr
  have := ForestState.testBit_lt_NumRows hbit
  exact (RamForest.Read_RootPosition f r (by omega) hbit).symm

/-- Witness for C4: after `Add([h1, h2, h3])` on the empty forest the roots are
`[H(h1‖h2), h3]`. -/
theorem roots_after_adds_witness :
    Reach sampleParentHash sampleForest3 ∧
      sampleForest3.m_roots.map (fun x => x.m_hash) =
        [sampleParentHash (mkHash 1) (mkHash 2), mkHash 3] ∧
      (sampleForest3.m_roots.length = ForestState.popcount sampleForest3.m_num_leaves ∧
        (ForestState.rootRows sampleForest3.m_num_leaves).Pairwise (· > ·) ∧
        (∀ r, r ∈ ForestState.rootRows sampleForest3.m_num_leaves ↔
          sampleForest3.m_num_leaves.testBit r = true) ∧
        sampleForest3.m_roots.map (fun x => some x.m_hash) =
          (ForestState.rootRows sampleForest3.m_num_leaves).map
            (fun r => (rowAt sampleForest3.m_data r)[(sampleForest3.m_num_leaves >>> r) - 1]?) ∧
        sampleForest3.m_roots.map (fun x => some x.m_hash) =
          (ForestState.RootPositions sampleForest3.m_num_leaves).map sampleForest3.Read) :=
  ⟨reach_sampleForest3, rfl, roots_after_adds sampleParentHash sampleForest3 reach_sampleForest3⟩

/-- C5: in every state reached from the empty forest by successful `Add` calls,
every entry `i` of every row `r + 1` is `ParentHash` of the entries `2 i` and
`2 i + 1` of row `r`, and both of these exist (invariant R2). -/
theorem merkle_after_adds (ParentHash : Hash → Hash → Hash) (f : RamForest)
    (h : Reach ParentHash f) :
    ∀ r i, i < (rowAt f.m_data (r + 1)).length →
      ∃ a b, (rowAt f.m_data r)[2 * i]? = some a ∧ (rowAt f.m_data r)[2 * i + 1]? = some b ∧
        (rowAt f.m_data (r + 1))[i]? = some (ParentHash a b) :=
  (Reach_inv ParentHash f h).2.1

/-- Witness for C5: the forest after `Add([h1, h2, h3])`. -/
theorem merkle_after_adds_witness :
    Reach sampleParentHash sampleForest3 ∧
      ∀ r i, i < (rowAt sampleForest3.m_data (r + 1)).length →
        ∃ a b, (rowAt sampleForest3.m_data r)[2 * i]? = some a ∧
          (rowAt sampleForest3.m_data r)[2 * i + 1]? = some b ∧
          (rowAt sampleForest3.m_data (r + 1))[i]? = some (sampleParentHash a b) :=
  ⟨reach_sampleForest3, merkle_after_adds sampleParentHash sampleForest3 reach_sampleForest3⟩

namespace RamForest

/-- Witness for C1: a forest that holds `h1` is asked to add `h1` again. -/
theorem add_known_leaf_rejected_witness :
    (∃ leaf ∈ [((mkHash 1, false) : Leaf)],
        PosMap.find sampleForest3.m_posmap leaf.1 ≠ none) ∧
      Add sampleParentHash sampleForest3 [(mkHash 1, false)] = some (false, sampleForest3) :=
  ⟨⟨(mkHash 1, false), by simp, by decide⟩,
    add_known_leaf_rejected sampleParentHash sampleForest3 [(mkHash 1, false)]
      ⟨(mkHash 1, false), by simp, by decide⟩⟩

/-- Witness for C7: on the forest after `Add([h1, h2, h3])`, proving `h2` then
`h1` with the sibling positions as proof positions. -/
theorem prove_true_output_witness :
    Prove (fun _ ts => ts.map (fun t => t ^^^ 1)) sampleForest3 ⟨[], []⟩ [mkHash 2, mkHash 1] =
        some (true, ⟨[1, 0], [mkHash 2, mkHash 1]⟩, sampleForest3) ∧
      ([mkHash 2, mkHash 1].map (PosMap.find sampleForest3.m_posmap) =
          (BatchProof.mk [1, 0] [mkHash 2, mkHash 1]).targets.map some ∧
        ((fun (_ : Nat) (ts : List Nat) => ts.map (fun t => t ^^^ 1)) sampleForest3.m_num_leaves
            ((BatchProof.mk [1, 0] [mkHash 2, mkHash 1]).targets.insertionSort (· ≤ ·))).map
            sampleForest3.Read =
          (BatchProof.mk [1, 0] [mkHash 2, mkHash 1]).proof.map some) :=
  ⟨by decide,
    prove_true_output (fun _ ts => ts.map (fun t => t ^^^ 1)) sampleForest3 ⟨[], []⟩
      ⟨[1, 0], [mkHash 2, mkHash 1]⟩ [mkHash 2, mkHash 1] sampleForest3 (by decide)⟩

end RamForest

/-! ## Lemmas on the snapshot file -/

theorem length_beBytes (k n : Nat) : (beBytes k n).length = k := by
  induction k generalizing n with
  | zero => rfl
  | succ k ih => simp [beBytes, ih]

theorem foldl_beBytes (k n : Nat) :
    (beBytes k n).foldl (fun acc (b : Byte) => acc * 256 + b.val) 0 = n % 256 ^ k := by
  induction k generalizing n with
  | zero => simp [beBytes, Nat.mod_one]
  | succ k ih =>
    simp only [beBytes, List.foldl_append, List.foldl_cons, List.foldl_nil, ih]
    rw [pow_succ', Nat.mod_mul]
    omega

theorem ReadBE64_WriteBE64 (n : Nat) (h : (WriteBE64 n).length = 8) :
    ReadBE64 ⟨WriteBE64 n, h⟩ = n % 2 ^ 64 := by
  unfold ReadBE64
  simp only [WriteBE64]
  rw [foldl_beBytes]
  norm_num

theorem rowBytes_cons (h : Hash) (hs : List Hash) : rowBytes (h :: hs) = h.1 ++ rowBytes hs := by
  simp [rowBytes]

theorem rowBytes_nil : rowBytes [] = [] := rfl

namespace FileStream

theorem read_spec (s : FileStream) (n : Nat) (buf : { l : List Byte // l.length = n })
    (a rest : List Byte) (hg : s.failed = false) (hrem : s.bytes.drop s.pos = a ++ rest)
    (ha : a.length = n) :
    (s.read n buf).1 = ⟨a, ha⟩ ∧ (s.read n buf).2.failed = false ∧
      (s.read n buf).2.bytes = s.bytes ∧
      (s.read n buf).2.bytes.drop (s.read n buf).2.pos = rest := by
  have htake : (s.bytes.drop s.pos).take n = a := by
    rw [hrem]
    exact List.take_left' ha
  have hnot : ¬ ((s.bytes.drop s.pos).take n).length < n := by
    rw [htake, ha]
    exact Nat.lt_irrefl n
  unfold read
  simp only [hg, Bool.false_eq_true, if_false, hnot, dite_false]
  refine ⟨Subtype.ext htake, trivial, trivial, ?_⟩
  have h1 : s.bytes.drop (s.pos + n) = (s.bytes.drop s.pos).drop n := by
    rw [List.drop_drop, Nat.add_comm]
  rw [h1, hrem]
  exact List.drop_left' ha

theorem write_spec (w old a : List Byte) :
    (FileStream.mk (w ++ old.drop w.length) w.length false).write a =
      FileStream.mk ((w ++ a) ++ old.drop (w ++ a).length) (w ++ a).length false := by
  have e1 : (w ++ old.drop w.length).take w.length = w := List.take_left' rfl
  have e2 : (w ++ old.drop w.length).drop (w.length + a.length) =
      old.drop (w.length + a.length) := by
    rw [List.drop_append, List.drop_drop]
  unfold write
  simp only [Bool.false_eq_true, if_false, e1, e2, List.length_append]

end FileStream

namespace RamForest

theorem commitRow_spec (row : List Hash) :
    ∀ (count j : Nat) (w old : List Byte), j + count ≤ row.length → j + count < 2 ^ 31 →
      commitRow row count j (FileStream.mk (w ++ old.drop w.length) w.length false) =
        some (FileStream.mk
          ((w ++ rowBytes ((row.drop j).take count)) ++
            old.drop (w ++ rowBytes ((row.drop j).take count)).length)
          (w ++ rowBytes ((row.drop j).take count)).length false) := by
  intro count
  induction count with
  | zero =>
    intro j w old _ _
    simp [commitRow, rowBytes_nil]
  | succ count ih =>
    intro j w old hlen hint
    have hj : j < row.length := by omega
    have hdrop : row.drop j = row[j] :: row.drop (j + 1) := List.drop_eq_getElem_cons hj
    have := ih (j + 1) (w ++ (row[j]).1) old (by omega) (by omega)
    simp only [commitRow, List.getElem?_eq_getElem hj, show j + 1 < 2 ^ 31 by omega, if_true]
    rw [FileStream.write_spec, this, hdrop, List.take_succ_cons, rowBytes_cons]
    simp only [List.append_assoc]

/-- From `2^31` hashes on, the counter `int j` of `Commit` leaves its range:
the inner loop has no result. -/
theorem commitRow_overflow (row : List Hash) :
    ∀ (count j : Nat) (s : FileStream), j < 2 ^ 31 → 2 ^ 31 ≤ j + count →
      commitRow row count j s = none := by
  intro count
  induction count with
  | zero =>
    intro j s h1 h2
    omega
  | succ count ih =>
    intro j s h1 h2
    simp only [commitRow]
    cases row[j]? with
    | none => rfl
    | some h =>
      simp only
      by_cases hj : j + 1 < 2 ^ 31
      · rw [if_pos hj]
        exact ih (j + 1) _ hj (by omega)
      · rw [if_neg hj]

theorem commitRows_spec (data : List (List Hash)) :
    ∀ (count i num_hashes : Nat) (w old : List Byte),
      (∀ k, k < count → i + k < data.length ∧ num_hashes >>> k ≤ (rowAt data (i + k)).length) →
      num_hashes < 2 ^ 31 →
      commitRows data count i num_hashes (FileStream.mk (w ++ old.drop w.length) w.length false) =
        some (FileStream.mk
          ((w ++ payload data count i num_hashes) ++
            old.drop (w ++ payload data count i num_hashes).length)
          (w ++ payload data count i num_hashes).length false) := by
  intro count
  induction count with
  | zero =>
    intro i nh w old _ _
    simp [commitRows, payload]
  | succ count ih =>
    intro i nh w old hrows hint
    obtain ⟨h1, h2⟩ := hrows 0 (Nat.succ_pos _)
    simp only [Nat.add_zero, Nat.shiftRight_zero] at h1 h2
    have hrow : data[i]? = some (rowAt data i) := by
      simp [rowAt, List.getElem?_eq_getElem h1]
    have hih := ih (i + 1) (nh / 2) (w ++ rowBytes ((rowAt data i).take nh)) old (by
      intro k hk
      obtain ⟨h3, h4⟩ := hrows (k + 1) (by omega)
      have e : i + 1 + k = i + (k + 1) := by omega
      rw [e]
      refine ⟨h3, ?_⟩
      rw [Nat.shiftRight_succ_inside] at h4
      exact h4) (by omega)
    simp only [commitRows, hrow, h2, if_true, payload]
    rw [commitRow_spec (rowAt data i) nh 0 w old (by omega) (by omega)]
    simp only [List.drop_zero]
    rw [hih]
    simp only [List.append_assoc]

end RamForest

/-! ## The loops of `Restore` -/

namespace RamForest

/-- A read of `n` bytes at offset `p` of a file stream that has not failed when
`p` is within the file and has failed otherwise: the buffer gets the bytes the
file has there, the rest of the buffer keeps its contents, and the stream is
`n` bytes on when the file had them all, at the end and failed otherwise. -/
theorem read_at (bytes : List Byte) (n p : Nat) (buf : { l : List Byte // l.length = n }) :
    ((if p ≤ bytes.length then FileStream.mk bytes p false
        else FileStream.mk bytes bytes.length true).read n buf).2
      = (if p + n ≤ bytes.length then FileStream.mk bytes (p + n) false
          else FileStream.mk bytes bytes.length true) ∧
    ((if p ≤ bytes.length then FileStream.mk bytes p false
        else FileStream.mk bytes bytes.length true).read n buf).1.1
      = (bytes.drop p).take n ++ buf.1.drop ((bytes.drop p).take n).length := by
  have hL : ((bytes.drop p).take n).length = min n (bytes.length - p) := by
    rw [List.length_take, List.length_drop]
  by_cases h1 : p ≤ bytes.length
  · rw [if_pos h1]
    unfold FileStream.read
    simp only [Bool.false_eq_true, if_false]
    by_cases h2 : ((bytes.drop p).take n).length < n
    · rw [dif_pos h2]
      have h3 : ¬ p + n ≤ bytes.length := by
        rw [hL] at h2
        omega
      rw [if_neg h3]
      refine ⟨?_, rfl⟩
      show FileStream.mk bytes (p + ((bytes.drop p).take n).length) true = _
      rw [hL]
      congr 1
      rw [hL] at h2
      omega
    · rw [dif_neg h2]
      have h3 : p + n ≤ bytes.length := by
        rw [hL] at h2
        omega
      rw [if_pos h3]
      refine ⟨rfl, ?_⟩
      show (bytes.drop p).take n = _
      have h4 : ((bytes.drop p).take n).length = n := by
        rw [hL]
        omega
      rw [h4, List.drop_of_length_le (le_of_eq buf.2), List.append_nil]
  · rw [if_neg h1]
    unfold FileStream.read
    simp only [if_true]
    have h3 : ¬ p + n ≤ bytes.length := by omega
    rw [if_neg h3]
    refine ⟨rfl, ?_⟩
    rw [List.drop_of_length_le (by omega : bytes.length ≤ p)]
    simp

theorem read_streamAt (bytes : List Byte) (k : Nat) (buf : { l : List Byte // l.length = 32 }) :
    ((streamAt bytes k).read 32 buf).2 = streamAt bytes (k + 1) ∧
    ((streamAt bytes k).read 32 buf).1.1
      = (bytes.drop (8 + 32 * k)).take 32 ++
          buf.1.drop ((bytes.drop (8 + 32 * k)).take 32).length := by
  have h := read_at bytes 32 (8 + 32 * k) buf
  have e : 8 + 32 * (k + 1) = 8 + 32 * k + 32 := by omega
  unfold streamAt
  rw [e]
  exact h

theorem read_header (bytes : List Byte) (buf : { l : List Byte // l.length = 8 }) :
    (((FileStream.mk bytes 0 false).seekg0).read 8 buf).2 = streamAt bytes 0 ∧
    (((FileStream.mk bytes 0 false).seekg0).read 8 buf).1.1
      = bytes.take 8 ++ buf.1.drop (bytes.take 8).length := by
  have h := read_at bytes 8 0 buf
  rw [if_pos (Nat.zero_le _)] at h
  have e : (FileStream.mk bytes 0 false).seekg0 = FileStream.mk bytes 0 false := by
    simp [FileStream.seekg0]
  rw [e]
  unfold streamAt
  simpa using h

theorem hashesBelow_of_le (n : Nat) :
    ∀ d row, ForestState.NumRows n ≤ row → hashesBelow n (row + d) = hashesBelow n row := by
  intro d
  induction d with
  | zero => intro row _; rfl
  | succ d ih =>
    intro row h
    show hashesBelow n (row + d) + n >>> (row + d) = _
    rw [ih row h]
    have : n >>> (row + d) = 0 := by
      rw [Nat.shiftRight_eq_div_pow]
      apply Nat.div_eq_of_lt
      have h1 := (ForestState.NumRows_le_iff n (row + d)).mp (by omega)
      exact h1
    rw [this, Nat.add_zero]

end RamForest

namespace ForestState

theorem NumRows_of_pos (n : Nat) (h : 0 < n) : NumRows n = NumRows (n / 2) + 1 := by
  obtain ⟨m, rfl⟩ : ∃ m, n = m + 1 := ⟨n - 1, by omega⟩
  unfold NumRows
  simp only [bitLen, Nat.succ_ne_zero, if_false]
  rw [bitLen_eq_NumRows m ((m + 1) / 2) (by omega)]
  rfl

theorem NumRows_zero : NumRows 0 = 0 := rfl

theorem RowOffset_zero (n : Nat) : RowOffset n 0 = 0 := by
  have h : ∀ k, leadingOnes 0 k = 0 := by
    intro k
    cases k with
    | zero => rfl
    | succ k => simp [leadingOnes]
  unfold RowOffset DetectRow
  rw [h, rowStart_zero]

theorem shiftRight_eq_zero_of_le {n a b : Nat} (h : n >>> a = 0) (hab : a ≤ b) : n >>> b = 0 := by
  obtain ⟨d, rfl⟩ : ∃ d, b = a + d := ⟨b - a, by omega⟩
  rw [Nat.shiftRight_add, h, Nat.zero_shiftRight]

end ForestState

namespace RamForest

theorem restoreRow_spec (capacity : Nat) (uninit : Nat → Nat → Hash) (N nh row : Nat) :
    ∀ (count i pos : Nat) (f : RamForest) (s : FileStream), row < f.m_data.length →
      (rowAt f.m_data row).length + count ≤ capacity →
      (rowAt f.m_data row).length + count < maxRowHashes →
      ∃ g s' hs, restoreRow capacity uninit N nh row count i pos (f, s) = some (g, s') ∧
        hs.length = count ∧ g.m_num_leaves = f.m_num_leaves ∧ g.m_roots = f.m_roots ∧
        g.m_data.length = f.m_data.length ∧
        (∀ r, rowAt g.m_data r = rowAt f.m_data r ++ (if r = row then hs else [])) ∧
        g.m_posmap = (if nh = N then assignFrom f.m_posmap hs pos else f.m_posmap) ∧
        (∀ (T : List Hash) (rest : List Byte), s.failed = false →
          s.bytes.drop s.pos = rowBytes T ++ rest → T.length = count →
          hs = T ∧ s'.failed = false ∧ s'.bytes = s.bytes ∧ s'.bytes.drop s'.pos = rest) ∧
        (∀ (bytes : List Byte) (k : Nat), s = streamAt bytes k →
          s' = streamAt bytes (k + count) ∧
          ∀ t, t < count →
            hs[t]? = some ((streamAt bytes (k + t)).read 32 (uninit row (i + t))).1) := by
  intro count
  induction count with
  | zero =>
    intro i pos f s _ _ _
    refine ⟨f, s, [], rfl, rfl, rfl, rfl, rfl, ?_, ?_, ?_, ?_⟩
    · intro r
      simp
    · simp [assignFrom]
    · intro T rest hg hrem hT
      have hT' : T = [] := List.length_eq_zero.mp hT
      subst hT'
      simp only [rowBytes_nil, List.nil_append] at hrem
      exact ⟨rfl, hg, rfl, hrem⟩
    · intro bytes k hs
      exact ⟨hs, fun t ht => absurd ht (Nat.not_lt_zero t)⟩
  | succ count ih =>
    intro i pos f s hrow hmem hcap
    obtain ⟨data, hpush, hlen, hrows⟩ := pushAt_spec f.m_data row (s.read 32 (uninit row i)).1 hrow
    have hcap1 : (rowAt f.m_data row).length < capacity ∧
        (rowAt f.m_data row).length + 1 < maxRowHashes := ⟨by omega, by omega⟩
    obtain ⟨g, s', hs, h1, h2, h3, h4, h5, h6, h7, h8, h9⟩ := ih (i + 1) (pos + 1)
      { f with
        m_data := data
        m_posmap :=
          if nh = N then PosMap.assign f.m_posmap (s.read 32 (uninit row i)).1 pos
          else f.m_posmap }
      (s.read 32 (uninit row i)).2 (by simpa [hlen] using hrow)
      (by
        show (rowAt data row).length + count ≤ capacity
        rw [hrows row, if_pos rfl, List.length_append, List.length_singleton]
        omega)
      (by
        show (rowAt data row).length + count < maxRowHashes
        rw [hrows row, if_pos rfl, List.length_append, List.length_singleton]
        omega)
    refine ⟨g, s', (s.read 32 (uninit row i)).1 :: hs, ?_, by simp [h2], h3, h4,
      by rw [h5]; exact hlen, ?_, ?_, ?_, ?_⟩
    · simp only [restoreRow, hpush, hcap1, and_self, if_true]
      exact h1
    · intro r
      rw [h6 r]
      simp only [hrows r, List.append_assoc]
      by_cases hr : r = row
      · simp [hr]
      · simp [hr]
    · rw [h7]
      by_cases hn : nh = N
      · simp [hn, assignFrom]
      · simp [hn]
    · intro T rest hg hrem hT
      cases T with
      | nil => simp at hT
      | cons t T =>
        rw [rowBytes_cons, List.append_assoc] at hrem
        obtain ⟨r1, r2, r3, r4⟩ := FileStream.read_spec s 32 (uninit row i) t.1
          (rowBytes T ++ rest) hg hrem t.2
        obtain ⟨e1, e2, e3, e4⟩ := h8 T rest r2 r4 (by simpa using hT)
        refine ⟨?_, e2, by rw [e3, r3], e4⟩
        rw [e1, r1]
    · intro bytes k hsk
      subst hsk
      obtain ⟨e1, e2⟩ := h9 bytes (k + 1) (read_streamAt bytes k (uninit row i)).1
      refine ⟨?_, ?_⟩
      · rw [e1]
        congr 1
        omega
      · intro t ht
        cases t with
        | zero => simp only [List.getElem?_cons_zero, Nat.add_zero]
        | succ t =>
          rw [List.getElem?_cons_succ, e2 t (by omega)]
          have a1 : k + 1 + t = k + (t + 1) := by omega
          have a2 : i + 1 + t = i + (t + 1) := by omega
          rw [a1, a2]

theorem rowAt_append_empty (d : List (List Hash)) (r : Nat) : rowAt (d ++ [[]]) r = rowAt d r := by
  by_cases h1 : r < d.length
  · simp [rowAt, List.getElem?_append_left h1]
  · by_cases h2 : r = d.length
    · subst h2
      simp [rowAt]
    · rw [rowAt_of_length_le _ _ (by simp; omega), rowAt_of_length_le _ _ (by omega)]

open ForestState in
theorem restoreRows_spec (capacity : Nat) (uninit : Nat → Nat → Hash) (N : Nat) :
    ∀ (fuel row : Nat) (f : RamForest) (s : FileStream),
      NumRows (N >>> row) < fuel → f.m_data.length = row + 1 → rowAt f.m_data row = [] →
      N ≤ capacity → N < maxRowHashes →
      ∃ g s', restoreRows capacity uninit N fuel (N >>> row) row (f, s) = some (g, s') ∧
        g.m_num_leaves = f.m_num_leaves ∧ g.m_roots = f.m_roots ∧
        g.m_data.length = row + 1 + NumRows (N >>> row) ∧
        (∀ r, r < row → rowAt g.m_data r = rowAt f.m_data r) ∧
        (∀ r, row ≤ r → (rowAt g.m_data r).length = N >>> r) ∧
        (0 < row → g.m_posmap = f.m_posmap) ∧
        (row = 0 → g.m_posmap = assignFrom f.m_posmap (rowAt g.m_data 0) (RowOffset N 0)) ∧
        (∀ (data0 : List (List Hash)) (c : Nat) (rest : List Byte), s.failed = false →
          (∀ r, (rowAt data0 r).length = N >>> r) → NumRows (N >>> row) ≤ c →
          s.bytes.drop s.pos = payload data0 c row (N >>> row) ++ rest →
          ∀ r, row ≤ r → rowAt g.m_data r = rowAt data0 r) ∧
        (∀ (bytes : List Byte), s = streamAt bytes (hashesBelow N row) →
          s' = streamAt bytes (hashesBelow N (row + NumRows (N >>> row))) ∧
          ∀ r t, row ≤ r → t < N >>> r →
            (rowAt g.m_data r)[t]? =
              some ((streamAt bytes (hashesBelow N r + t)).read 32 (uninit r t)).1) := by
  intro fuel
  induction fuel with
  | zero =>
    intro row f s h
    omega
  | succ fuel ih =>
    intro row f s hfuel hlen hempty hmem hcap
    have hshift : N >>> row ≤ N := by
      rw [Nat.shiftRight_eq_div_pow]
      exact Nat.div_le_self _ _
    by_cases hnh : 0 < N >>> row
    · obtain ⟨g1, s1, hs, h1, h2, h3, h4, h5, h6, h7, h8, h8b⟩ := restoreRow_spec capacity uninit N
        (N >>> row) row (N >>> row) 0 (RowOffset N row) f s (by omega)
        (by rw [hempty, List.length_nil]; omega)
        (by rw [hempty, List.length_nil]; omega)
      have hnr := NumRows_of_pos (N >>> row) hnh
      have hhalf : (N >>> row) / 2 = N >>> (row + 1) := (Nat.shiftRight_succ N row).symm
      rw [hhalf] at hnr
      obtain ⟨g, s', k1, k2, k3, k4, k5, k6, k7, -, k9, k10⟩ := ih (row + 1)
        { g1 with m_data := g1.m_data ++ [[]] } s1 (by omega)
        (by simp [h5, hlen])
        (by
          have : row + 1 = g1.m_data.length := by omega
          rw [this]
          simp [rowAt])
        hmem hcap
      have hrowEq : rowAt g.m_data row = hs := by
        rw [k5 row (by omega)]
        simp only [rowAt_append_empty]
        rw [h6 row, hempty]
        simp
      refine ⟨g, s', ?_, by rw [k2, h3], by rw [k3, h4], by rw [k4]; omega, ?_, ?_, ?_, ?_, ?_, ?_⟩
      · simp only [restoreRows, hnh, if_true, h1, hhalf]
        exact k1
      · intro r hr
        rw [k5 r (by omega)]
        simp only [rowAt_append_empty]
        rw [h6 r]
        simp [show r ≠ row by omega]
      · intro r hr
        by_cases hr2 : r = row
        · rw [hr2, hrowEq, h2]
        · exact k6 r (by omega)
      · intro hpos
        rw [k7 (by omega)]
        simp only
        rw [h7]
        have hN : 0 < N := by
          by_contra h0
          have : N = 0 := by omega
          rw [this, Nat.zero_shiftRight] at hnh
          omega
        have hlt : N >>> row < N := by
          rw [Nat.shiftRight_eq_div_pow]
          exact Nat.div_lt_self hN (Nat.one_lt_two_pow (by omega))
        simp [show N >>> row ≠ N by omega]
      · intro h0
        subst h0
        rw [k7 (by omega)]
        simp only
        rw [h7, hrowEq]
        simp
      · intro data0 c rest hg hL hc hrem r hr
        obtain ⟨c, rfl⟩ : ∃ c', c = c' + 1 := ⟨c - 1, by omega⟩
        have htake : (rowAt data0 row).take (N >>> row) = rowAt data0 row :=
          List.take_of_length_le (by rw [hL row])
        simp only [payload, htake, List.append_assoc, hhalf] at hrem
        obtain ⟨e1, e2, e3, e4⟩ := h8 (rowAt data0 row) _ hg hrem (hL row)
        by_cases hr2 : r = row
        · rw [hr2, hrowEq, e1]
        · exact k9 data0 c rest e2 hL (by omega) e4 r (by omega)
      · intro bytes hsb
        obtain ⟨e1, e2⟩ := h8b bytes (hashesBelow N row) hsb
        obtain ⟨e3, e4⟩ := k10 bytes e1
        refine ⟨?_, ?_⟩
        · rw [e3, hnr]
          congr 2
          omega
        · intro r t hr ht
          by_cases hr2 : r = row
          · subst hr2
            rw [hrowEq, e2 t ht, Nat.zero_add]
          · exact e4 r t (by omega) ht
    · have hz : N >>> row = 0 := Nat.eq_zero_of_not_pos hnh
      have hzr : ∀ r, row ≤ r → N >>> r = 0 := fun r hr => shiftRight_eq_zero_of_le hz hr
      have hfr : ∀ r, row ≤ r → rowAt f.m_data r = [] := by
        intro r hr
        by_cases hr2 : r = row
        · rw [hr2, hempty]
        · exact rowAt_of_length_le _ _ (by omega)
      refine ⟨f, s, by simp [restoreRows, hz], rfl, rfl, by rw [hz, NumRows_zero]; exact hlen,
        fun _ _ => rfl, ?_, fun _ => rfl, ?_, ?_, ?_⟩
      · intro r hr
        rw [hfr r hr, hzr r hr]
        rfl
      · intro h0
        rw [hfr 0 (by omega)]
        rfl
      · intro data0 c rest _ hL _ _ r hr
        rw [hfr r hr]
        have := hL r
        rw [hzr r hr] at this
        exact (List.length_eq_zero.mp this).symm
      · intro bytes hsb
        refine ⟨?_, ?_⟩
        · rw [hz, NumRows_zero, Nat.add_zero]
          exact hsb
        · intro r t hr ht
          rw [hzr r hr] at ht
          exact absurd ht (Nat.not_lt_zero t)

theorem restoreRoots_spec (f : RamForest) :
    ∀ ps : List Nat, (∀ pos ∈ ps, ∃ h, f.Read pos = some h) →
      ∃ nodes, restoreRoots f ps = some nodes ∧
        nodes.map (fun x => some x.m_hash) = ps.map f.Read := by
  intro ps
  induction ps with
  | nil =>
    intro _
    exact ⟨[], rfl, rfl⟩
  | cons p ps ih =>
    intro h
    obtain ⟨x, hx⟩ := h p (List.mem_cons_self _ _)
    obtain ⟨nodes, h1, h2⟩ := ih (fun pos hp => h pos (List.mem_cons_of_mem _ hp))
    refine ⟨⟨x, f.m_num_leaves, p⟩ :: nodes, by simp [restoreRoots, hx, h1], ?_⟩
    simp [h2, hx]

end RamForest

/-! ## Claims on `Commit` and `Restore` -/

namespace RamForest

theorem nodup_row0_of_R3 {f : RamForest} (h : R3 f) : (rowAt f.m_data 0).Nodup := by
  rw [List.nodup_iff_getElem?_ne_getElem?]
  intro i j hij hj heq
  obtain ⟨x, hx⟩ : ∃ x, (rowAt f.m_data 0)[j]? = some x :=
    ⟨_, List.getElem?_eq_getElem hj⟩
  have h1 := (h.2 x j).mpr hx
  have h2 := (h.2 x i).mpr (by rw [heq, hx])
  rw [h1] at h2
  simp only [Option.some.injEq] at h2
  omega

theorem posmap_of_row0 {f : RamForest} (hL : RowLengths f) (h : R3 f) :
    (∀ x, PosMap.find (assignFrom [] (rowAt f.m_data 0) 0) x = PosMap.find f.m_posmap x) ∧
      PosMap.size (assignFrom [] (rowAt f.m_data 0) 0) = PosMap.size f.m_posmap := by
  have hnd := nodup_row0_of_R3 h
  constructor
  · intro x
    by_cases hx : x ∈ rowAt f.m_data 0
    · obtain ⟨i, hi⟩ := List.mem_iff_getElem?.mp hx
      rw [find_assignFrom_getElem _ hnd _ _ i x hi, (h.2 x i).mpr hi, Nat.zero_add]
    · rw [find_assignFrom_of_not_mem _ _ _ _ hx]
      cases hf : PosMap.find f.m_posmap x with
      | none => rfl
      | some p =>
        exfalso
        exact hx (List.mem_iff_getElem?.mpr ⟨p, (h.2 x p).mp hf⟩)
  · rw [size_assignFrom _ hnd [] 0 (fun _ _ => rfl), h.1]
    have := hL 0
    simp only [Nat.shiftRight_zero] at this
    simp [PosMap.size, this]

open ForestState in
theorem restore_spec (uninit8 : { l : List Byte // l.length = 8 }) (uninit : Nat → Nat → Hash)
    (capacity : Nat) (s : FileStream)
    (hmem : ReadBE64 ((s.seekg0).read 8 uninit8).1 ≤ capacity)
    (hcap : ReadBE64 ((s.seekg0).read 8 uninit8).1 < maxRowHashes) :
    ∃ g s', Restore capacity uninit8 uninit (init 0) s = some (true, g, s') ∧
      g.m_num_leaves = ReadBE64 ((s.seekg0).read 8 uninit8).1 ∧
      RowLengths g ∧
      g.m_posmap = assignFrom [] (rowAt g.m_data 0) 0 ∧
      g.m_roots.map (fun x => some x.m_hash) =
        (rootRows g.m_num_leaves).map
          (fun r => (rowAt g.m_data r)[(g.m_num_leaves >>> r) - 1]?) ∧
      (∀ (data0 : List (List Hash)) (rest : List Byte),
        ((s.seekg0).read 8 uninit8).2.failed = false →
        (∀ r, (rowAt data0 r).length = g.m_num_leaves >>> r) →
        ((s.seekg0).read 8 uninit8).2.bytes.drop ((s.seekg0).read 8 uninit8).2.pos =
          payload data0 (NumRows g.m_num_leaves + 1) 0 g.m_num_leaves ++ rest →
        ∀ r, rowAt g.m_data r = rowAt data0 r) ∧
      (∀ (bytes : List Byte), ((s.seekg0).read 8 uninit8).2 = streamAt bytes 0 →
        s' = streamAt bytes (hashesBelow g.m_num_leaves (NumRows g.m_num_leaves)) ∧
        ∀ r t, t < g.m_num_leaves >>> r →
          (rowAt g.m_data r)[t]? =
            some ((streamAt bytes (hashesBelow g.m_num_leaves r + t)).read 32 (uninit r t)).1) := by
  obtain ⟨g1, s1, h1, h2, h3, h4, -, h6, -, h8, h9, h10⟩ := restoreRows_spec capacity uninit
    (ReadBE64 ((s.seekg0).read 8 uninit8).1) (NumRows (ReadBE64 ((s.seekg0).read 8 uninit8).1) + 1)
    0 { init 0 with m_num_leaves := ReadBE64 ((s.seekg0).read 8 uninit8).1 }
    ((s.seekg0).read 8 uninit8).2 (by simp) rfl rfl hmem hcap
  simp only [Nat.shiftRight_zero] at h1 h4 h9
  have hN : g1.m_num_leaves = ReadBE64 ((s.seekg0).read 8 uninit8).1 := h2
  have hL : ∀ r, (rowAt g1.m_data r).length = g1.m_num_leaves >>> r := by
    intro r
    rw [hN]
    exact h6 r (Nat.zero_le r)
  have hread : ∀ r, r ∈ rootRows g1.m_num_leaves →
      g1.Read (RootPosition g1.m_num_leaves r) =
          (rowAt g1.m_data r)[(g1.m_num_leaves >>> r) - 1]? ∧
        ∃ x, (rowAt g1.m_data r)[(g1.m_num_leaves >>> r) - 1]? = some x := by
    intro r hr
    have hbit := (mem_rootRows _ r).mp hr
    have hlt := testBit_lt_NumRows hbit
    refine ⟨Read_RootPosition g1 r (by rw [h4, ← hN]; omega) hbit, ?_⟩
    have hodd := (testBit_iff_shiftRight_odd _ r).mp hbit
    have hpos : 0 < g1.m_num_leaves >>> r := by
      apply Nat.pos_of_ne_zero
      intro h0
      rw [h0] at hodd
      simp at hodd
    exact ⟨_, List.getElem?_eq_getElem (by rw [hL r]; exact Nat.sub_lt hpos Nat.one_pos)⟩
  obtain ⟨nodes, k1, k2⟩ := restoreRoots_spec g1 (RootPositions g1.m_num_leaves) (by
    intro pos hpos
    obtain ⟨r, hr, rfl⟩ := List.mem_map.mp hpos
    obtain ⟨e1, x, e2⟩ := hread r hr
    exact ⟨x, by rw [e1, e2]⟩)
  refine ⟨{ g1 with m_roots := g1.m_roots ++ nodes }, s1, ?_, hN, hL, ?_, ?_, ?_, ?_⟩
  · simp only [Restore, h1]
    rw [← hN, k1]
  · have := h8 rfl
    rw [RowOffset_zero] at this
    exact this
  · simp only [h3, init, List.nil_append, k2]
    unfold RootPositions
    rw [List.map_map]
    apply List.map_congr_left
    intro r hr
    exact (hread r hr).1
  · intro data0 rest hg hdata hrem r
    rw [hN] at hdata hrem
    exact h9 data0 (NumRows (ReadBE64 ((s.seekg0).read 8 uninit8).1) + 1) rest hg hdata
      (Nat.le_succ _) hrem r (Nat.zero_le r)
  · intro bytes hsb
    obtain ⟨e1, e2⟩ := h10 bytes hsb
    rw [Nat.zero_add, Nat.shiftRight_zero] at e1
    refine ⟨?_, ?_⟩
    · show s1 = streamAt bytes (hashesBelow g1.m_num_leaves (NumRows g1.m_num_leaves))
      rw [hN]
      exact e1
    · intro r t ht
      show (rowAt g1.m_data r)[t]? =
        some ((streamAt bytes (hashesBelow g1.m_num_leaves r + t)).read 32 (uninit r t)).1
      rw [hN] at ht ⊢
      exact e2 r t (Nat.zero_le r) ht

end RamForest

theorem R3_sampleForest3 : RamForest.R3 sampleForest3 := by
  refine ⟨rfl, ?_⟩
  intro h p
  have d12 : mkHash 1 ≠ mkHash 2 := by decide
  have d13 : mkHash 1 ≠ mkHash 3 := by decide
  have d23 : mkHash 2 ≠ mkHash 3 := by decide
  simp only [sampleForest3, PosMap.find, rowAt, List.getD_cons_zero]
  by_cases e1 : mkHash 1 = h
  · subst e1
    rcases p with _ | _ | _ | p <;> simp [d12.symm, d13.symm]
  · by_cases e2 : mkHash 2 = h
    · subst e2
      rcases p with _ | _ | _ | p <;> simp [d12, d23.symm]
    · by_cases e3 : mkHash 3 = h
      · subst e3
        rcases p with _ | _ | _ | p <;> simp [d13, d23]
      · rcases p with _ | _ | _ | p <;> simp [e1, e2, e3]

namespace RamForest

theorem pushAt_some_lt (d d' : List (List Hash)) (r : Nat) (h : Hash)
    (hp : pushAt d r h = some d') : r < d.length := by
  induction d generalizing r d' with
  | nil => simp [pushAt] at hp
  | cons x d ih =>
    cases r with
    | zero => simp
    | succ r =>
      simp only [pushAt, Option.map_eq_some'] at hp
      obtain ⟨rs, hrs, _⟩ := hp
      have := ih _ _ hrs
      simp only [List.length_cons]
      omega

/-- A row cannot grow past `capacity` hashes nor to `maxRowHashes`: the inner
loop of `Restore` that is asked for that many hashes has no result. -/
theorem restoreRow_overflow (capacity : Nat) (uninit : Nat → Nat → Hash) (N nh row : Nat) :
    ∀ (count i pos : Nat) (f : RamForest) (s : FileStream), 0 < count →
      capacity < (rowAt f.m_data row).length + count ∨
        maxRowHashes ≤ (rowAt f.m_data row).length + count →
      restoreRow capacity uninit N nh row count i pos (f, s) = none := by
  intro count
  induction count with
  | zero =>
    intro i pos f s h _
    exact absurd h (Nat.lt_irrefl 0)
  | succ count ih =>
    intro i pos f s _ hcap
    simp only [restoreRow]
    by_cases hc : (rowAt f.m_data row).length < capacity ∧
        (rowAt f.m_data row).length + 1 < maxRowHashes
    · rw [if_pos hc]
      cases hpush : pushAt f.m_data row (s.read 32 (uninit row i)).1 with
      | none => rfl
      | some data =>
        have hrow := pushAt_some_lt _ _ _ _ hpush
        obtain ⟨data', hpush', _, hrows⟩ :=
          pushAt_spec f.m_data row (s.read 32 (uninit row i)).1 hrow
        have e : data = data' := Option.some.inj (hpush.symm.trans hpush')
        subst e
        simp only
        apply ih
        · omega
        · show capacity < (rowAt data row).length + count ∨
            maxRowHashes ≤ (rowAt data row).length + count
          rw [hrows row, if_pos rfl, List.length_append, List.length_singleton]
          omega
    · rw [if_neg hc]

/-- A header that announces more leaves than a row can hold: `Restore` does
not return. -/
theorem Restore_oversized (capacity : Nat) (uninit8 : { l : List Byte // l.length = 8 })
    (uninit : Nat → Nat → Hash) (s : FileStream)
    (h : capacity < ReadBE64 ((s.seekg0).read 8 uninit8).1 ∨
      maxRowHashes ≤ ReadBE64 ((s.seekg0).read 8 uninit8).1) :
    Restore capacity uninit8 uninit (init 0) s = none := by
  have hpos : 0 < ReadBE64 ((s.seekg0).read 8 uninit8).1 := by
    have : 0 < maxRowHashes := by decide
    omega
  simp only [Restore, restoreRows, hpos, if_true]
  rw [restoreRow_overflow capacity uninit _ _ 0 _ 0 _ _ _ hpos (by
    show capacity < (rowAt (init 0).m_data 0).length + _ ∨
      maxRowHashes ≤ (rowAt (init 0).m_data 0).length + _
    simp only [init, rowAt_cons_zero, List.length_nil, Nat.zero_add]
    exact h)]

/-- From `2^31` leaves on `Commit` has no result: the counter `int j` of its
inner loop leaves the range of `int` on row 0. -/
theorem Commit_overflow (f : RamForest) (s : FileStream) (h : 2 ^ 31 ≤ f.m_num_leaves) :
    Commit f s = none := by
  simp only [Commit, commitRows]
  cases f.m_data[0]? with
  | none => rfl
  | some row =>
    simp only
    by_cases hle : f.m_num_leaves ≤ row.length
    · rw [if_pos hle, commitRow_overflow row f.m_num_leaves 0 _ (by norm_num) (by omega)]
    · rw [if_neg hle]

set_option maxRecDepth 20000 in
/-- C9 (the claim as written fails): a forest opened on an existing empty file
runs `Restore`, which leaves the stream in its failed state; after
`Add([h1, h2, h3])` the state satisfies the invariants, `Commit` on that stream
returns true and writes nothing, and `Restore` by a fresh forest on the file,
still empty, gives a forest of 0 leaves, not 3. Also, for every state of `2^31`
leaves or more `Commit` has no result, whatever the stream; and the snapshot of
the three-leaf state is not restored by a process whose memory holds rows of 2
hashes only: `Restore` does not return. -/
theorem commit_failed_stream_no_roundtrip :
    Restore 1000 zeroBuffer8 (fun _ _ => mkHash 0) (init 0) ⟨[], 0, false⟩ =
        some (true, init 0, ⟨[], 0, true⟩) ∧
      Add sampleParentHash (init 0) [(mkHash 1, false), (mkHash 2, false), (mkHash 3, true)] =
        some (true, sampleForest3) ∧
      Commit sampleForest3 ⟨[], 0, true⟩ = some (true, sampleForest3, ⟨[], 0, true⟩) ∧
      (∃ g s2, Restore 1000 zeroBuffer8 (fun _ _ => mkHash 0) (init 0) ⟨[], 0, false⟩ =
          some (true, g, s2) ∧
        g.m_num_leaves = 0 ∧ sampleForest3.m_num_leaves = 3) ∧
      (∀ (f : RamForest) (s : FileStream), 2 ^ 31 ≤ f.m_num_leaves → Commit f s = none) ∧
      (∃ s1, Commit sampleForest3 ⟨[], 0, false⟩ = some (true, sampleForest3, s1) ∧
        Restore 2 zeroBuffer8 (fun _ _ => mkHash 0) (init 0) ⟨s1.bytes, 0, false⟩ = none) :=
  ⟨by decide, by decide, by decide, ⟨init 0, ⟨[], 0, true⟩, by decide, rfl, rfl⟩,
    Commit_overflow,
    ⟨⟨WriteBE64 3 ++ payload sampleForest3.m_data 3 0 3, 136, false⟩, by decide, by decide⟩⟩

/-- C9 (amended): for a forest state of fewer than `2^31` leaves whose rows have
the lengths the code gives them (row `r` holds `N >> r` hashes, rows
`0 .. NumRows(N)` exist) and that satisfies R3 and R4, for a stream that is not
in a failed state when `Commit` runs, whatever bytes the file held and wherever
its position was, and for a restoring process whose memory lets a row hold `N`
hashes: `Commit` returns true without changing the state, and `Restore` run by
a fresh forest on the resulting file returns true with the same leaf count, the
same contents of every row, a position map with the same entries and the same
size, and the same list of root hashes. -/
theorem commit_restore_roundtrip (f : RamForest) (s : FileStream) (capacity : Nat)
    (uninit8 : { l : List Byte // l.length = 8 }) (uninit : Nat → Nat → Hash)
    (hgood : s.failed = false) (hN31 : f.m_num_leaves < 2 ^ 31)
    (hmem : f.m_num_leaves ≤ capacity)
    (hrows : ForestState.NumRows f.m_num_leaves < f.m_data.length)
    (hL : RowLengths f) (hR3 : R3 f) (hR4 : R4 f) :
    ∃ s1, Commit f s = some (true, f, s1) ∧
      ∃ g s2, Restore capacity uninit8 uninit (init 0) ⟨s1.bytes, 0, false⟩
          = some (true, g, s2) ∧
        g.m_num_leaves = f.m_num_leaves ∧
        (∀ r, rowAt g.m_data r = rowAt f.m_data r) ∧
        (∀ h, PosMap.find g.m_posmap h = PosMap.find f.m_posmap h) ∧
        PosMap.size g.m_posmap = PosMap.size f.m_posmap ∧
        g.m_roots.map (fun x => x.m_hash) = f.m_roots.map (fun x => x.m_hash) := by
  have hN : f.m_num_leaves < 2 ^ 64 := Nat.lt_trans hN31 (by norm_num)
  -- the stream after `Commit`
  have hs0 : s.seekg0 =
      FileStream.mk (([] : List Byte) ++ s.bytes.drop ([] : List Byte).length)
        ([] : List Byte).length false := by
    cases s with
    | mk b p fl =>
      simp only at hgood
      subst hgood
      simp [FileStream.seekg0]
  have hc := commitRows_spec f.m_data (ForestState.NumRows f.m_num_leaves + 1) 0 f.m_num_leaves
    ([] ++ WriteBE64 f.m_num_leaves) s.bytes (by
      intro k hk
      rw [Nat.zero_add, hL k]
      exact ⟨by omega, le_rfl⟩) hN31
  have hlenW : (WriteBE64 f.m_num_leaves).length = 8 := length_beBytes 8 _
  have hcommit : Commit f s = some (true, f,
      FileStream.mk
        ((WriteBE64 f.m_num_leaves ++
            payload f.m_data (ForestState.NumRows f.m_num_leaves + 1) 0 f.m_num_leaves) ++
          s.bytes.drop (WriteBE64 f.m_num_leaves ++
            payload f.m_data (ForestState.NumRows f.m_num_leaves + 1) 0 f.m_num_leaves).length)
        (WriteBE64 f.m_num_leaves ++
          payload f.m_data (ForestState.NumRows f.m_num_leaves + 1) 0 f.m_num_leaves).length
        false) := by
    simp only [Commit]
    rw [hs0, FileStream.write_spec, hc]
    simp only [List.nil_append]
  refine ⟨_, hcommit, ?_⟩
  · -- `Restore` on the file that `Commit` left
    generalize hP : payload f.m_data (ForestState.NumRows f.m_num_leaves + 1) 0 f.m_num_leaves = P
    obtain ⟨r1, r2, -, r4⟩ := FileStream.read_spec
      (FileStream.mk ((WriteBE64 f.m_num_leaves ++ P) ++
        s.bytes.drop (WriteBE64 f.m_num_leaves ++ P).length) 0 false).seekg0 8 uninit8
      (WriteBE64 f.m_num_leaves)
      (P ++ s.bytes.drop (WriteBE64 f.m_num_leaves ++ P).length)
      rfl (by simp [FileStream.seekg0]) hlenW
    have hhead : ReadBE64 ((FileStream.mk ((WriteBE64 f.m_num_leaves ++ P) ++
        s.bytes.drop (WriteBE64 f.m_num_leaves ++ P).length) 0 false).seekg0.read 8 uninit8).1
          = f.m_num_leaves := by
      rw [r1, ReadBE64_WriteBE64, Nat.mod_eq_of_lt hN]
    obtain ⟨g, s2, k1, k2, k3, k4, k5, k6, -⟩ := restore_spec uninit8 uninit capacity
      (FileStream.mk ((WriteBE64 f.m_num_leaves ++ P) ++
        s.bytes.drop (WriteBE64 f.m_num_leaves ++ P).length) 0 false) (by
          rw [hhead]
          exact hmem) (by
          rw [hhead]
          exact Nat.lt_trans hN31 (by decide))
    have hNg : g.m_num_leaves = f.m_num_leaves := by
      rw [k2, hhead]
    have hrowsEq : ∀ r, rowAt g.m_data r = rowAt f.m_data r := by
      refine k6 f.m_data (s.bytes.drop (WriteBE64 f.m_num_leaves ++ P).length) r2 ?_ ?_
      · intro r
        rw [hNg]
        exact hL r
      · rw [r4, hNg, hP]
    obtain ⟨p1, p2⟩ := posmap_of_row0 hL hR3
    refine ⟨g, s2, k1, hNg, hrowsEq, ?_, ?_, ?_⟩
    · intro h
      rw [k4, hrowsEq 0]
      exact p1 h
    · rw [k4, hrowsEq 0]
      exact p2
    · have e : g.m_roots.map (fun x => some x.m_hash) = f.m_roots.map (fun x => some x.m_hash) := by
        rw [k5, hR4, hNg]
        apply List.map_congr_left
        intro r _
        rw [hrowsEq r]
      have e1 : (g.m_roots.map (fun x => x.m_hash)).map some =
          (f.m_roots.map (fun x => x.m_hash)).map some := by
        simpa [List.map_map] using e
      exact List.map_injective_iff.mpr (Option.some_injective _) e1

/-- Witness for C9: the forest after `Add([h1, h2, h3])`, committed to a file
that held 200 other bytes, and restored where a row can hold 1000 hashes. -/
theorem commit_restore_roundtrip_witness :
    ∃ s1, Commit sampleForest3 sampleStream = some (true, sampleForest3, s1) ∧
      ∃ g s2, Restore 1000 zeroBuffer8 (fun _ _ => mkHash 0) (init 0) ⟨s1.bytes, 0, false⟩ =
          some (true, g, s2) ∧
        g.m_num_leaves = sampleForest3.m_num_leaves ∧
        (∀ r, rowAt g.m_data r = rowAt sampleForest3.m_data r) ∧
        (∀ h, PosMap.find g.m_posmap h = PosMap.find sampleForest3.m_posmap h) ∧
        PosMap.size g.m_posmap = PosMap.size sampleForest3.m_posmap ∧
        g.m_roots.map (fun x => x.m_hash) = sampleForest3.m_roots.map (fun x => x.m_hash) :=
  commit_restore_roundtrip sampleForest3 sampleStream 1000 zeroBuffer8 (fun _ _ => mkHash 0) rfl
    (by decide) (by decide) (by decide)
    (Reach_inv sampleParentHash sampleForest3 reach_sampleForest3).1
    R3_sampleForest3 (Reach_inv sampleParentHash sampleForest3 reach_sampleForest3).2.2.1

/-- C10 (counterexample): a snapshot of eight bytes whose header announces one
leaf and that holds no hash. `Restore` returns true; the forest it builds has
one leaf whose hash is what the local buffer held, and the stream is left in
its failed state. -/
theorem restore_truncated_returns_true :
    Restore 1000 zeroBuffer8 (fun _ _ => mkHash 0) (init 0) ⟨WriteBE64 1, 0, false⟩ =
      some (true,
        ⟨1, [[mkHash 0], []], [(mkHash 0, 0)], [⟨mkHash 0, 1, 0⟩]⟩,
        ⟨WriteBE64 1, 8, true⟩) := by
  decide

open ForestState in
/-- C10 (amended): for every snapshot file that ends before the data its header
announces (fewer than `8 + 32 * (number of hashes of the rows of N)` bytes,
`N` being the value of the eight-byte buffer after the first read, which holds
the bytes the file had followed by what the buffer held), `Restore` does not
report failure. When a row can hold `N` hashes (`N` is at most the capacity
that the memory gives a row, and below `maxRowHashes`) it returns true and
leaves the stream in its failed state; the forest has leaf count `N` and rows
of `N >> r` entries; the hash at row `r`, index `t` is the up to 32 bytes that
the file has from offset `8 + 32 * (hashes of the rows below r + t)` on,
followed by what the rest of the local buffer held; so a hash whose offset is
at or past the end of the file is what the buffer held. When a row cannot hold
`N` hashes, `Restore` does not return. -/
theorem restore_never_reports_failure (capacity : Nat)
    (uninit8 : { l : List Byte // l.length = 8 })
    (uninit : Nat → Nat → Hash) (bytes : List Byte)
    (htrunc : bytes.length <
      8 + 32 * hashesBelow (headerLeaves uninit8 bytes) (NumRows (headerLeaves uninit8 bytes))) :
    (((FileStream.mk bytes 0 false).seekg0).read 8 uninit8).1.1
        = bytes.take 8 ++ uninit8.1.drop (bytes.take 8).length ∧
    (headerLeaves uninit8 bytes ≤ capacity ∧ headerLeaves uninit8 bytes < maxRowHashes →
      ∃ g s', Restore capacity uninit8 uninit (init 0) ⟨bytes, 0, false⟩ = some (true, g, s') ∧
        s'.failed = true ∧ s'.bytes = bytes ∧
        g.m_num_leaves = headerLeaves uninit8 bytes ∧
        (∀ r, (rowAt g.m_data r).length = g.m_num_leaves >>> r) ∧
        (∀ r t, t < g.m_num_leaves >>> r →
          ∃ h, (rowAt g.m_data r)[t]? = some h ∧
            h.1 = (bytes.drop (8 + 32 * (hashesBelow g.m_num_leaves r + t))).take 32 ++
              (uninit r t).1.drop
                ((bytes.drop (8 + 32 * (hashesBelow g.m_num_leaves r + t))).take 32).length) ∧
        (∀ r t, t < g.m_num_leaves >>> r →
          bytes.length ≤ 8 + 32 * (hashesBelow g.m_num_leaves r + t) →
          (rowAt g.m_data r)[t]? = some (uninit r t))) ∧
    (capacity < headerLeaves uninit8 bytes ∨ maxRowHashes ≤ headerLeaves uninit8 bytes →
      Restore capacity uninit8 uninit (init 0) ⟨bytes, 0, false⟩ = none) := by
  obtain ⟨hh1, hh2⟩ := read_header bytes uninit8
  refine ⟨hh2, ?_, ?_⟩
  · rintro ⟨hmem, hcap⟩
    obtain ⟨g, s', k1, k2, k3, -, -, -, k7⟩ :=
      restore_spec uninit8 uninit capacity ⟨bytes, 0, false⟩ hmem hcap
    obtain ⟨e1, e2⟩ := k7 bytes hh1
    have hNg : g.m_num_leaves = headerLeaves uninit8 bytes := k2
    have hs' : s' = ⟨bytes, bytes.length, true⟩ := by
      rw [e1, hNg]
      unfold streamAt
      rw [if_neg (by omega)]
    have hentry : ∀ r t, t < g.m_num_leaves >>> r →
        ∃ h, (rowAt g.m_data r)[t]? = some h ∧
          h.1 = (bytes.drop (8 + 32 * (hashesBelow g.m_num_leaves r + t))).take 32 ++
            (uninit r t).1.drop
              ((bytes.drop (8 + 32 * (hashesBelow g.m_num_leaves r + t))).take 32).length :=
      fun r t ht => ⟨_, e2 r t ht, (read_streamAt bytes _ (uninit r t)).2⟩
    refine ⟨g, s', k1, by rw [hs'], by rw [hs'], hNg, k3, hentry, ?_⟩
    intro r t ht hlen
    obtain ⟨h, h1, h2⟩ := hentry r t ht
    rw [h1]
    congr 1
    apply Subtype.ext
    rw [h2, List.drop_of_length_le hlen]
    simp
  · intro hbig
    exact Restore_oversized capacity uninit8 uninit ⟨bytes, 0, false⟩ hbig

/-- Witness for C10: the snapshot of eight bytes whose header announces one
leaf, read where a row can hold 1000 hashes. -/
theorem restore_never_reports_failure_witness :
    (((FileStream.mk (WriteBE64 1) 0 false).seekg0).read 8 zeroBuffer8).1.1
        = (WriteBE64 1).take 8 ++ zeroBuffer8.1.drop ((WriteBE64 1).take 8).length ∧
    (headerLeaves zeroBuffer8 (WriteBE64 1) ≤ 1000 ∧
        headerLeaves zeroBuffer8 (WriteBE64 1) < maxRowHashes →
      ∃ g s', Restore 1000 zeroBuffer8 (fun _ _ => mkHash 0) (init 0) ⟨WriteBE64 1, 0, false⟩
          = some (true, g, s') ∧
        s'.failed = true ∧ s'.bytes = WriteBE64 1 ∧
        g.m_num_leaves = headerLeaves zeroBuffer8 (WriteBE64 1) ∧
        (∀ r, (rowAt g.m_data r).length = g.m_num_leaves >>> r) ∧
        (∀ r t, t < g.m_num_leaves >>> r →
          ∃ h, (rowAt g.m_data r)[t]? = some h ∧
            h.1 = ((WriteBE64 1).drop (8 + 32 * (hashesBelow g.m_num_leaves r + t))).take 32 ++
              ((fun (_ _ : Nat) => mkHash 0) r t).1.drop
                (((WriteBE64 1).drop
                  (8 + 32 * (hashesBelow g.m_num_leaves r + t))).take 32).length) ∧
        (∀ r t, t < g.m_num_leaves >>> r →
          (WriteBE64 1).length ≤ 8 + 32 * (hashesBelow g.m_num_leaves r + t) →
          (rowAt g.m_data r)[t]? = some ((fun (_ _ : Nat) => mkHash 0) r t))) ∧
    (1000 < headerLeaves zeroBuffer8 (WriteBE64 1) ∨
        maxRowHashes ≤ headerLeaves zeroBuffer8 (WriteBE64 1) →
      Restore 1000 zeroBuffer8 (fun _ _ => mkHash 0) (init 0) ⟨WriteBE64 1, 0, false⟩ = none) :=
  restore_never_reports_failure 1000 zeroBuffer8 (fun _ _ => mkHash 0) (WriteBE64 1) (by decide)

end RamForest

/-! ## Claims on node handles -/

namespace Node

/-- C17 (counterexample): on the forest after `Add([h1, h2, h3])`, the handle
that `Node::Parent` returns for leaf 0 sits at position 4, where the store
holds `H(h1‖h2)`; its `GetHash` is what the unset field holds (here zeros), not
the stored hash. -/
theorem getHash_of_parent_handle_not_read :
    Parent (mkHash 0) ⟨mkHash 1, 3, 0⟩ = some ⟨mkHash 0, 3, 4⟩ ∧
      sampleForest3.Read 4 = some (sampleParentHash (mkHash 1) (mkHash 2)) ∧
      GetHash ⟨mkHash 0, 3, 4⟩ = mkHash 0 ∧
      mkHash 0 ≠ sampleParentHash (mkHash 1) (mkHash 2) := by
  decide

/-- C17 (amended): `GetHash` returns the handle's `m_hash` field and never reads
the store: for a handle built with a hash it is that hash, for a handle built
without one (constructor without a hash, `Node::Parent`, `SwapSubTrees`) it is
whatever the field holds, and after `ReHash` it is the hash `ReHash` computed. -/
theorem getHash_returns_field (ParentHash : Hash → Hash → Hash) (nd : Node) (uninit : Hash)
    (n p : Nat) (f : RamForest) :
    nd.GetHash = nd.m_hash ∧
      (unset uninit n p).GetHash = uninit ∧
      (∀ parent, Parent uninit nd = some parent → parent.GetHash = uninit) ∧
      (∀ src dst r, f.SwapSubTrees uninit src dst = some r → r.1.GetHash = uninit) ∧
      (∀ r, ReHash ParentHash nd f = some r →
        ∃ a b, f.Read (ForestState.Child nd.m_num_leaves nd.m_position 0) = some a ∧
          f.Read (ForestState.Child nd.m_num_leaves nd.m_position 1) = some b ∧
          r.1.GetHash = ParentHash a b) := by
  refine ⟨rfl, rfl, ?_, ?_, ?_⟩
  · intro parent h
    simp only [Parent, ParentTraced, ParentWith] at h
    split at h
    · simp at h
    · simp only [Option.some.injEq] at h
      rw [← h]
      rfl
  · intro src dst r h
    simp only [RamForest.SwapSubTrees] at h
    split at h
    · split at h
      · simp at h
      · split at h
        · simp at h
        · simp only [Option.some.injEq] at h
          rw [← h]
          rfl
    · simp at h
  · intro r h
    simp only [ReHash] at h
    split at h
    · rename_i a b ha hb
      split at h
      · simp at h
      · split at h
        · simp only [Option.some.injEq] at h
          exact ⟨a, b, ha, hb, by rw [← h]; rfl⟩
        · simp at h
    · simp at h

/-- C18: `Node::Parent` returns none exactly when the row of the handle's position
has a root under the handle's leaf count and that root position is the handle's
position; otherwise it returns a handle with the same leaf count, positioned at
`ForestState(n).Parent(p)`. -/
theorem parent_none_iff_root (uninit : Hash) (nd : Node) :
    (Parent uninit nd = none ↔
        (ForestState.HasRoot nd.m_num_leaves
            (ForestState.DetectRow nd.m_num_leaves nd.m_position) = true ∧
          ForestState.RootPosition nd.m_num_leaves
            (ForestState.DetectRow nd.m_num_leaves nd.m_position) = nd.m_position)) ∧
      (Parent uninit nd ≠ none →
        ∃ parent, Parent uninit nd = some parent ∧ parent.m_num_leaves = nd.m_num_leaves ∧
          parent.m_position = ForestState.Parent nd.m_num_leaves nd.m_position) := by
  constructor
  · simp only [Parent, ParentTraced, ParentWith]
    split
    · rename_i h
      simp only [Bool.and_eq_true, decide_eq_true_eq] at h
      simp [h]
    · rename_i h
      simp only [Bool.and_eq_true, decide_eq_true_eq] at h
      simp only [reduceCtorEq, false_iff]
      exact h
  · intro hne
    simp only [Parent, ParentTraced, ParentWith] at hne ⊢
    split
    · rename_i h
      simp [h] at hne
    · exact ⟨_, rfl, rfl, rfl⟩

/-- C19 (counterexample): for a handle at leaf 0 of a forest of two leaves, row 0
has no root (bit 0 of 2 is clear), and `Node::Parent` evaluates
`RootPosition(0)` all the same. -/
theorem parent_evaluates_rootPosition_without_root :
    ForestState.HasRoot 2 (ForestState.DetectRow 2 0) = false ∧
      (ParentTraced (mkHash 0) ⟨mkHash 1, 2, 0⟩).2 = [ForestState.DetectRow 2 0] := by
  decide

/-- C19 (amended): `Node::Parent` evaluates `RootPosition(row)` once for every
handle, whether or not the row has a root; when the row has no root the value
is not used: the returned handle is the same whatever `RootPosition` yields. -/
theorem parent_rootPosition_use (uninit : Hash) (nd : Node) :
    (ParentTraced uninit nd).2 = [ForestState.DetectRow nd.m_num_leaves nd.m_position] ∧
      (ForestState.HasRoot nd.m_num_leaves
          (ForestState.DetectRow nd.m_num_leaves nd.m_position) = false →
        ∀ rp : Nat → Nat → Nat, (ParentWith rp uninit nd).1 = Parent uninit nd) := by
  refine ⟨rfl, ?_⟩
  intro h rp
  simp [Parent, ParentTraced, ParentWith, h]

end Node

/-! ## Claim on `MergeRoot` -/

open ForestState in
theorem MergeState_inv (PH : Hash → Hash → Hash) (n row : Nat) (g : RamForest)
    (h : MergeState PH n row g) :
    g.m_num_leaves = n + 1 ∧ LowBitsSet n row ∧
      (∀ r, (rowAt g.m_data r).length = (n >>> r) + (if r ≤ row then 1 else 0)) ∧
      NumRows (n + 1) ≤ g.m_data.length ∧
      ∃ pre node, g.m_roots = pre ++ [node] ∧
        node.m_position = rowStart (NumRows n) row + (n >>> row) := by
  induction h with
  | start f g leaf hL hrows hnew =>
    simp only [RamForest.NewLeaf] at hnew
    split at hnew
    · simp at hnew
    · rename_i data hpush
      simp only [Option.some.injEq] at hnew
      subst hnew
      have h0 : 0 < f.m_data.length := by
        cases hd : f.m_data with
        | nil => simp [hd, pushAt] at hpush
        | cons x xs => simp
      obtain ⟨d', hd', hlen, hrowsEq⟩ := pushAt_spec f.m_data 0 leaf.1 h0
      rw [hpush] at hd'
      cases hd'
      refine ⟨rfl, fun r hr => by omega, ?_, by simpa [hlen] using hrows, f.m_roots, _, rfl, ?_⟩
      · intro r
        simp only [hrowsEq r, List.length_append, hL r]
        by_cases hr : r = 0
        · simp [hr]
        · simp [hr]
      · simp [rowStart_zero]
  | next n row g g' right left rest _ hbit hrev hmr ih =>
    obtain ⟨hN, hlow, hlens, hrows, pre, node, hroots, hpos⟩ := ih
    have hbit' : n.testBit row = true := hbit
    have hlow' : LowBitsSet n (row + 1) := by
      intro r hr
      by_cases h1 : r = row
      · rw [h1]; exact hbit'
      · exact hlow r (by omega)
    have hlt := lowBitsSet_lt_NumRows_succ hlow'
    have hrootsEq : g.m_roots = rest.reverse ++ [left] ++ [right] := by
      have := congrArg List.reverse hrev
      simpa using this
    have hnode : node = right := by
      rw [hroots] at hrootsEq
      have := congrArg List.getLast? hrootsEq
      simpa using this
    subst hnode
    have hL : LayoutRows (n + 1) = NumRows n := LayoutRows_succ n
    have hrn : row < NumRows n := testBit_lt_NumRows hbit'
    have hsh := shiftRight_lt_of_lt_two_pow (lt_two_pow_NumRows n)
    have hpp : Parent g.m_num_leaves node.m_position =
        rowStart (NumRows n) (row + 1) + (n >>> (row + 1)) := by
      rw [hN, hpos, ← hL, Parent_row (n + 1) row (n >>> row) (by omega)
        (by rw [hL]; exact hsh row (by omega)), Nat.shiftRight_succ]
    have hdr : DetectRow g.m_num_leaves (Parent g.m_num_leaves node.m_position) = row + 1 := by
      rw [hpp, hN, ← hL]
      exact DetectRow_row (n + 1) (row + 1) _ (by omega) (by rw [hL]; exact hsh (row + 1) (by omega))
    obtain ⟨d, hd, hmr'⟩ := RamForest.MergeRoot_spec g rest.reverse left node
      (Parent g.m_num_leaves node.m_position) (PH left.m_hash node.m_hash) (row + 1)
      hrootsEq hdr (by omega)
    obtain ⟨d', hd', hdlen, hdrows⟩ := pushAt_spec g.m_data (row + 1) (PH left.m_hash node.m_hash)
      (by omega)
    rw [hd] at hd'
    cases hd'
    rw [hmr'] at hmr
    simp only [Option.some.injEq] at hmr
    subst hmr
    refine ⟨hN, hlow', ?_, by simpa [hdlen] using hrows, rest.reverse, _, rfl, hpp⟩
    intro r
    simp only [hdrows r, List.length_append, hlens r]
    by_cases h1 : r = row + 1
    · subst h1
      simp
    · by_cases h2 : r ≤ row
      · simp [h1, h2, show r ≤ row + 1 by omega]
      · simp [h1, h2, show ¬ r ≤ row + 1 by omega]

namespace RamForest

/-- C20 (counterexample): the forest after `Add([h1, h2, h3])` has two root
handles and three rows; position 7 lies on row 3, which does not exist, and
`MergeRoot(7, h)` fails its second assertion `m_data.size() > row`. -/
theorem mergeRoot_missing_row_asserts :
    2 ≤ sampleForest3.m_roots.length ∧
      ForestState.DetectRow sampleForest3.m_num_leaves 7 = sampleForest3.m_data.length ∧
      MergeRoot sampleForest3 7 (mkHash 9) = none := by
  decide

/-- C20 (amended): with fewer than two roots `MergeRoot` fails its first
assertion; with two or more roots it fails its second assertion when the row of
`parent_pos` does not exist; otherwise it replaces the last two handles by one
handle at `parent_pos` carrying `parent_hash`, appends `parent_hash` to the row
of `parent_pos`, and changes no other row, no position-map entry and not the
leaf count. In every state in which the `Add` driver calls it, the call
succeeds and `Read(parent_pos)` is `parent_hash` afterwards. -/
theorem mergeRoot_effect (ParentHash : Hash → Hash → Hash) (g : RamForest) (parent_pos : Nat)
    (parent_hash : Hash) :
    (g.m_roots.length < 2 → MergeRoot g parent_pos parent_hash = none) ∧
      (¬ ForestState.DetectRow g.m_num_leaves parent_pos < g.m_data.length →
        MergeRoot g parent_pos parent_hash = none) ∧
      (2 ≤ g.m_roots.length →
        ForestState.DetectRow g.m_num_leaves parent_pos < g.m_data.length →
        ∃ g', MergeRoot g parent_pos parent_hash = some g' ∧
          g'.m_roots = g.m_roots.dropLast.dropLast ++ [⟨parent_hash, g.m_num_leaves, parent_pos⟩] ∧
          rowAt g'.m_data (ForestState.DetectRow g.m_num_leaves parent_pos) =
            rowAt g.m_data (ForestState.DetectRow g.m_num_leaves parent_pos) ++ [parent_hash] ∧
          (∀ r, r ≠ ForestState.DetectRow g.m_num_leaves parent_pos →
            rowAt g'.m_data r = rowAt g.m_data r) ∧
          g'.m_posmap = g.m_posmap ∧ g'.m_num_leaves = g.m_num_leaves) ∧
      (∀ n row right left rest, MergeState ParentHash n row g →
        ForestState.HasRoot n row = true → g.m_roots.reverse = right :: left :: rest →
        ∃ g', MergeRoot g (ForestState.Parent g.m_num_leaves right.m_position)
            (ParentHash left.m_hash right.m_hash) = some g' ∧
          g'.Read (ForestState.Parent g.m_num_leaves right.m_position) =
            some (ParentHash left.m_hash right.m_hash)) := by
  refine ⟨?_, ?_, ?_, ?_⟩
  · intro h
    have : ¬ 2 ≤ g.m_roots.length := by omega
    simp [MergeRoot, this]
  · intro h
    simp only [MergeRoot, h, if_false]
    split <;> rfl
  · intro h2 hrow
    obtain ⟨d, hd, hlen, hrows⟩ := pushAt_spec g.m_data _ parent_hash hrow
    refine ⟨{ g with
        m_data := d
        m_roots := g.m_roots.dropLast.dropLast ++ [⟨parent_hash, g.m_num_leaves, parent_pos⟩] },
      by simp only [MergeRoot, h2, if_true, hrow, hd], rfl, ?_, ?_, rfl, rfl⟩
    · rw [hrows]
      simp
    · intro r hr
      rw [hrows]
      simp [hr]
  · intro n row right left rest hms hbit hrev
    have hnext := MergeState_inv ParentHash n row g hms
    obtain ⟨hN, hlow, hlens, hrows, pre, node, hroots, hpos⟩ := hnext
    have hbit' : n.testBit row = true := hbit
    have hlow' : ForestState.LowBitsSet n (row + 1) := by
      intro r hr
      by_cases h1 : r = row
      · rw [h1]; exact hbit'
      · exact hlow r (by omega)
    have hlt := ForestState.lowBitsSet_lt_NumRows_succ hlow'
    have hrootsEq : g.m_roots = rest.reverse ++ [left] ++ [right] := by
      have := congrArg List.reverse hrev
      simpa using this
    have hnode : node = right := by
      rw [hroots] at hrootsEq
      have := congrArg List.getLast? hrootsEq
      simpa using this
    subst hnode
    have hL : ForestState.LayoutRows (n + 1) = ForestState.NumRows n :=
      ForestState.LayoutRows_succ n
    have hrn : row < ForestState.NumRows n := ForestState.testBit_lt_NumRows hbit'
    have hsh := ForestState.shiftRight_lt_of_lt_two_pow (ForestState.lt_two_pow_NumRows n)
    have hpp : ForestState.Parent g.m_num_leaves node.m_position =
        ForestState.rowStart (ForestState.NumRows n) (row + 1) + (n >>> (row + 1)) := by
      rw [hN, hpos, ← hL, ForestState.Parent_row (n + 1) row (n >>> row) (by omega)
        (by rw [hL]; exact hsh row (by omega)), Nat.shiftRight_succ]
    have hdr : ForestState.DetectRow (n + 1)
        (ForestState.rowStart (ForestState.NumRows n) (row + 1) + (n >>> (row + 1))) = row + 1 := by
      rw [← hL]
      exact ForestState.DetectRow_row (n + 1) (row + 1) _ (by omega)
        (by rw [hL]; exact hsh (row + 1) (by omega))
    have hro : ForestState.RowOffset (n + 1)
        (ForestState.rowStart (ForestState.NumRows n) (row + 1) + (n >>> (row + 1))) =
        ForestState.rowStart (ForestState.NumRows n) (row + 1) := by
      rw [← hL]
      exact ForestState.RowOffset_row (n + 1) (row + 1) _ (by omega)
        (by rw [hL]; exact hsh (row + 1) (by omega))
    obtain ⟨d, hd, hmr'⟩ := MergeRoot_spec g rest.reverse left node
      (ForestState.Parent g.m_num_leaves node.m_position) (ParentHash left.m_hash node.m_hash)
      (row + 1) hrootsEq (by rw [hpp, hN]; exact hdr) (by omega)
    obtain ⟨d', hd', hdlen, hdrows⟩ := pushAt_spec g.m_data (row + 1)
      (ParentHash left.m_hash node.m_hash) (by omega)
    rw [hd] at hd'
    cases hd'
    refine ⟨_, hmr', ?_⟩
    rw [hpp]
    simp only [Read, hN, hdr, hro, Nat.add_sub_cancel_left, hdlen]
    have hrl : (rowAt g.m_data (row + 1)).length = n >>> (row + 1) := by
      rw [hlens (row + 1)]
      simp
    have hlen2 : row + 1 < g.m_data.length := by omega
    simp only [hlen2, if_true, hdrows (row + 1), List.length_append, hrl, List.length_singleton,
      Nat.lt_succ_self]
    exact getElem?_append_singleton_length _ _ _ hrl.symm

end RamForest

/-! ## Lemmas for `FinalizeRemove` -/

theorem length_resizeRow (row : List Hash) (n : Nat) : (resizeRow row n).length = n := by
  simp only [resizeRow, List.length_append, List.length_take, List.length_replicate]
  omega

theorem resizeRow_of_le (row : List Hash) (n : Nat) (h : n ≤ row.length) :
    resizeRow row n = row.take n := by
  simp [resizeRow, Nat.sub_eq_zero_of_le h]

theorem rowAt_set (d : List (List Hash)) (i r : Nat) (x : List Hash) (hi : i < d.length) :
    rowAt (d.set i x) r = if r = i then x else rowAt d r := by
  unfold rowAt
  rw [List.getD_eq_getElem?_getD, List.getD_eq_getElem?_getD, List.getElem?_set]
  by_cases h : r = i
  · subst h
    simp [hi]
  · have h' : ¬ i = r := fun e => h e.symm
    simp [h, h']

theorem rowAt_eq_of_getElem? (d : List (List Hash)) (r : Nat) (x : List Hash)
    (h : d[r]? = some x) : rowAt d r = x := by
  unfold rowAt
  rw [List.getD_eq_getElem?_getD, h]
  rfl

namespace PosMap

theorem find_filter (q : Hash → Bool) (m : PosMap) (h : Hash) :
    find (m.filter (fun e => q e.1)) h = if q h = true then find m h else none := by
  induction m with
  | nil => simp [find]
  | cons e m ih =>
    obtain ⟨k, v⟩ := e
    by_cases hq : q k = true
    · rw [List.filter_cons_of_pos (by simpa using hq)]
      by_cases hk : k = h
      · subst hk
        simp [find, hq]
      · simp only [find, hk, if_false]
        exact ih
    · rw [List.filter_cons_of_neg (by simpa using hq)]
      by_cases hk : k = h
      · subst hk
        rw [ih]
        simp [hq]
      · simp only [find, hk, if_false]
        exact ih

theorem mem_keys_of_find (m : PosMap) (h : Hash) (p : Nat) (hf : find m h = some p) :
    h ∈ m.map Prod.fst := by
  induction m with
  | nil => simp [find] at hf
  | cons e m ih =>
    obtain ⟨k, v⟩ := e
    by_cases hk : k = h
    · subst hk
      simp
    · simp only [find, hk, if_false] at hf
      simp only [List.map_cons, List.mem_cons]
      exact Or.inr (ih hf)

theorem size_filter (q : Hash → Bool) (m : PosMap) :
    size (m.filter (fun e => q e.1)) = ((m.map Prod.fst).filter q).length := by
  unfold size
  rw [List.filter_map, List.length_map]
  rfl

end PosMap

theorem filter_not_mem_drop {α : Type} [DecidableEq α] (l : List α) (k : Nat) (hnd : l.Nodup) :
    l.filter (fun x => decide (x ∉ l.drop k)) = l.take k := by
  conv_lhs => rw [← List.take_append_drop k l]
  rw [List.filter_append]
  have h1 : (List.take k l).filter (fun x => decide (x ∉ (List.take k l ++ List.drop k l).drop k))
      = List.take k l := by
    rw [List.filter_eq_self]
    intro a ha
    rw [List.take_append_drop]
    simp only [decide_eq_true_eq]
    intro hb
    exact List.disjoint_take_drop hnd (le_refl k) ha hb
  have h2 : (List.drop k l).filter (fun x => decide (x ∉ (List.take k l ++ List.drop k l).drop k))
      = [] := by
    rw [List.filter_eq_nil_iff]
    intro a ha
    rw [List.take_append_drop]
    simp [ha]
  rw [h1, h2, List.append_nil]

namespace RamForest

open ForestState in
theorem Read_leaf (f : RamForest) (p : Nat) (hp : p < f.m_num_leaves)
    (hrow0 : (rowAt f.m_data 0).length = f.m_num_leaves) :
    f.Read p = (rowAt f.m_data 0)[p]? := by
  have hN := le_two_pow_LayoutRows f.m_num_leaves
  have hi : p < 2 ^ (LayoutRows f.m_num_leaves - 0) := by
    rw [Nat.sub_zero]
    omega
  have h1 := DetectRow_row f.m_num_leaves 0 p (Nat.zero_le _) hi
  have h2 := RowOffset_row f.m_num_leaves 0 p (Nat.zero_le _) hi
  rw [rowStart_zero, Nat.zero_add] at h1 h2
  have hlen : 0 < f.m_data.length := by
    by_contra hn
    have : rowAt f.m_data 0 = [] := rowAt_of_length_le _ _ (by omega)
    rw [this] at hrow0
    simp at hrow0
    omega
  unfold Read
  rw [h1, h2]
  simp [hlen, hrow0, hp]

theorem eraseLoop_spec (f : RamForest) (hrow0 : (rowAt f.m_data 0).length = f.m_num_leaves) :
    ∀ (count pos : Nat) (m : PosMap), pos + count ≤ f.m_num_leaves →
      eraseLoop f count pos m =
        some (m.filter (fun e => decide (e.1 ∉ ((rowAt f.m_data 0).drop pos).take count))) := by
  intro count
  induction count with
  | zero =>
    intro pos m _
    simp [eraseLoop]
  | succ count ih =>
    intro pos m hle
    have hp : pos < (rowAt f.m_data 0).length := by omega
    have hread : f.Read pos = some ((rowAt f.m_data 0)[pos]) := by
      rw [Read_leaf f pos (by omega) hrow0, List.getElem?_eq_getElem hp]
    have hdrop : (rowAt f.m_data 0).drop pos
        = (rowAt f.m_data 0)[pos] :: (rowAt f.m_data 0).drop (pos + 1) :=
      List.drop_eq_getElem_cons hp
    simp only [eraseLoop, hread]
    rw [ih (pos + 1) _ (by omega), hdrop, List.take_succ_cons]
    simp only [PosMap.erase, List.filter_filter, Option.some.injEq]
    apply List.filter_congr
    intro e _
    by_cases he : e.1 = (rowAt f.m_data 0)[pos]
    · simp [he]
    · simp [he]

theorem keys_perm_row0 (f : RamForest) (hR3 : R3 f)
    (hrow0 : (rowAt f.m_data 0).length = f.m_num_leaves) :
    (f.m_posmap.map Prod.fst).Perm (rowAt f.m_data 0) := by
  have hnd := nodup_row0_of_R3 hR3
  have hsub : rowAt f.m_data 0 ⊆ f.m_posmap.map Prod.fst := by
    intro x hx
    obtain ⟨i, hi⟩ := List.mem_iff_getElem?.mp hx
    exact PosMap.mem_keys_of_find _ _ i ((hR3.2 x i).mpr hi)
  have hlen : (f.m_posmap.map Prod.fst).length ≤ (rowAt f.m_data 0).length := by
    rw [List.length_map, hrow0, ← hR3.1]
    exact le_refl _
  exact ((List.subperm_of_subset hnd hsub).perm_of_length_le hlen).symm

/-- The first loop of `FinalizeRemove` under R3: it returns, and what is left
of the position map are the first `next` hashes of row 0 with their indices. -/
theorem eraseLoop_R3 (f : RamForest) (next : Nat) (hR3 : R3 f)
    (hrow0 : (rowAt f.m_data 0).length = f.m_num_leaves) (hle : next ≤ f.m_num_leaves) :
    ∃ m, eraseLoop f (f.m_num_leaves - next) next f.m_posmap = some m ∧
      PosMap.size m = next ∧
      ∀ h p, PosMap.find m h = some p ↔ p < next ∧ (rowAt f.m_data 0)[p]? = some h := by
  have hnd := nodup_row0_of_R3 hR3
  have htake : ((rowAt f.m_data 0).drop next).take (f.m_num_leaves - next)
      = (rowAt f.m_data 0).drop next := by
    apply List.take_of_length_le
    rw [List.length_drop, hrow0]
  refine ⟨_, eraseLoop_spec f hrow0 _ _ _ (by omega), ?_, ?_⟩
  · rw [htake, PosMap.size_filter (fun x => decide (x ∉ (rowAt f.m_data 0).drop next)),
      ((keys_perm_row0 f hR3 hrow0).filter _).length_eq, filter_not_mem_drop _ _ hnd,
      List.length_take, hrow0]
    omega
  · intro h p
    rw [htake, PosMap.find_filter (fun x => decide (x ∉ (rowAt f.m_data 0).drop next))]
    constructor
    · intro hf
      by_cases hq : h ∈ (rowAt f.m_data 0).drop next
      · simp [hq] at hf
      · simp only [hq, not_false_eq_true, decide_True, if_true] at hf
        have hrow := (hR3.2 h p).mp hf
        refine ⟨?_, hrow⟩
        by_contra hge
        apply hq
        rw [List.mem_iff_getElem?]
        refine ⟨p - next, ?_⟩
        rw [List.getElem?_drop, ← hrow]
        congr 1
        omega
    · rintro ⟨hp, hrow⟩
      have hq : h ∉ (rowAt f.m_data 0).drop next := by
        intro hmem
        have : h ∈ (rowAt f.m_data 0).take next := by
          rw [List.mem_iff_getElem?]
          exact ⟨p, by rw [List.getElem?_take_of_lt hp]; exact hrow⟩
        exact List.disjoint_take_drop hnd (le_refl next) this hmem
      simp only [hq, not_false_eq_true, decide_True, if_true]
      exact (hR3.2 h p).mpr hrow

theorem resizeRows_length :
    ∀ (count : Nat) (d : List (List Hash)) (row nl : Nat) (d' : List (List Hash)),
      resizeRows d count row nl = some d' → d'.length = d.length ∧
        (count = 0 ∨ row + count ≤ d.length) := by
  intro count
  induction count with
  | zero =>
    intro d row nl d' h
    simp only [resizeRows, Option.some.injEq] at h
    subst h
    exact ⟨rfl, Or.inl rfl⟩
  | succ count ih =>
    intro d row nl d' h
    simp only [resizeRows] at h
    cases hr : d[row]? with
    | none => simp [hr] at h
    | some r =>
      simp only [hr] at h
      have hlt : row < d.length := by
        by_contra hn
        rw [List.getElem?_eq_none (by omega)] at hr
        exact Option.noConfusion hr
      obtain ⟨h1, h2⟩ := ih _ _ _ _ h
      rw [List.length_set] at h1 h2
      refine ⟨h1, Or.inr ?_⟩
      rcases h2 with h2 | h2
      · omega
      · omega

theorem resizeRows_spec :
    ∀ (count : Nat) (d : List (List Hash)) (row nl : Nat), row + count ≤ d.length →
      ∃ d', resizeRows d count row nl = some d' ∧
        ∀ r, rowAt d' r = if row ≤ r ∧ r < row + count
          then resizeRow (rowAt d r) (nl >>> (r - row)) else rowAt d r := by
  intro count
  induction count with
  | zero =>
    intro d row nl _
    refine ⟨d, rfl, ?_⟩
    intro r
    have : ¬ (row ≤ r ∧ r < row + 0) := by omega
    rw [if_neg this]
  | succ count ih =>
    intro d row nl hle
    have hlt : row < d.length := by omega
    obtain ⟨d', hd', hspec⟩ := ih (d.set row (resizeRow (d[row]) nl)) (row + 1) (nl / 2)
      (by rw [List.length_set]; omega)
    refine ⟨d', by simp only [resizeRows, List.getElem?_eq_getElem hlt]; exact hd', ?_⟩
    intro r
    rw [hspec r, rowAt_set _ _ _ _ hlt]
    have hrowAt : rowAt d row = d[row] :=
      rowAt_eq_of_getElem? _ _ _ (List.getElem?_eq_getElem hlt)
    by_cases h1 : r = row
    · subst h1
      have : ¬ (r + 1 ≤ r ∧ r < r + 1 + count) := by omega
      have h2 : r ≤ r ∧ r < r + (count + 1) := by omega
      simp only [this, h2, if_true, if_false, and_self, Nat.sub_self, Nat.shiftRight_zero, hrowAt]
    · by_cases h2 : row + 1 ≤ r ∧ r < row + 1 + count
      · have h3 : row ≤ r ∧ r < row + (count + 1) := by omega
        have e : (nl / 2) >>> (r - (row + 1)) = nl >>> (r - row) := by
          have : r - row = (r - (row + 1)) + 1 := by omega
          rw [this, Nat.shiftRight_succ_inside]
        simp only [h2, h3, h1, and_self, if_true, if_false, e]
      · have h3 : ¬ (row ≤ r ∧ r < row + (count + 1)) := by omega
        simp only [h2, h3, h1, if_false]

theorem selectRoots_spec (f : RamForest) (next : Nat) :
    ∀ ps : List Nat, (∀ pos ∈ ps, ∃ h, f.Read pos = some h) →
      ∃ nodes, selectRoots f next ps = some nodes ∧
        nodes.map (fun x => some x.m_hash) = ps.map f.Read ∧
        nodes.map (fun x => x.m_position) = ps ∧
        ∀ x ∈ nodes, x.m_num_leaves = next ∧ f.Read x.m_position = some x.m_hash := by
  intro ps
  induction ps with
  | nil =>
    intro _
    exact ⟨[], rfl, rfl, rfl, by simp⟩
  | cons p ps ih =>
    intro h
    obtain ⟨x, hx⟩ := h p (List.mem_cons_self _ _)
    obtain ⟨nodes, h1, h2, h3, h4⟩ := ih (fun pos hp => h pos (List.mem_cons_of_mem _ hp))
    refine ⟨⟨x, next, p⟩ :: nodes, by simp [selectRoots, hx, h1], ?_, ?_, ?_⟩
    · simp [h2, hx]
    · simp [h3]
    · intro y hy
      rcases List.mem_cons.mp hy with e | e
      · rw [e]
        exact ⟨rfl, hx⟩
      · exact h4 y e

open ForestState in
theorem Read_rootPositionIn (f : RamForest) (leaves r : Nat) (hle : leaves ≤ f.m_num_leaves)
    (hrow : r < f.m_data.length) (hbit : leaves.testBit r = true) :
    f.Read (rootPositionIn (LayoutRows f.m_num_leaves) leaves r)
      = (rowAt f.m_data r)[(leaves >>> r) - 1]? := by
  have hN := le_two_pow_LayoutRows f.m_num_leaves
  have hge := Nat.testBit_implies_ge hbit
  have hr : r ≤ LayoutRows f.m_num_leaves := by
    by_contra hlt
    have : 2 ^ LayoutRows f.m_num_leaves < 2 ^ r := Nat.pow_lt_pow_right (by norm_num) (by omega)
    omega
  have hodd := (testBit_iff_shiftRight_odd _ r).mp hbit
  have hhalf : leaves >>> (r + 1) = (leaves >>> r) / 2 := Nat.shiftRight_succ _ _
  have hle2 : leaves >>> r ≤ 2 ^ (LayoutRows f.m_num_leaves - r) := by
    rw [Nat.shiftRight_eq_div_pow, ← Nat.pow_div hr (by norm_num)]
    exact Nat.div_le_div_right (le_trans hle hN)
  have hi : 2 * (leaves >>> (r + 1)) < 2 ^ (LayoutRows f.m_num_leaves - r) := by omega
  have hidx : 2 * (leaves >>> (r + 1)) = (leaves >>> r) - 1 := by omega
  unfold Read rootPositionIn
  rw [DetectRow_row _ r _ hr hi, RowOffset_row _ r _ hr hi]
  simp only [Nat.add_sub_cancel_left, hidx, hrow, if_true]
  split
  · rfl
  · rename_i hlt
    rw [List.getElem?_eq_none (by omega)]

end RamForest

namespace RamForest

theorem FinalizeRemove_some (f g : RamForest) (next : Nat) :
    f.FinalizeRemove next = some g ↔
      ∃ m d nodes, next ≤ f.m_num_leaves ∧
        eraseLoop f (f.m_num_leaves - next) next f.m_posmap = some m ∧
        PosMap.size m = next ∧
        resizeRows f.m_data (ForestState.NumRows f.m_num_leaves) 0 next = some d ∧
        selectRoots { f with m_posmap := m, m_data := d } next
          (ForestState.RootPositionsOf f.m_num_leaves next) = some nodes ∧
        g = { f with m_posmap := m, m_data := d, m_roots := nodes } := by
  constructor
  · intro h
    unfold FinalizeRemove at h
    by_cases hle : next ≤ f.m_num_leaves
    · rw [if_pos hle] at h
      cases he : eraseLoop f (f.m_num_leaves - next) next f.m_posmap with
      | none => simp [he] at h
      | some m =>
        simp only [he] at h
        by_cases hs : PosMap.size m = next
        · rw [if_pos hs] at h
          cases hd : resizeRows f.m_data (ForestState.NumRows f.m_num_leaves) 0 next with
          | none => simp [hd] at h
          | some d =>
            simp only [hd] at h
            cases hsel : selectRoots { f with m_posmap := m, m_data := d } next
                (ForestState.RootPositionsOf f.m_num_leaves next) with
            | none => simp [hsel] at h
            | some nodes =>
              simp only [hsel, Option.some.injEq] at h
              exact ⟨m, d, nodes, hle, rfl, hs, rfl, hsel, h.symm⟩
        · rw [if_neg hs] at h
          exact Option.noConfusion h
    · rw [if_neg hle] at h
      exact Option.noConfusion h
  · rintro ⟨m, d, nodes, hle, he, hs, hd, hsel, rfl⟩
    unfold FinalizeRemove
    rw [if_pos hle]
    simp only [he, hs, if_true, hd, hsel]

theorem shiftRight_le_of_le {a b : Nat} (h : a ≤ b) (r : Nat) : a >>> r ≤ b >>> r := by
  rw [Nat.shiftRight_eq_div_pow, Nat.shiftRight_eq_div_pow]
  exact Nat.div_le_div_right h

open ForestState in
theorem finalizeRemove_rows_roots (f : RamForest) (next : Nat) (hL : RowLengths f)
    (hrows : NumRows f.m_num_leaves ≤ f.m_data.length) (hle : next ≤ f.m_num_leaves) :
    ∃ d, resizeRows f.m_data (NumRows f.m_num_leaves) 0 next = some d ∧
      d.length = f.m_data.length ∧
      (∀ r, rowAt d r = (rowAt f.m_data r).take (next >>> r)) ∧
      (∀ r ∈ rootRows next, (next >>> r) - 1 < (rowAt d r).length) ∧
      ∀ m, ∃ nodes, selectRoots { f with m_posmap := m, m_data := d } next
          (RootPositionsOf f.m_num_leaves next) = some nodes ∧
        nodes.map (fun x => some x.m_hash)
          = (rootRows next).map (fun r => (rowAt d r)[(next >>> r) - 1]?) ∧
        nodes.map (fun x => x.m_position) = RootPositionsOf f.m_num_leaves next ∧
        ∀ x ∈ nodes, x.m_num_leaves = next ∧
          Read { f with m_posmap := m, m_data := d } x.m_position = some x.m_hash := by
  obtain ⟨d, hd, hspec⟩ := resizeRows_spec (NumRows f.m_num_leaves) f.m_data 0 next (by omega)
  have hlen : d.length = f.m_data.length := (resizeRows_length _ _ _ _ _ hd).1
  have hrowsd : ∀ r, rowAt d r = (rowAt f.m_data r).take (next >>> r) := by
    intro r
    rw [hspec r]
    by_cases hr : r < NumRows f.m_num_leaves
    · have : 0 ≤ r ∧ r < 0 + NumRows f.m_num_leaves := by omega
      rw [if_pos this, Nat.sub_zero]
      apply resizeRow_of_le
      rw [hL r]
      exact shiftRight_le_of_le hle r
    · have : ¬ (0 ≤ r ∧ r < 0 + NumRows f.m_num_leaves) := by omega
      rw [if_neg this]
      have h0 : f.m_num_leaves >>> r = 0 := by
        rw [Nat.shiftRight_eq_div_pow]
        exact Nat.div_eq_of_lt ((NumRows_le_iff _ _).mp (by omega))
      have hnil : rowAt f.m_data r = [] := List.length_eq_zero.mp (by rw [hL r, h0])
      rw [hnil, List.take_nil]
  have hbound : ∀ r ∈ rootRows next, (next >>> r) - 1 < (rowAt d r).length := by
    intro r hr
    have hbit := (mem_rootRows next r).mp hr
    have hodd := (testBit_iff_shiftRight_odd _ r).mp hbit
    have := shiftRight_le_of_le hle r
    rw [hrowsd r, List.length_take, hL r]
    generalize next >>> r = a at *
    generalize f.m_num_leaves >>> r = b at *
    omega
  refine ⟨d, hd, hlen, hrowsd, hbound, ?_⟩
  intro m
  have hread : ∀ r ∈ rootRows next,
      Read { f with m_posmap := m, m_data := d } (rootPositionIn (LayoutRows f.m_num_leaves) next r)
        = (rowAt d r)[(next >>> r) - 1]? := by
    intro r hr
    have hbit := (mem_rootRows next r).mp hr
    have hrd : r < d.length := by
      have h1 := testBit_lt_NumRows hbit
      have h2 := NumRows_mono hle
      omega
    exact Read_rootPositionIn { f with m_posmap := m, m_data := d } next r hle hrd hbit
  obtain ⟨nodes, h1, h2, h3, h4⟩ := selectRoots_spec { f with m_posmap := m, m_data := d } next
    (RootPositionsOf f.m_num_leaves next) (by
      intro pos hpos
      obtain ⟨r, hr, rfl⟩ := List.mem_map.mp hpos
      rw [hread r hr]
      exact ⟨_, List.getElem?_eq_getElem (hbound r hr)⟩)
  refine ⟨nodes, h1, ?_, h3, h4⟩
  rw [h2, RootPositionsOf, List.map_map]
  apply List.map_congr_left
  intro r hr
  exact hread r hr

end RamForest

namespace RamForest

/-- C11 (the claim as written fails): `FinalizeRemove(3)` on the three-leaf
sample state returns, row 1 is below the row count `NumRows(3) = 2`, and it has
length 1, not `ceil(3 / 2) = 2`. -/
theorem finalizeRemove_row_not_ceil :
    ∃ g, FinalizeRemove sampleForest3 3 = some g ∧
      1 < ForestState.NumRows sampleForest3.m_num_leaves ∧
      (rowAt g.m_data 1).length = 1 ∧ (3 + 2 ^ 1 - 1) / 2 ^ 1 = 2 := by
  refine ⟨_, rfl, ?_, ?_, ?_⟩ <;> decide

open ForestState in
/-- C11 (amended): for every forest state with `N` leaves and every `N' ≤ N`,
whenever `FinalizeRemove(N')` returns, every row `r` below the current row count
`NumRows(N)` has length `N' >> r`, that is `floor(N' / 2^r)`; and it does
return on a state whose rows have their lengths `N >> r`, whose rows
`0 .. NumRows(N) - 1` exist and that satisfies R3, and then every row `r` has
length `N' >> r`. -/
theorem finalizeRemove_row_lengths (f : RamForest) (next : Nat)
    (hle : next ≤ f.m_num_leaves) :
    (∀ g, f.FinalizeRemove next = some g →
      ∀ r, r < NumRows f.m_num_leaves →
        (rowAt g.m_data r).length = next >>> r ∧ next >>> r = next / 2 ^ r) ∧
    (RowLengths f → NumRows f.m_num_leaves ≤ f.m_data.length → R3 f →
      ∃ g, f.FinalizeRemove next = some g ∧
        ∀ r, (rowAt g.m_data r).length = next >>> r) := by
  constructor
  · intro g hg r hr
    obtain ⟨m, d, nodes, _, _, _, hd, _, rfl⟩ := (FinalizeRemove_some f g next).mp hg
    refine ⟨?_, Nat.shiftRight_eq_div_pow _ _⟩
    have hb := (resizeRows_length _ _ _ _ _ hd).2
    obtain ⟨d', hd', hspec⟩ := resizeRows_spec (NumRows f.m_num_leaves) f.m_data 0 next
      (by omega)
    have e : d = d' := Option.some.inj (hd.symm.trans hd')
    show (rowAt d r).length = next >>> r
    rw [e, hspec r, if_pos (by omega), length_resizeRow, Nat.sub_zero]
  · intro hL hrows hR3
    have hrow0 : (rowAt f.m_data 0).length = f.m_num_leaves := by
      rw [hL 0, Nat.shiftRight_zero]
    obtain ⟨m, hm, hsize, _⟩ := eraseLoop_R3 f next hR3 hrow0 hle
    obtain ⟨d, hd, _, hrowsd, _, hsel⟩ := finalizeRemove_rows_roots f next hL hrows hle
    obtain ⟨nodes, hn, _⟩ := hsel m
    refine ⟨_, (FinalizeRemove_some f _ next).mpr ⟨m, d, nodes, hle, hm, hsize, hd, hn, rfl⟩, ?_⟩
    intro r
    show (rowAt d r).length = next >>> r
    have := shiftRight_le_of_le hle r
    rw [hrowsd r, List.length_take, hL r]
    generalize next >>> r = a at *
    generalize f.m_num_leaves >>> r = b at *
    omega

theorem finalizeRemove_row_lengths_witness :
    2 ≤ sampleForest3.m_num_leaves ∧
    ((∀ g, sampleForest3.FinalizeRemove 2 = some g →
      ∀ r, r < ForestState.NumRows sampleForest3.m_num_leaves →
        (rowAt g.m_data r).length = 2 >>> r ∧ 2 >>> r = 2 / 2 ^ r) ∧
    (RowLengths sampleForest3 →
      ForestState.NumRows sampleForest3.m_num_leaves ≤ sampleForest3.m_data.length →
      R3 sampleForest3 →
      ∃ g, sampleForest3.FinalizeRemove 2 = some g ∧
        ∀ r, (rowAt g.m_data r).length = 2 >>> r)) :=
  ⟨by decide, finalizeRemove_row_lengths sampleForest3 2 (by decide)⟩

open ForestState in
/-- C12: for every forest state with `N` leaves in row 0 that satisfies R3 and
every `N' ≤ N`, the erase loop of `FinalizeRemove(N')` returns a position map
with exactly `N'` entries (so the assertion `m_posmap.size() ==
next_num_leaves` holds), in which a hash `h` is mapped to `p` exactly when
`p < N'` and `row[0][p] = h`; the position map of every state that
`FinalizeRemove(N')` returns is that map; and `FinalizeRemove(N')` does return
when the rows have their lengths and the rows `0 .. NumRows(N) - 1` exist. -/
theorem finalizeRemove_posmap (f : RamForest) (next : Nat) (hR3 : R3 f)
    (hrow0 : (rowAt f.m_data 0).length = f.m_num_leaves) (hle : next ≤ f.m_num_leaves) :
    (∃ m, eraseLoop f (f.m_num_leaves - next) next f.m_posmap = some m ∧
      PosMap.size m = next ∧
      (∀ h p, PosMap.find m h = some p ↔ p < next ∧ (rowAt f.m_data 0)[p]? = some h) ∧
      ∀ g, f.FinalizeRemove next = some g → g.m_posmap = m) ∧
    (RowLengths f → NumRows f.m_num_leaves ≤ f.m_data.length →
      ∃ g, f.FinalizeRemove next = some g ∧
        ∀ h p, PosMap.find g.m_posmap h = some p ↔ (rowAt g.m_data 0)[p]? = some h) := by
  obtain ⟨m, hm, hsize, hfind⟩ := eraseLoop_R3 f next hR3 hrow0 hle
  constructor
  · refine ⟨m, hm, hsize, hfind, ?_⟩
    intro g hg
    obtain ⟨m', d, nodes, _, hm', _, _, _, rfl⟩ := (FinalizeRemove_some f g next).mp hg
    exact Option.some.inj (hm'.symm.trans hm)
  · intro hL hrows
    obtain ⟨d, hd, _, hrowsd, _, hsel⟩ := finalizeRemove_rows_roots f next hL hrows hle
    obtain ⟨nodes, hn, _⟩ := hsel m
    refine ⟨_, (FinalizeRemove_some f _ next).mpr ⟨m, d, nodes, hle, hm, hsize, hd, hn, rfl⟩, ?_⟩
    intro h p
    show PosMap.find m h = some p ↔ (rowAt d 0)[p]? = some h
    rw [hfind h p, hrowsd 0, Nat.shiftRight_zero, List.getElem?_take]
    by_cases hp : p < next
    · simp [hp]
    · simp [hp]

theorem finalizeRemove_posmap_witness :
    (∃ m, eraseLoop sampleForest3 (sampleForest3.m_num_leaves - 2) 2 sampleForest3.m_posmap
        = some m ∧
      PosMap.size m = 2 ∧
      (∀ h p, PosMap.find m h = some p ↔
        p < 2 ∧ (rowAt sampleForest3.m_data 0)[p]? = some h) ∧
      ∀ g, sampleForest3.FinalizeRemove 2 = some g → g.m_posmap = m) ∧
    (RowLengths sampleForest3 →
      ForestState.NumRows sampleForest3.m_num_leaves ≤ sampleForest3.m_data.length →
      ∃ g, sampleForest3.FinalizeRemove 2 = some g ∧
        ∀ h p, PosMap.find g.m_posmap h = some p ↔ (rowAt g.m_data 0)[p]? = some h) :=
  finalizeRemove_posmap sampleForest3 2 R3_sampleForest3 (by decide) (by decide)

open ForestState in
/-- C13: for every forest state with `N` leaves whose rows have their lengths
`N >> r`, with the rows `0 .. NumRows(N) - 1` existing, and every `N' ≤ N`:
every state that `FinalizeRemove(N')` returns has exactly `popcount(N')` root
handles, one for each set bit `r` of `N'` with the taller tree first, created
under `N'` at the position of that tree's root in the layout of `N`, and
carrying the hash stored in the truncated row `r` at the root offset
`(N' >> r) - 1`, which is within that row, so the read from the store at the
handle's position succeeds with that hash; and `FinalizeRemove(N')` does return
when the state satisfies R3. -/
theorem finalizeRemove_roots (f : RamForest) (next : Nat) (hL : RowLengths f)
    (hrows : NumRows f.m_num_leaves ≤ f.m_data.length) (hle : next ≤ f.m_num_leaves) :
    (∀ g, f.FinalizeRemove next = some g →
      g.m_roots.length = popcount next ∧
      (rootRows next).Pairwise (· > ·) ∧
      (∀ r, r ∈ rootRows next ↔ next.testBit r = true) ∧
      g.m_roots.map (fun x => some x.m_hash)
        = (rootRows next).map (fun r => (rowAt g.m_data r)[(next >>> r) - 1]?) ∧
      (∀ r ∈ rootRows next, (next >>> r) - 1 < (rowAt g.m_data r).length) ∧
      g.m_roots.map (fun x => x.m_position)
        = (rootRows next).map (rootPositionIn (LayoutRows f.m_num_leaves) next) ∧
      ∀ x ∈ g.m_roots, x.m_num_leaves = next ∧ g.Read x.m_position = some x.m_hash) ∧
    (R3 f → ∃ g, f.FinalizeRemove next = some g) := by
  obtain ⟨d, hd, _, hrowsd, hbound, hsel⟩ := finalizeRemove_rows_roots f next hL hrows hle
  constructor
  · intro g hg
    obtain ⟨m, d', nodes', _, _, _, hd', hn', rfl⟩ := (FinalizeRemove_some f g next).mp hg
    have e : d' = d := Option.some.inj (hd'.symm.trans hd)
    subst e
    obtain ⟨nodes, hn, h2, h3, h4⟩ := hsel m
    have e2 : nodes' = nodes := Option.some.inj (hn'.symm.trans hn)
    subst e2
    refine ⟨?_, pairwise_rootRows next, mem_rootRows next, h2, hbound, h3, h4⟩
    have := congrArg List.length h2
    simp only [List.length_map] at this
    show nodes'.length = popcount next
    rw [this, length_rootRows]
  · intro hR3
    have hrow0 : (rowAt f.m_data 0).length = f.m_num_leaves := by
      rw [hL 0, Nat.shiftRight_zero]
    obtain ⟨m, hm, hsize, _⟩ := eraseLoop_R3 f next hR3 hrow0 hle
    obtain ⟨nodes, hn, _⟩ := hsel m
    exact ⟨_, (FinalizeRemove_some f _ next).mpr ⟨m, d, nodes, hle, hm, hsize, hd, hn, rfl⟩⟩

/-- Witness for C13: the three-leaf sample state cut back to two leaves. -/
theorem finalizeRemove_roots_witness :
    (∀ g, sampleForest3.FinalizeRemove 2 = some g →
      g.m_roots.length = ForestState.popcount 2 ∧
      (ForestState.rootRows 2).Pairwise (· > ·) ∧
      (∀ r, r ∈ ForestState.rootRows 2 ↔ (2 : Nat).testBit r = true) ∧
      g.m_roots.map (fun x => some x.m_hash)
        = (ForestState.rootRows 2).map (fun r => (rowAt g.m_data r)[(2 >>> r) - 1]?) ∧
      (∀ r ∈ ForestState.rootRows 2, (2 >>> r) - 1 < (rowAt g.m_data r).length) ∧
      g.m_roots.map (fun x => x.m_position)
        = (ForestState.rootRows 2).map
            (ForestState.rootPositionIn (ForestState.LayoutRows sampleForest3.m_num_leaves) 2) ∧
      ∀ x ∈ g.m_roots, x.m_num_leaves = 2 ∧ g.Read x.m_position = some x.m_hash) ∧
    (R3 sampleForest3 → ∃ g, sampleForest3.FinalizeRemove 2 = some g) :=
  finalizeRemove_roots sampleForest3 2
    (Reach_inv sampleParentHash sampleForest3 reach_sampleForest3).1 (by decide) (by decide)

end RamForest

/-! ## Claims on `Node::ReHash` -/

namespace RamForest

open ForestState in
theorem Read_row (f : RamForest) (r i : Nat) (hr : r ≤ LayoutRows f.m_num_leaves)
    (hi : i < 2 ^ (LayoutRows f.m_num_leaves - r)) :
    f.Read (rowStart (LayoutRows f.m_num_leaves) r + i) = (rowAt f.m_data r)[i]? := by
  unfold Read
  rw [DetectRow_row _ r _ hr hi, RowOffset_row _ r _ hr hi]
  simp only [Nat.add_sub_cancel_left]
  by_cases hrow : r < f.m_data.length
  · rw [if_pos hrow]
    split
    · rfl
    · rename_i hlt
      rw [List.getElem?_eq_none (by omega)]
  · rw [if_neg hrow, rowAt_of_length_le _ _ (by omega)]
    rfl

theorem getElem?_of_rowAt_ne_nil (d : List (List Hash)) (r : Nat)
    (h : 0 < (rowAt d r).length) : d[r]? = some (rowAt d r) := by
  have hr : r < d.length := by
    by_contra hn
    rw [rowAt_of_length_le _ _ (by omega)] at h
    exact Nat.lt_irrefl 0 h
  rw [List.getElem?_eq_getElem hr]
  congr 1
  exact (rowAt_eq_of_getElem? _ _ _ (List.getElem?_eq_getElem hr)).symm

end RamForest

namespace Node

open ForestState RamForest in
theorem Child_row (n r i side : Nat) (hr : r ≤ LayoutRows n)
    (hi : i < 2 ^ (LayoutRows n - r)) :
    Child n (rowStart (LayoutRows n) r + i) side
      = rowStart (LayoutRows n) (r - 1) + (2 * i + side) := by
  unfold Child
  rw [DetectRow_row _ r _ hr hi, RowOffset_row _ r _ hr hi, Nat.add_sub_cancel_left, Nat.add_assoc]

open ForestState RamForest in
theorem ReHash_spec (PH : Hash → Hash → Hash) (nd : Node) (f : RamForest) (r i : Nat)
    (a b : Hash) (hN : nd.m_num_leaves = f.m_num_leaves)
    (hpos : nd.m_position = rowStart (LayoutRows f.m_num_leaves) r + i)
    (hr : r ≤ LayoutRows f.m_num_leaves)
    (hi : i < 2 ^ (LayoutRows f.m_num_leaves - r))
    (hleft : f.Read (Child f.m_num_leaves nd.m_position 0) = some a)
    (hright : f.Read (Child f.m_num_leaves nd.m_position 1) = some b)
    (hslot : i < (rowAt f.m_data r).length) :
    ReHash PH nd f = some ({ nd with m_hash := PH a b },
      { f with m_data := f.m_data.set r ((rowAt f.m_data r).set i (PH a b)) }) := by
  have hrow := getElem?_of_rowAt_ne_nil f.m_data r (by omega)
  simp only [ReHash, hN, hleft, hright]
  simp only [hpos, DetectRow_row _ r _ hr hi, RowOffset_row _ r _ hr hi, hrow,
    Nat.add_sub_cancel_left, hslot, if_true]

end Node

namespace Node

open ForestState RamForest in
/-- C16: for a forest state whose rows have their lengths `N >> r`, and a node
handle created under the forest's current leaf count at an internal position
`p` (row `r ≥ 1`, index `i` of the layout) whose two children are stored, with
`a = Read(Child(p, 0))` and `b = Read(Child(p, 1))` before the call: `ReHash`
returns; afterwards `Read(p) = ParentHash(a, b)` and `GetHash` of the handle is
that same hash; the handle keeps its position and leaf count; the leaf count,
the position map and the root list of the forest are unchanged; and every
stored hash other than the one at row `r`, index `i` is unchanged, in the rows
and as read through any other position of the layout. -/
theorem reHash_effect (ParentHash : Hash → Hash → Hash) (nd : Node) (f : RamForest)
    (r i : Nat) (a b : Hash) (hL : RowLengths f)
    (hN : nd.m_num_leaves = f.m_num_leaves)
    (hpos : nd.m_position = rowStart (LayoutRows f.m_num_leaves) r + i)
    (hr1 : 1 ≤ r) (hr : r ≤ LayoutRows f.m_num_leaves)
    (hi : i < 2 ^ (LayoutRows f.m_num_leaves - r))
    (hleft : f.Read (Child f.m_num_leaves nd.m_position 0) = some a)
    (hright : f.Read (Child f.m_num_leaves nd.m_position 1) = some b) :
    ∃ nd' f', ReHash ParentHash nd f = some (nd', f') ∧
      f'.Read nd.m_position = some (ParentHash a b) ∧
      nd'.GetHash = ParentHash a b ∧
      nd'.m_position = nd.m_position ∧ nd'.m_num_leaves = nd.m_num_leaves ∧
      f'.m_num_leaves = f.m_num_leaves ∧ f'.m_posmap = f.m_posmap ∧
      f'.m_roots = f.m_roots ∧ f'.m_data.length = f.m_data.length ∧
      (∀ r', (rowAt f'.m_data r').length = (rowAt f.m_data r').length) ∧
      (∀ r' j, ¬ (r' = r ∧ j = i) → (rowAt f'.m_data r')[j]? = (rowAt f.m_data r')[j]?) ∧
      (∀ r' j, r' ≤ LayoutRows f.m_num_leaves → j < 2 ^ (LayoutRows f.m_num_leaves - r') →
        ¬ (r' = r ∧ j = i) →
        f'.Read (rowStart (LayoutRows f.m_num_leaves) r' + j)
          = f.Read (rowStart (LayoutRows f.m_num_leaves) r' + j)) := by
  have hpow : 2 ^ (LayoutRows f.m_num_leaves - (r - 1))
      = 2 * 2 ^ (LayoutRows f.m_num_leaves - r) := by
    have : LayoutRows f.m_num_leaves - (r - 1) = (LayoutRows f.m_num_leaves - r) + 1 := by omega
    rw [this, pow_succ, Nat.mul_comm]
  have hslot : i < (rowAt f.m_data r).length := by
    have h1 := hright
    rw [hpos, Child_row _ r i 1 hr hi,
      Read_row f (r - 1) (2 * i + 1) (by omega) (by rw [hpow]; omega)] at h1
    have h2 : 2 * i + 1 < (rowAt f.m_data (r - 1)).length := by
      by_contra hn
      rw [List.getElem?_eq_none (by omega)] at h1
      exact Option.noConfusion h1
    rw [hL (r - 1)] at h2
    rw [hL r]
    have h3 : f.m_num_leaves >>> r = (f.m_num_leaves >>> (r - 1)) / 2 := by
      have : r = (r - 1) + 1 := by omega
      conv_lhs => rw [this]
      exact Nat.shiftRight_succ _ _
    rw [h3]
    generalize f.m_num_leaves >>> (r - 1) = x at *
    omega
  have hrow := getElem?_of_rowAt_ne_nil f.m_data r (by omega)
  have hrlen : r < f.m_data.length := by
    by_contra hn
    rw [List.getElem?_eq_none (by omega)] at hrow
    exact Option.noConfusion hrow
  have hrows : ∀ r', rowAt (f.m_data.set r ((rowAt f.m_data r).set i (ParentHash a b))) r'
      = if r' = r then (rowAt f.m_data r).set i (ParentHash a b) else rowAt f.m_data r' :=
    fun r' => rowAt_set _ _ _ _ hrlen
  have hcell : ∀ r' j, ¬ (r' = r ∧ j = i) →
      (rowAt (f.m_data.set r ((rowAt f.m_data r).set i (ParentHash a b))) r')[j]?
        = (rowAt f.m_data r')[j]? := by
    intro r' j hne
    rw [hrows r']
    by_cases e : r' = r
    · subst e
      rw [if_pos rfl, List.getElem?_set_ne (fun e2 => hne ⟨rfl, e2.symm⟩)]
    · rw [if_neg e]
  refine ⟨_, _, ReHash_spec ParentHash nd f r i a b hN hpos hr hi hleft hright hslot,
    ?_, rfl, rfl, rfl, rfl, rfl, rfl, ?_, ?_, hcell, ?_⟩
  · rw [hpos]
    have := Read_row { f with m_data := f.m_data.set r ((rowAt f.m_data r).set i (ParentHash a b)) }
      r i hr hi
    rw [this]
    show (rowAt (f.m_data.set r ((rowAt f.m_data r).set i (ParentHash a b))) r)[i]? = _
    rw [hrows r, if_pos rfl, List.getElem?_set_self hslot]
  · exact List.length_set _ _ _
  · intro r'
    show (rowAt (f.m_data.set r ((rowAt f.m_data r).set i (ParentHash a b))) r').length = _
    rw [hrows r']
    by_cases e : r' = r
    · subst e
      rw [if_pos rfl, List.length_set]
    · rw [if_neg e]
  · intro r' j hr' hj hne
    have h1 := Read_row
      { f with m_data := f.m_data.set r ((rowAt f.m_data r).set i (ParentHash a b)) } r' j hr' hj
    rw [h1, Read_row f r' j hr' hj]
    exact hcell r' j hne

/-- Witness for C16: the handle at position 4 (row 1, index 0) of the
three-leaf sample state, whose children are the leaves at positions 0 and 1. -/
theorem reHash_effect_witness :
    ∃ nd' f', ReHash sampleParentHash ⟨mkHash 0, 3, 4⟩ sampleForest3 = some (nd', f') ∧
      f'.Read 4 = some (sampleParentHash (mkHash 1) (mkHash 2)) ∧
      nd'.GetHash = sampleParentHash (mkHash 1) (mkHash 2) ∧
      nd'.m_position = 4 ∧ nd'.m_num_leaves = 3 ∧
      f'.m_num_leaves = sampleForest3.m_num_leaves ∧ f'.m_posmap = sampleForest3.m_posmap ∧
      f'.m_roots = sampleForest3.m_roots ∧ f'.m_data.length = sampleForest3.m_data.length ∧
      (∀ r', (rowAt f'.m_data r').length = (rowAt sampleForest3.m_data r').length) ∧
      (∀ r' j, ¬ (r' = 1 ∧ j = 0) →
        (rowAt f'.m_data r')[j]? = (rowAt sampleForest3.m_data r')[j]?) ∧
      (∀ r' j, r' ≤ ForestState.LayoutRows sampleForest3.m_num_leaves →
        j < 2 ^ (ForestState.LayoutRows sampleForest3.m_num_leaves - r') →
        ¬ (r' = 1 ∧ j = 0) →
        f'.Read (ForestState.rowStart (ForestState.LayoutRows sampleForest3.m_num_leaves) r' + j)
          = sampleForest3.Read
              (ForestState.rowStart (ForestState.LayoutRows sampleForest3.m_num_leaves) r' + j)) :=
  reHash_effect sampleParentHash ⟨mkHash 0, 3, 4⟩ sampleForest3 1 0 (mkHash 1) (mkHash 2)
    (Reach_inv sampleParentHash sampleForest3 reach_sampleForest3).1 rfl (by decide)
    (by decide) (by decide) (by decide) (by decide) (by decide)

end Node

/-! ## Lemmas for `SwapRange` -/

namespace PosMap

theorem size_assign_of_find_some (m : PosMap) (h : Hash) (p q : Nat) (hs : find m h = some q) :
    size (assign m h p) = size m := by
  induction m with
  | nil => simp [find] at hs
  | cons e m ih =>
    obtain ⟨k, v⟩ := e
    by_cases hk : k = h
    · simp [assign, hk, size]
    · simp only [find, hk, if_false] at hs
      have := ih hs
      simp only [size] at this
      simp [assign, hk, size, this]

theorem touch_of_find_some (m : PosMap) (h : Hash) (q : Nat) (hs : find m h = some q) :
    touch m h = m := by
  simp [touch, hs]

theorem getElem?_set_set (row : List Hash) (x y p : Nat) (a b : Hash)
    (hx : x < row.length) (hy : y < row.length) :
    ((row.set x b).set y a)[p]?
      = if p = y then some a else if p = x then some b else row[p]? := by
  rw [List.getElem?_set, List.getElem?_set, List.length_set]
  by_cases h1 : p = y
  · subst h1
    simp [hy]
  · have h1' : ¬ y = p := fun e => h1 e.symm
    by_cases h2 : p = x
    · subst h2
      simp [h1, h1', hx]
    · have h2' : ¬ x = p := fun e => h2 e.symm
      simp [h1, h1', h2, h2']

/-- One round of the loop of `SwapRange` on row 0 keeps the position map in
step with the row. -/
theorem indexes_swap (m : PosMap) (row : List Hash) (x y : Nat) (a b : Hash)
    (hI : Indexes m row) (hx : row[x]? = some a) (hy : row[y]? = some b) (hxy : x ≠ y) :
    Indexes (swapValues m b a) ((row.set x b).set y a) ∧ size (swapValues m b a) = size m := by
  have fa : find m a = some x := (hI a x).mpr hx
  have fb : find m b = some y := (hI b y).mpr hy
  have hab : a ≠ b := by
    intro e
    rw [e, fb] at fa
    exact hxy (Option.some.inj fa).symm
  have hxl : x < row.length := by
    by_contra hn
    rw [List.getElem?_eq_none (by omega)] at hx
    exact Option.noConfusion hx
  have hyl : y < row.length := by
    by_contra hn
    rw [List.getElem?_eq_none (by omega)] at hy
    exact Option.noConfusion hy
  have hsw : swapValues m b a = assign (assign m b x) a y := by
    simp only [swapValues, touch_of_find_some m b y fb, touch_of_find_some m a x fa, fa, fb,
      Option.getD_some]
  have hfind : ∀ h, find (swapValues m b a) h
      = if h = a then some y else if h = b then some x else find m h := by
    intro h
    rw [hsw]
    by_cases h1 : h = a
    · subst h1
      rw [find_assign_self, if_pos rfl]
    · rw [find_assign_ne _ _ _ _ (fun e => h1 e.symm), if_neg h1]
      by_cases h2 : h = b
      · subst h2
        rw [find_assign_self, if_pos rfl]
      · rw [find_assign_ne _ _ _ _ (fun e => h2 e.symm), if_neg h2]
  constructor
  · intro h p
    rw [hfind h, getElem?_set_set row x y p a b hxl hyl]
    by_cases hp1 : p = y
    · subst hp1
      rw [if_pos rfl]
      by_cases h1 : h = a
      · subst h1
        simp
      · rw [if_neg h1]
        have : ¬ (some a = some h) := fun e => h1 (Option.some.inj e).symm
        simp only [this, iff_false]
        by_cases h2 : h = b
        · subst h2
          rw [if_pos rfl]
          intro e
          exact hxy (Option.some.inj e)
        · rw [if_neg h2]
          intro e
          have := (hI h p).mp e
          rw [hy] at this
          exact h2 (Option.some.inj this).symm
    · rw [if_neg hp1]
      by_cases hp2 : p = x
      · subst hp2
        rw [if_pos rfl]
        by_cases h1 : h = a
        · subst h1
          rw [if_pos rfl]
          constructor
          · intro e
            exact absurd (Option.some.inj e).symm hp1
          · intro e
            exact absurd (Option.some.inj e).symm hab
        · rw [if_neg h1]
          by_cases h2 : h = b
          · subst h2
            simp
          · rw [if_neg h2]
            constructor
            · intro e
              have := (hI h p).mp e
              rw [hx] at this
              exact absurd (Option.some.inj this).symm h1
            · intro e
              exact absurd (Option.some.inj e).symm h2
      · rw [if_neg hp2]
        by_cases h1 : h = a
        · subst h1
          rw [if_pos rfl]
          constructor
          · intro e
            exact absurd (Option.some.inj e).symm hp1
          · intro e
            have := (hI h p).mpr e
            rw [fa] at this
            exact absurd (Option.some.inj this).symm hp2
        · rw [if_neg h1]
          by_cases h2 : h = b
          · subst h2
            rw [if_pos rfl]
            constructor
            · intro e
              exact absurd (Option.some.inj e).symm hp2
            · intro e
              have := (hI h p).mpr e
              rw [fb] at this
              exact absurd (Option.some.inj this).symm hp1
          · rw [if_neg h2]
            exact hI h p
  · rw [hsw, size_assign_of_find_some _ a y x
      (by rw [find_assign_ne _ _ _ _ (fun e => hab e.symm)]; exact fa),
      size_assign_of_find_some _ b x y fb]

end PosMap

namespace RamForest

theorem swapLoop_spec (row x y R : Nat) (hdis : x + R ≤ y ∨ y + R ≤ x) :
    ∀ (count i : Nat) (rowData : List Hash) (m : PosMap), i + count ≤ R →
      x + R ≤ rowData.length → y + R ≤ rowData.length →
      ∃ rowData' m', swapLoop row x y count i (rowData, m) = some (rowData', m') ∧
        rowData'.length = rowData.length ∧
        (∀ p, rowData'[p]? =
          if x + i ≤ p ∧ p < x + i + count then rowData[p - x + y]?
          else if y + i ≤ p ∧ p < y + i + count then rowData[p - y + x]?
          else rowData[p]?) ∧
        (row ≠ 0 → m' = m) ∧
        (row = 0 → PosMap.Indexes m rowData →
          PosMap.Indexes m' rowData' ∧ PosMap.size m' = PosMap.size m) := by
  intro count
  induction count with
  | zero =>
    intro i rowData m _ _ _
    refine ⟨rowData, m, rfl, rfl, ?_, fun _ => rfl, fun _ h => ⟨h, rfl⟩⟩
    intro p
    rw [if_neg (by omega), if_neg (by omega)]
  | succ count ih =>
    intro i rowData m hR hxl hyl
    have hxi : x + i < rowData.length := by omega
    have hyi : y + i < rowData.length := by omega
    have hne : x + i ≠ y + i := by omega
    have hx : rowData[x + i]? = some rowData[x + i] := List.getElem?_eq_getElem hxi
    have hy : rowData[y + i]? = some rowData[y + i] := List.getElem?_eq_getElem hyi
    have hr1 := PosMap.getElem?_set_set rowData (x + i) (y + i)
    obtain ⟨rowData', m', hloop, hlen, hchar, hm1, hm2⟩ :=
      ih (i + 1) ((rowData.set (x + i) rowData[y + i]).set (y + i) rowData[x + i])
        (if row = 0 then PosMap.swapValues m rowData[y + i] rowData[x + i] else m)
        (by omega) (by simp only [List.length_set]; omega) (by simp only [List.length_set]; omega)
    refine ⟨rowData', m', ?_, ?_, ?_, ?_, ?_⟩
    · have e1 := hr1 (x + i) rowData[x + i] rowData[y + i] hxi hyi
      have e2 := hr1 (y + i) rowData[x + i] rowData[y + i] hxi hyi
      rw [if_neg hne, if_pos rfl] at e1
      rw [if_pos rfl] at e2
      simp only [swapLoop, swapAt, hx, hy, e1, e2]
      exact hloop
    · rw [hlen, List.length_set, List.length_set]
    · intro p
      rw [hchar p]
      by_cases h1 : x + (i + 1) ≤ p ∧ p < x + (i + 1) + count
      · rw [if_pos h1, if_pos (by omega), hr1 _ _ _ hxi hyi, if_neg (by omega),
          if_neg (by omega)]
      · rw [if_neg h1]
        by_cases h2 : y + (i + 1) ≤ p ∧ p < y + (i + 1) + count
        · rw [if_pos h2, if_neg (by omega), if_pos (by omega), hr1 _ _ _ hxi hyi,
            if_neg (by omega), if_neg (by omega)]
        · rw [if_neg h2, hr1 _ _ _ hxi hyi]
          by_cases h3 : p = y + i
          · rw [if_pos h3, if_neg (by omega), if_pos (by omega)]
            have : p - y + x = x + i := by omega
            rw [this, hx]
          · rw [if_neg h3]
            by_cases h4 : p = x + i
            · rw [if_pos h4, if_pos (by omega)]
              have : p - x + y = y + i := by omega
              rw [this, hy]
            · rw [if_neg h4, if_neg (by omega), if_neg (by omega)]
    · intro hrow
      rw [hm1 hrow, if_neg hrow]
    · intro hrow hI
      have hstep := PosMap.indexes_swap m rowData (x + i) (y + i) rowData[x + i] rowData[y + i]
        hI hx hy hne
      rw [if_pos hrow] at hm2
      obtain ⟨h5, h6⟩ := hm2 hrow hstep.1
      exact ⟨h5, h6.trans hstep.2⟩

end RamForest

namespace RamForest

open ForestState in
/-- C14: for every forest state that satisfies R3 and whose row 0 exists, and
every `from`, `to`, `range` with both positions on row 0, the two ranges within
row 0 and disjoint: `SwapRange(from, to, range)` returns; afterwards
`row[0][from + i]` and `row[0][to + i]` have changed places for every
`i < range`; every other entry of row 0 and every other row is unchanged, as are
the leaf count and the root list; and R3 holds again, the position map having
as many entries as before and mapping each swapped hash to its new position. -/
theorem swapRange_row0 (f : RamForest) (src dst range : Nat) (hR3 : R3 f)
    (hrow0 : 0 < f.m_data.length)
    (hsrc : DetectRow f.m_num_leaves src = 0) (hdst : DetectRow f.m_num_leaves dst = 0)
    (hsrcIn : src + range ≤ (rowAt f.m_data 0).length)
    (hdstIn : dst + range ≤ (rowAt f.m_data 0).length)
    (hdis : src + range ≤ dst ∨ dst + range ≤ src) :
    ∃ g, f.SwapRange src dst range = some g ∧
      (∀ i, i < range →
        (rowAt g.m_data 0)[src + i]? = (rowAt f.m_data 0)[dst + i]? ∧
        (rowAt g.m_data 0)[dst + i]? = (rowAt f.m_data 0)[src + i]?) ∧
      (∀ p, ¬ (src ≤ p ∧ p < src + range) → ¬ (dst ≤ p ∧ p < dst + range) →
        (rowAt g.m_data 0)[p]? = (rowAt f.m_data 0)[p]?) ∧
      (∀ r, r ≠ 0 → rowAt g.m_data r = rowAt f.m_data r) ∧
      (rowAt g.m_data 0).length = (rowAt f.m_data 0).length ∧
      g.m_data.length = f.m_data.length ∧
      g.m_num_leaves = f.m_num_leaves ∧ g.m_roots = f.m_roots ∧
      R3 g ∧ PosMap.size g.m_posmap = PosMap.size f.m_posmap ∧
      (∀ i h, i < range → (rowAt f.m_data 0)[src + i]? = some h →
        PosMap.find g.m_posmap h = some (dst + i)) ∧
      (∀ i h, i < range → (rowAt f.m_data 0)[dst + i]? = some h →
        PosMap.find g.m_posmap h = some (src + i)) := by
  have ho1 : RowOffset f.m_num_leaves src = 0 := by
    unfold RowOffset
    rw [hsrc, rowStart_zero]
  have ho2 : RowOffset f.m_num_leaves dst = 0 := by
    unfold RowOffset
    rw [hdst, rowStart_zero]
  have hget : f.m_data[0]? = some (rowAt f.m_data 0) := by
    rw [List.getElem?_eq_getElem hrow0]
    congr 1
    exact (rowAt_eq_of_getElem? _ _ _ (List.getElem?_eq_getElem hrow0)).symm
  obtain ⟨rowData', m', hloop, hlen, hchar, _, hm⟩ :=
    swapLoop_spec 0 src dst range hdis range 0 (rowAt f.m_data 0) f.m_posmap (by omega)
      hsrcIn hdstIn
  obtain ⟨hI, hsize⟩ := hm rfl hR3.2
  have hrows : ∀ r, rowAt (f.m_data.set 0 rowData') r
      = if r = 0 then rowData' else rowAt f.m_data r := fun r => rowAt_set _ _ _ _ hrow0
  have hr0 : rowAt (f.m_data.set 0 rowData') 0 = rowData' := by rw [hrows 0, if_pos rfl]
  have hex : ∀ i, i < range →
      rowData'[src + i]? = (rowAt f.m_data 0)[dst + i]? ∧
      rowData'[dst + i]? = (rowAt f.m_data 0)[src + i]? := by
    intro i hi
    constructor
    · rw [hchar (src + i), if_pos (by omega)]
      have : src + i - src + dst = dst + i := by omega
      rw [this]
    · rw [hchar (dst + i), if_neg (by omega), if_pos (by omega)]
      have : dst + i - dst + src = src + i := by omega
      rw [this]
  refine ⟨{ f with m_data := f.m_data.set 0 rowData', m_posmap := m' }, ?_, ?_, ?_, ?_, ?_, ?_,
    rfl, rfl, ⟨hsize.trans hR3.1, ?_⟩, hsize, ?_, ?_⟩
  · simp only [SwapRange, hsrc, ho1, ho2, Nat.sub_zero, hget]
    rw [hloop]
  · intro i hi
    show (rowAt (f.m_data.set 0 rowData') 0)[src + i]? = _ ∧
      (rowAt (f.m_data.set 0 rowData') 0)[dst + i]? = _
    rw [hr0]
    exact hex i hi
  · intro p h1 h2
    show (rowAt (f.m_data.set 0 rowData') 0)[p]? = _
    rw [hr0, hchar p, if_neg (by omega), if_neg (by omega)]
  · intro r hr
    show rowAt (f.m_data.set 0 rowData') r = _
    rw [hrows r, if_neg hr]
  · show (rowAt (f.m_data.set 0 rowData') 0).length = _
    rw [hr0, hlen]
  · exact List.length_set _ _ _
  · intro h p
    show PosMap.find m' h = some p ↔ (rowAt (f.m_data.set 0 rowData') 0)[p]? = some h
    rw [hr0]
    exact hI h p
  · intro i h hi hh
    show PosMap.find m' h = some (dst + i)
    rw [hI h (dst + i), (hex i hi).2]
    exact hh
  · intro i h hi hh
    show PosMap.find m' h = some (src + i)
    rw [hI h (src + i), (hex i hi).1]
    exact hh

/-- Witness for C14: the leaves at positions 0 and 2 of the three-leaf sample
state change places. -/
theorem swapRange_row0_witness :
    ∃ g, sampleForest3.SwapRange 0 2 1 = some g ∧
      (∀ i, i < 1 →
        (rowAt g.m_data 0)[0 + i]? = (rowAt sampleForest3.m_data 0)[2 + i]? ∧
        (rowAt g.m_data 0)[2 + i]? = (rowAt sampleForest3.m_data 0)[0 + i]?) ∧
      (∀ p, ¬ (0 ≤ p ∧ p < 0 + 1) → ¬ (2 ≤ p ∧ p < 2 + 1) →
        (rowAt g.m_data 0)[p]? = (rowAt sampleForest3.m_data 0)[p]?) ∧
      (∀ r, r ≠ 0 → rowAt g.m_data r = rowAt sampleForest3.m_data r) ∧
      (rowAt g.m_data 0).length = (rowAt sampleForest3.m_data 0).length ∧
      g.m_data.length = sampleForest3.m_data.length ∧
      g.m_num_leaves = sampleForest3.m_num_leaves ∧ g.m_roots = sampleForest3.m_roots ∧
      R3 g ∧ PosMap.size g.m_posmap = PosMap.size sampleForest3.m_posmap ∧
      (∀ i h, i < 1 → (rowAt sampleForest3.m_data 0)[0 + i]? = some h →
        PosMap.find g.m_posmap h = some (2 + i)) ∧
      (∀ i h, i < 1 → (rowAt sampleForest3.m_data 0)[2 + i]? = some h →
        PosMap.find g.m_posmap h = some (0 + i)) :=
  swapRange_row0 sampleForest3 0 2 1 R3_sampleForest3 (by decide) (by decide) (by decide)
    (by decide) (by decide) (by decide)

end RamForest

/-! ## Lemmas for `SwapSubTrees` -/

namespace RamForest

open ForestState in
theorem SwapRange_row (f : RamForest) (j x y R : Nat) (hj : j ≤ LayoutRows f.m_num_leaves)
    (hx : x < 2 ^ (LayoutRows f.m_num_leaves - j)) (hy : y < 2 ^ (LayoutRows f.m_num_leaves - j))
    (hjrow : j < f.m_data.length)
    (hxl : x + R ≤ (rowAt f.m_data j).length) (hyl : y + R ≤ (rowAt f.m_data j).length)
    (hdis : x + R ≤ y ∨ y + R ≤ x) :
    ∃ g, f.SwapRange (rowStart (LayoutRows f.m_num_leaves) j + x)
        (rowStart (LayoutRows f.m_num_leaves) j + y) R = some g ∧
      g.m_num_leaves = f.m_num_leaves ∧ g.m_roots = f.m_roots ∧
      g.m_data.length = f.m_data.length ∧
      (∀ j', j' ≠ j → rowAt g.m_data j' = rowAt f.m_data j') ∧
      (rowAt g.m_data j).length = (rowAt f.m_data j).length ∧
      ∀ p, (rowAt g.m_data j)[p]? = exchanged (rowAt f.m_data j) x y R p := by
  have hget : f.m_data[j]? = some (rowAt f.m_data j) := by
    rw [List.getElem?_eq_getElem hjrow]
    congr 1
    exact (rowAt_eq_of_getElem? _ _ _ (List.getElem?_eq_getElem hjrow)).symm
  obtain ⟨rowData', m', hloop, hlen, hchar, _, _⟩ :=
    swapLoop_spec j x y R hdis R 0 (rowAt f.m_data j) f.m_posmap (by omega) hxl hyl
  have hrows : ∀ r, rowAt (f.m_data.set j rowData') r
      = if r = j then rowData' else rowAt f.m_data r := fun r => rowAt_set _ _ _ _ hjrow
  refine ⟨{ f with m_data := f.m_data.set j rowData', m_posmap := m' }, ?_, rfl, rfl,
    List.length_set _ _ _, ?_, ?_, ?_⟩
  · simp only [SwapRange, DetectRow_row _ j x hj hx, RowOffset_row _ j x hj hx,
      RowOffset_row _ j y hj hy, Nat.add_sub_cancel_left, hget]
    rw [hloop]
  · intro j' hne
    show rowAt (f.m_data.set j rowData') j' = _
    rw [hrows j', if_neg hne]
  · show (rowAt (f.m_data.set j rowData') j).length = _
    rw [hrows j, if_pos rfl, hlen]
  · intro p
    show (rowAt (f.m_data.set j rowData') j)[p]? = _
    rw [hrows j, if_pos rfl, hchar p]
    simp only [exchanged, Nat.add_zero]

theorem lt_length_of_rowAt_pos (d : List (List Hash)) (r : Nat) (h : 0 < (rowAt d r).length) :
    r < d.length := by
  by_contra hn
  rw [rowAt_of_length_le _ _ (by omega)] at h
  exact Nat.lt_irrefl 0 h

open ForestState in
theorem swapSubTreesLoop_spec (N a b r : Nat) (hab : a ≠ b) (hr : r ≤ LayoutRows N)
    (ha : a < 2 ^ (LayoutRows N - r)) (hb : b < 2 ^ (LayoutRows N - r)) :
    ∀ (k j fuel : Nat) (f : RamForest), j + k = r → k + 2 ≤ fuel → f.m_num_leaves = N →
      (∀ j', j ≤ j' → j' ≤ r →
        (a + 1) * 2 ^ (r - j') ≤ (rowAt f.m_data j').length ∧
        (b + 1) * 2 ^ (r - j') ≤ (rowAt f.m_data j').length) →
      ∃ g, swapSubTreesLoop fuel (2 ^ k) (rowStart (LayoutRows N) j + a * 2 ^ k)
          (rowStart (LayoutRows N) j + b * 2 ^ k) f
            = some (g, Parent N (rowStart (LayoutRows N) r + b)) ∧
        g.m_num_leaves = N ∧ g.m_roots = f.m_roots ∧ g.m_data.length = f.m_data.length ∧
        (∀ j', (rowAt g.m_data j').length = (rowAt f.m_data j').length) ∧
        (∀ j' p, (rowAt g.m_data j')[p]? =
          if j ≤ j' ∧ j' ≤ r then
            exchanged (rowAt f.m_data j') (a * 2 ^ (r - j')) (b * 2 ^ (r - j')) (2 ^ (r - j')) p
          else (rowAt f.m_data j')[p]?) := by
  intro k
  induction k with
  | zero =>
    intro j fuel f hjk hfuel hN hst
    subst hN
    have hjr : j = r := by omega
    subst hjr
    obtain ⟨fuel1, rfl⟩ : ∃ q, fuel = q + 1 := ⟨fuel - 1, by omega⟩
    obtain ⟨fuel2, rfl⟩ : ∃ q, fuel1 = q + 1 := ⟨fuel1 - 1, by omega⟩
    have hs := hst j (le_refl _) (le_refl _)
    rw [Nat.sub_self, pow_zero, Nat.mul_one, Nat.mul_one] at hs
    obtain ⟨g, hg, h1, h2, h3, h4, h5, h6⟩ := SwapRange_row f j (a * 2 ^ 0) (b * 2 ^ 0) (2 ^ 0) hr
      (by rw [pow_zero, Nat.mul_one]; exact ha) (by rw [pow_zero, Nat.mul_one]; exact hb)
      (lt_length_of_rowAt_pos _ _ (by omega))
      (by rw [pow_zero, Nat.mul_one]; omega) (by rw [pow_zero, Nat.mul_one]; omega)
      (by rw [pow_zero, Nat.mul_one, Nat.mul_one]; omega)
    refine ⟨g, ?_, h1, h2, h3, ?_, ?_⟩
    · have hne : (2 : Nat) ^ 0 ≠ 0 := by norm_num
      have hhalf : (2 : Nat) ^ 0 / 2 = 0 := by norm_num
      simp only [swapSubTreesLoop, hne, ne_eq, not_false_eq_true, if_true, hg, hhalf,
        not_true_eq_false, if_false]
      rw [pow_zero, Nat.mul_one]
    · intro j'
      by_cases e : j' = j
      · rw [e, h5]
      · rw [h4 j' e]
    · intro j' p
      by_cases e : j' = j
      · subst e
        rw [if_pos ⟨le_refl _, le_refl _⟩, h6 p, Nat.sub_self]
      · rw [if_neg (by omega), h4 j' e]
  | succ k ih =>
    intro j fuel f hjk hfuel hN hst
    subst hN
    obtain ⟨fuel1, rfl⟩ : ∃ q, fuel = q + 1 := ⟨fuel - 1, by omega⟩
    have hs := hst j (le_refl _) (by omega)
    have hrj : r - j = k + 1 := by omega
    rw [hrj] at hs
    have hj : j ≤ LayoutRows f.m_num_leaves := by omega
    have hpow : 2 ^ (LayoutRows f.m_num_leaves - j)
        = 2 ^ (LayoutRows f.m_num_leaves - r) * 2 ^ (k + 1) := by
      rw [← pow_add]
      congr 1
      omega
    have hpos : 0 < 2 ^ (k + 1) := Nat.pow_pos (by norm_num)
    have hax : a * 2 ^ (k + 1) < 2 ^ (LayoutRows f.m_num_leaves - j) := by
      rw [hpow]
      exact Nat.mul_lt_mul_of_pos_right ha hpos
    have hbx : b * 2 ^ (k + 1) < 2 ^ (LayoutRows f.m_num_leaves - j) := by
      rw [hpow]
      exact Nat.mul_lt_mul_of_pos_right hb hpos
    have hsa : a * 2 ^ (k + 1) + 2 ^ (k + 1) = (a + 1) * 2 ^ (k + 1) := by
      rw [Nat.add_mul, Nat.one_mul]
    have hsb : b * 2 ^ (k + 1) + 2 ^ (k + 1) = (b + 1) * 2 ^ (k + 1) := by
      rw [Nat.add_mul, Nat.one_mul]
    have hdis : a * 2 ^ (k + 1) + 2 ^ (k + 1) ≤ b * 2 ^ (k + 1) ∨
        b * 2 ^ (k + 1) + 2 ^ (k + 1) ≤ a * 2 ^ (k + 1) := by
      rcases Nat.lt_or_gt_of_ne hab with h | h
      · left
        rw [hsa]
        exact Nat.mul_le_mul_right _ h
      · right
        rw [hsb]
        exact Nat.mul_le_mul_right _ h
    have hlenpos : 0 < (rowAt f.m_data j).length := by
      have : 0 < (a + 1) * 2 ^ (k + 1) := Nat.mul_pos (Nat.succ_pos _) hpos
      omega
    obtain ⟨g1, hg1, h1, h2, h3, h4, h5, h6⟩ := SwapRange_row f j (a * 2 ^ (k + 1))
      (b * 2 ^ (k + 1)) (2 ^ (k + 1)) hj hax hbx (lt_length_of_rowAt_pos _ _ hlenpos)
      (by rw [hsa]; exact hs.1) (by rw [hsb]; exact hs.2) hdis
    have hlen1 : ∀ j', (rowAt g1.m_data j').length = (rowAt f.m_data j').length := by
      intro j'
      by_cases e : j' = j
      · rw [e, h5]
      · rw [h4 j' e]
    have hhalfa : a * 2 ^ (k + 1) / 2 = a * 2 ^ k := by
      rw [pow_succ, ← Nat.mul_assoc]
      exact Nat.mul_div_cancel _ (by norm_num)
    have hhalfb : b * 2 ^ (k + 1) / 2 = b * 2 ^ k := by
      rw [pow_succ, ← Nat.mul_assoc]
      exact Nat.mul_div_cancel _ (by norm_num)
    have hhalf : 2 ^ (k + 1) / 2 = 2 ^ k := by
      rw [pow_succ]
      exact Nat.mul_div_cancel _ (by norm_num)
    obtain ⟨g, hg, i1, i2, i3, i4, i5⟩ := ih (j + 1) fuel1 g1 (by omega) (by omega) h1 (by
      intro j' hj1 hj2
      rw [hlen1 j']
      exact hst j' (by omega) hj2)
    refine ⟨g, ?_, i1, i2.trans h2, i3.trans h3, fun j' => (i4 j').trans (hlen1 j'), ?_⟩
    · have hne : (2 : Nat) ^ (k + 1) ≠ 0 := by omega
      simp only [swapSubTreesLoop, hne, ne_eq, not_false_eq_true, if_true, hg1, hhalf,
        Parent_row _ j _ hj hax, Parent_row _ j _ hj hbx, hhalfa, hhalfb]
      exact hg
    · intro j' p
      rw [i5 j' p]
      by_cases e : j' = j
      · subst e
        rw [if_neg (by omega), if_pos ⟨le_refl _, by omega⟩, h6 p, hrj]
      · rw [h4 j' e]
        by_cases e2 : j + 1 ≤ j' ∧ j' ≤ r
        · rw [if_pos e2, if_pos ⟨by omega, e2.2⟩]
        · rw [if_neg e2, if_neg (by omega)]

end RamForest

namespace RamForest

theorem exchanged_src (row : List Hash) (x y R k : Nat) (hk : k < R) :
    exchanged row x y R (x + k) = row[y + k]? := by
  unfold exchanged
  rw [if_pos (by omega)]
  have : x + k - x + y = y + k := by omega
  rw [this]

theorem exchanged_dst (row : List Hash) (x y R k : Nat) (hk : k < R)
    (hdis : x + R ≤ y ∨ y + R ≤ x) :
    exchanged row x y R (y + k) = row[x + k]? := by
  unfold exchanged
  rw [if_neg (by omega), if_pos (by omega)]
  have : y + k - y + x = x + k := by omega
  rw [this]

theorem exchanged_outside (row : List Hash) (x y R p : Nat)
    (h1 : ¬ (x ≤ p ∧ p < x + R)) (h2 : ¬ (y ≤ p ∧ p < y + R)) :
    exchanged row x y R p = row[p]? := by
  unfold exchanged
  rw [if_neg h1, if_neg h2]

theorem intShiftLeftOne_of_lt (row : Nat) (h : row < 31) : intShiftLeftOne row = some (2 ^ row) := by
  simp [intShiftLeftOne, h]

open ForestState in
/-- C15 (what holds, subtrees of height at most 30): for every forest state and
every two distinct positions on the same row `r < 31` of the layout, with
indices `a` and `b`, whose subtrees are fully stored, `SwapSubTrees(from, to)`
returns with a handle at `Parent(to)`; on every row `j ≤ r` the `2^(r-j)`
hashes from index `a * 2^(r-j)` on have changed places with the `2^(r-j)`
hashes from index `b * 2^(r-j)` on; and every other stored hash, the leaf count
and the root list are unchanged. -/
theorem swapSubTrees_effect (uninit : Hash) (f : RamForest) (r a b : Nat) (hr31 : r < 31)
    (hr : r ≤ LayoutRows f.m_num_leaves)
    (ha : a < 2 ^ (LayoutRows f.m_num_leaves - r)) (hb : b < 2 ^ (LayoutRows f.m_num_leaves - r))
    (hab : a ≠ b)
    (hstored : ∀ j, j ≤ r →
      (a + 1) * 2 ^ (r - j) ≤ (rowAt f.m_data j).length ∧
      (b + 1) * 2 ^ (r - j) ≤ (rowAt f.m_data j).length) :
    ∃ g, f.SwapSubTrees uninit (rowStart (LayoutRows f.m_num_leaves) r + a)
        (rowStart (LayoutRows f.m_num_leaves) r + b)
          = some (⟨uninit, f.m_num_leaves,
              Parent f.m_num_leaves (rowStart (LayoutRows f.m_num_leaves) r + b)⟩, g) ∧
      g.m_num_leaves = f.m_num_leaves ∧ g.m_roots = f.m_roots ∧
      g.m_data.length = f.m_data.length ∧
      (∀ j, (rowAt g.m_data j).length = (rowAt f.m_data j).length) ∧
      (∀ j k, j ≤ r → k < 2 ^ (r - j) →
        (rowAt g.m_data j)[a * 2 ^ (r - j) + k]? = (rowAt f.m_data j)[b * 2 ^ (r - j) + k]? ∧
        (rowAt g.m_data j)[b * 2 ^ (r - j) + k]? = (rowAt f.m_data j)[a * 2 ^ (r - j) + k]?) ∧
      (∀ j p, ¬ (j ≤ r ∧ ((a * 2 ^ (r - j) ≤ p ∧ p < a * 2 ^ (r - j) + 2 ^ (r - j)) ∨
          (b * 2 ^ (r - j) ≤ p ∧ p < b * 2 ^ (r - j) + 2 ^ (r - j)))) →
        (rowAt g.m_data j)[p]? = (rowAt f.m_data j)[p]?) := by
  obtain ⟨g, hg, h1, h2, h3, h4, h5⟩ := swapSubTreesLoop_spec f.m_num_leaves a b r hab hr ha hb
    r 0 65 f (by omega) (by omega) rfl (fun j' _ hj' => hstored j' hj')
  have hdis : ∀ j, a * 2 ^ (r - j) + 2 ^ (r - j) ≤ b * 2 ^ (r - j) ∨
      b * 2 ^ (r - j) + 2 ^ (r - j) ≤ a * 2 ^ (r - j) := by
    intro j
    have hsa : a * 2 ^ (r - j) + 2 ^ (r - j) = (a + 1) * 2 ^ (r - j) := by
      rw [Nat.add_mul, Nat.one_mul]
    have hsb : b * 2 ^ (r - j) + 2 ^ (r - j) = (b + 1) * 2 ^ (r - j) := by
      rw [Nat.add_mul, Nat.one_mul]
    rcases Nat.lt_or_gt_of_ne hab with h | h
    · left
      rw [hsa]
      exact Nat.mul_le_mul_right _ h
    · right
      rw [hsb]
      exact Nat.mul_le_mul_right _ h
  refine ⟨g, ?_, h1, h2, h3, h4, ?_, ?_⟩
  · simp only [SwapSubTrees, DetectRow_row _ r a hr ha, DetectRow_row _ r b hr hb, if_true,
      intShiftLeftOne_of_lt r hr31, LeftDescendant, RowOffset_row _ r a hr ha,
      RowOffset_row _ r b hr hb, Nat.add_sub_cancel_left, Nat.sub_self]
    rw [hg]
    simp only [h1]
  · intro j k hj hk
    rw [h5 j _, h5 j _, if_pos ⟨Nat.zero_le _, hj⟩, if_pos ⟨Nat.zero_le _, hj⟩]
    exact ⟨exchanged_src _ _ _ _ _ hk, exchanged_dst _ _ _ _ _ hk (hdis j)⟩
  · intro j p hout
    rw [h5 j p]
    by_cases hj : j ≤ r
    · rw [if_pos ⟨Nat.zero_le _, hj⟩]
      apply exchanged_outside
      · intro h
        exact hout ⟨hj, Or.inl h⟩
      · intro h
        exact hout ⟨hj, Or.inr h⟩
    · rw [if_neg (fun h => hj h.2)]

/-- The subtrees at positions 4 and 5 of the four-leaf sample state (row 1,
indices 0 and 1) change places. -/
theorem swapSubTrees_effect_witness :
    ∃ g, sampleForest4.SwapSubTrees (mkHash 0) 4 5
          = some (⟨mkHash 0, 4, 6⟩, g) ∧
      g.m_num_leaves = 4 ∧ g.m_roots = sampleForest4.m_roots ∧
      g.m_data.length = sampleForest4.m_data.length ∧
      (∀ j, (rowAt g.m_data j).length = (rowAt sampleForest4.m_data j).length) ∧
      (∀ j k, j ≤ 1 → k < 2 ^ (1 - j) →
        (rowAt g.m_data j)[0 * 2 ^ (1 - j) + k]?
          = (rowAt sampleForest4.m_data j)[1 * 2 ^ (1 - j) + k]? ∧
        (rowAt g.m_data j)[1 * 2 ^ (1 - j) + k]?
          = (rowAt sampleForest4.m_data j)[0 * 2 ^ (1 - j) + k]?) ∧
      (∀ j p, ¬ (j ≤ 1 ∧ ((0 * 2 ^ (1 - j) ≤ p ∧ p < 0 * 2 ^ (1 - j) + 2 ^ (1 - j)) ∨
          (1 * 2 ^ (1 - j) ≤ p ∧ p < 1 * 2 ^ (1 - j) + 2 ^ (1 - j)))) →
        (rowAt g.m_data j)[p]? = (rowAt sampleForest4.m_data j)[p]?) :=
  swapSubTrees_effect (mkHash 0) sampleForest4 1 0 1 (by decide) (by decide) (by decide)
    (by decide) (by decide) (by decide)

end RamForest

namespace RamForest

theorem swapLoop_overrun (row x y : Nat) :
    ∀ (count i : Nat) (rowData : List Hash) (m : PosMap), 0 < count →
      rowData.length < x + i + count ∨ rowData.length < y + i + count →
      swapLoop row x y count i (rowData, m) = none := by
  intro count
  induction count with
  | zero =>
    intro i rowData m h _
    exact absurd h (Nat.lt_irrefl 0)
  | succ count ih =>
    intro i rowData m _ hover
    by_cases hin : x + i < rowData.length ∧ y + i < rowData.length
    · have hx : rowData[x + i]? = some rowData[x + i] := List.getElem?_eq_getElem hin.1
      have hy : rowData[y + i]? = some rowData[y + i] := List.getElem?_eq_getElem hin.2
      have hcount : 0 < count := by omega
      have hnext := fun m' =>
        ih (i + 1) ((rowData.set (x + i) rowData[y + i]).set (y + i) rowData[x + i]) m'
          hcount (by simp only [List.length_set]; omega)
      simp only [swapLoop, swapAt, hx, hy]
      split
      · rename_i a b _ _
        exact hnext _
      · rfl
    · have hnone : rowData[x + i]? = none ∨ rowData[y + i]? = none := by
        by_cases h1 : x + i < rowData.length
        · right
          exact List.getElem?_eq_none (by omega)
        · left
          exact List.getElem?_eq_none (by omega)
      simp only [swapLoop, swapAt]
      rcases hnone with h | h
      · rw [h]
      · rw [h]
        cases rowData[x + i]? <;> rfl

theorem SwapRange_overrun (f : RamForest) (src dst range : Nat) (hpos : 0 < range)
    (hlen : ∀ r, (rowAt f.m_data r).length < range) : f.SwapRange src dst range = none := by
  unfold SwapRange
  simp only
  cases hrow : f.m_data[ForestState.DetectRow f.m_num_leaves src]? with
  | none => rfl
  | some rowData =>
    have e := rowAt_eq_of_getElem? _ _ _ hrow
    have hl := hlen (ForestState.DetectRow f.m_num_leaves src)
    rw [e] at hl
    simp only
    rw [swapLoop_overrun _ _ _ range 0 rowData f.m_posmap hpos (Or.inl (by omega))]

/-- On rows 31 and above `SwapSubTrees` does not return: at row 31 the range
`1 << 31` is `2^64 - 2^31` and the first `SwapRange` runs past the end of its
row, and from row 32 on the shift has no value. -/
theorem SwapSubTrees_high_row (uninit : Hash) (f : RamForest) (src dst : Nat)
    (hrow : 31 ≤ ForestState.DetectRow f.m_num_leaves src)
    (hlen : ∀ r, (rowAt f.m_data r).length < 2 ^ 64 - 2 ^ 31) :
    f.SwapSubTrees uninit src dst = none := by
  unfold SwapSubTrees
  simp only
  split
  · by_cases h31 : ForestState.DetectRow f.m_num_leaves src = 31
    · have hs : intShiftLeftOne (ForestState.DetectRow f.m_num_leaves src)
          = some (2 ^ 64 - 2 ^ 31) := by
        rw [h31]
        rfl
      rw [hs]
      have hne : (2 : Nat) ^ 64 - 2 ^ 31 ≠ 0 := by norm_num
      simp only [swapSubTreesLoop, hne, ne_eq, not_false_eq_true, if_true,
        SwapRange_overrun f _ _ (2 ^ 64 - 2 ^ 31) (by norm_num) hlen]
    · have hs : intShiftLeftOne (ForestState.DetectRow f.m_num_leaves src) = none := by
        unfold intShiftLeftOne
        rw [if_neg (by omega), if_neg h31]
      rw [hs]
  · rfl

theorem LayoutRows_bigForest : ForestState.LayoutRows bigForest.m_num_leaves = 32 := by
  show ForestState.LayoutRows (2 ^ 32) = 32
  rw [ForestState.LayoutRows_eq]
  apply Nat.le_antisymm
  · rw [ForestState.NumRows_le_iff]
    norm_num
  · by_contra h
    have h' : ForestState.NumRows (2 ^ 32 - 1) ≤ 31 := by omega
    rw [ForestState.NumRows_le_iff] at h'
    norm_num at h'

theorem rowAt_bigForest (j : Nat) (hj : j < 33) :
    rowAt bigForest.m_data j = List.replicate (2 ^ (32 - j)) (mkHash 0) := by
  apply rowAt_eq_of_getElem?
  show ((List.range 33).map (fun r => List.replicate (2 ^ (32 - r)) (mkHash 0)))[j]? = _
  rw [List.getElem?_map, List.getElem?_range hj]
  rfl

theorem length_rowAt_bigForest_le (j : Nat) : (rowAt bigForest.m_data j).length ≤ 2 ^ 32 := by
  by_cases hj : j < 33
  · rw [rowAt_bigForest j hj, List.length_replicate]
    exact Nat.pow_le_pow_right (by norm_num) (by omega)
  · rw [rowAt_of_length_le _ _ (by
      show ((List.range 33).map (fun r => List.replicate (2 ^ (32 - r)) (mkHash 0))).length ≤ j
      rw [List.length_map, List.length_range]
      omega)]
    exact Nat.zero_le _

open ForestState in
/-- C15 (the code at the failing input): in the forest state of `2^32` leaves
with all its rows stored, the positions `2^33 - 4` and `2^33 - 3` are the two
first positions of row 31, their subtrees are fully stored (row `j ≤ 31` holds
the `2 * 2^(31 - j)` hashes they need), and `SwapSubTrees` on them does not
return: the range `1 << 31` is not `2^31`, and the first `SwapRange` runs
past the end of row 0. -/
theorem swapSubTrees_row31_fails :
    DetectRow bigForest.m_num_leaves (2 ^ 33 - 4) = 31 ∧
      DetectRow bigForest.m_num_leaves (2 ^ 33 - 3) = 31 ∧
      (∀ j, j ≤ 31 → (rowAt bigForest.m_data j).length = 2 * 2 ^ (31 - j)) ∧
      intShiftLeftOne 31 = some (2 ^ 64 - 2 ^ 31) ∧
      bigForest.SwapSubTrees (mkHash 0) (2 ^ 33 - 4) (2 ^ 33 - 3) = none := by
  have hH := LayoutRows_bigForest
  have h0 := DetectRow_row bigForest.m_num_leaves 31 0 (by rw [hH]; norm_num)
    (by rw [hH]; norm_num)
  have h1 := DetectRow_row bigForest.m_num_leaves 31 1 (by rw [hH]; norm_num)
    (by rw [hH]; norm_num)
  rw [hH] at h0 h1
  have e0 : rowStart 32 31 + 0 = 2 ^ 33 - 4 := by norm_num [rowStart]
  have e1 : rowStart 32 31 + 1 = 2 ^ 33 - 3 := by norm_num [rowStart]
  rw [e0] at h0
  rw [e1] at h1
  refine ⟨h0, h1, ?_, rfl, ?_⟩
  · intro j hj
    rw [rowAt_bigForest j (by omega), List.length_replicate]
    have : 32 - j = (31 - j) + 1 := by omega
    rw [this, pow_succ, Nat.mul_comm]
  · apply SwapSubTrees_high_row
    · rw [h0]
    · intro r
      have := length_rowAt_bigForest_le r
      have h2 : (2 : Nat) ^ 32 < 2 ^ 64 - 2 ^ 31 := by norm_num
      omega

end RamForest

/-! ## A sample merge round -/

/-- The merge round of `Add` is entered: on the one-leaf forest, after the new
leaf `h2` is appended and the leaf count incremented, the loop is at its head
for row 0, which has a root in the leaf count 1 it started from. -/
theorem mergeState_sample :
    MergeState sampleParentHash 1 0
      { m_num_leaves := 2, m_data := [[mkHash 1, mkHash 2], []],
        m_posmap := [(mkHash 1, 0), (mkHash 2, 1)],
        m_roots := [⟨mkHash 1, 0, 0⟩, ⟨mkHash 2, 1, 1⟩] } ∧
      ForestState.HasRoot 1 0 = true :=
  ⟨MergeState.start
    { m_num_leaves := 1, m_data := [[mkHash 1], []], m_posmap := [(mkHash 1, 0)],
      m_roots := [⟨mkHash 1, 0, 0⟩] }
    { m_num_leaves := 1, m_data := [[mkHash 1, mkHash 2], []],
      m_posmap := [(mkHash 1, 0), (mkHash 2, 1)],
      m_roots := [⟨mkHash 1, 0, 0⟩, ⟨mkHash 2, 1, 1⟩] } (mkHash 2, false)
    (by
      intro r
      rcases r with _ | _ | r
      · rfl
      · rfl
      · show (rowAt [[mkHash 1], []] (r + 2)).length = 1 >>> (r + 2)
        rw [rowAt_of_length_le _ _ (by simp), Nat.shiftRight_eq_div_pow]
        have : 1 < 2 ^ (r + 2) := Nat.one_lt_two_pow (by omega)
        rw [Nat.div_eq_of_lt this]
        rfl)
    (by decide) (by decide), by decide⟩

/-! ## The target check of `Prove` -/

namespace RamForest

theorem lookupTargets_of_keys (m : PosMap) (hs : List Hash)
    (hkeys : ∀ h ∈ hs, PosMap.find m h ≠ none) :
    ∃ targets, lookupTargets m hs [] = some targets ∧
      hs.map (PosMap.find m) = targets.map some := by
  cases hl : lookupTargets m hs [] with
  | none =>
    obtain ⟨h, hh, hn⟩ := (lookupTargets_eq_none m hs []).mp hl
    exact absurd hn (hkeys h hh)
  | some ts =>
    obtain ⟨new, h1, h2⟩ := lookupTargets_eq_some _ _ _ _ hl
    rw [List.nil_append] at h1
    subst h1
    exact ⟨ts, rfl, h2⟩

theorem length_row0_le_of_R3 {f : RamForest} (hR3 : R3 f) :
    (rowAt f.m_data 0).length ≤ f.m_num_leaves := by
  have hnd := nodup_row0_of_R3 hR3
  have hsub : rowAt f.m_data 0 ⊆ f.m_posmap.map Prod.fst := by
    intro x hx
    obtain ⟨i, hi⟩ := List.mem_iff_getElem?.mp hx
    exact PosMap.mem_keys_of_find _ _ i ((hR3.2 x i).mpr hi)
  have := (List.subperm_of_subset hnd hsub).length_le
  rw [List.length_map] at this
  exact this.trans (le_of_eq hR3.1)

open ForestState in
theorem DetectRow_of_lt (n p : Nat) (hp : p < n) : DetectRow n p = 0 := by
  have hN := le_two_pow_LayoutRows n
  have hi : p < 2 ^ (LayoutRows n - 0) := by
    rw [Nat.sub_zero]
    omega
  have h1 := DetectRow_row n 0 p (Nat.zero_le _) hi
  rw [rowStart_zero, Nat.zero_add] at h1
  exact h1

theorem Prove_of_lookup (ProofPositions : Nat → List Nat → List Nat) (f : RamForest)
    (proof : BatchProof) (targetHashes : List Hash) (targets : List Nat)
    (hl : lookupTargets f.m_posmap targetHashes [] = some targets) :
    Prove ProofPositions f proof targetHashes =
      if ForestState.CheckTargetsSanity f.m_num_leaves (targets.insertionSort (· ≤ ·)) = true then
        (readAll f (ProofPositions f.m_num_leaves (targets.insertionSort (· ≤ ·)))).map
          (fun proof_hashes => (true, ⟨targets, proof_hashes⟩, f))
      else none := by
  simp only [Prove, hl]
  split
  · cases readAll f (ProofPositions f.m_num_leaves (targets.insertionSort (· ≤ ·))) <;> rfl
  · rfl

open ForestState in
/-- C21: for every forest state and every list of target hashes that are all
keys of the position map, the first loop of `Prove` finds their positions, and
with the sorted copy of these positions: if the state satisfies R3 and the
hashes are pairwise distinct, every sorted position is on row 0 and below `N`
and the sorted positions are strictly increasing, so `CheckTargetsSanity` holds
and `Prove` goes on past its assertion to read the proof hashes (it returns
true with the unsorted positions when these reads succeed); if the list repeats
a hash, the sorted positions are not strictly increasing, `CheckTargetsSanity`
is false and the assertion of `Prove` fails. -/
theorem prove_targets_sanity (ProofPositions : Nat → List Nat → List Nat) (f : RamForest)
    (proof : BatchProof) (targetHashes : List Hash)
    (hkeys : ∀ h ∈ targetHashes, PosMap.find f.m_posmap h ≠ none) :
    ∃ targets, lookupTargets f.m_posmap targetHashes [] = some targets ∧
      targetHashes.map (PosMap.find f.m_posmap) = targets.map some ∧
      (R3 f → targetHashes.Nodup →
        (∀ t ∈ targets.insertionSort (· ≤ ·), DetectRow f.m_num_leaves t = 0 ∧ t < f.m_num_leaves) ∧
        (targets.insertionSort (· ≤ ·)).Pairwise (· < ·) ∧
        CheckTargetsSanity f.m_num_leaves (targets.insertionSort (· ≤ ·)) = true ∧
        Prove ProofPositions f proof targetHashes =
          (readAll f (ProofPositions f.m_num_leaves (targets.insertionSort (· ≤ ·)))).map
            (fun proof_hashes => (true, ⟨targets, proof_hashes⟩, f))) ∧
      (¬ targetHashes.Nodup →
        ¬ (targets.insertionSort (· ≤ ·)).Pairwise (· < ·) ∧
        CheckTargetsSanity f.m_num_leaves (targets.insertionSort (· ≤ ·)) = false ∧
        Prove ProofPositions f proof targetHashes = none) := by
  obtain ⟨targets, hl, hmap⟩ := lookupTargets_of_keys f.m_posmap targetHashes hkeys
  have hperm := List.perm_insertionSort (· ≤ ·) targets
  refine ⟨targets, hl, hmap, ?_, ?_⟩
  · intro hR3 hnd
    have hlen := length_row0_le_of_R3 hR3
    have hfind : ∀ t ∈ targets, ∃ h, PosMap.find f.m_posmap h = some t := by
      intro t ht
      have : some t ∈ targets.map some := List.mem_map.mpr ⟨t, ht, rfl⟩
      rw [← hmap] at this
      obtain ⟨h, _, hh⟩ := List.mem_map.mp this
      exact ⟨h, hh⟩
    have hrange : ∀ t ∈ targets.insertionSort (· ≤ ·),
        DetectRow f.m_num_leaves t = 0 ∧ t < f.m_num_leaves := by
      intro t ht
      obtain ⟨h, hh⟩ := hfind t (hperm.mem_iff.mp ht)
      have hrow := (hR3.2 h t).mp hh
      have hlt : t < (rowAt f.m_data 0).length := by
        by_contra hn
        rw [List.getElem?_eq_none (by omega)] at hrow
        exact Option.noConfusion hrow
      exact ⟨DetectRow_of_lt _ _ (by omega), by omega⟩
    have hndmap : (targetHashes.map (PosMap.find f.m_posmap)).Nodup := by
      apply List.Nodup.map_on _ hnd
      intro x hx y _ hxy
      cases hfx : PosMap.find f.m_posmap x with
      | none => exact absurd hfx (hkeys x hx)
      | some p =>
        have h1 := (hR3.2 x p).mp hfx
        have h2 := (hR3.2 y p).mp (by rw [← hxy, hfx])
        rw [h1] at h2
        exact Option.some.inj h2
    have hndt : targets.Nodup := by
      rw [hmap] at hndmap
      exact List.Nodup.of_map _ hndmap
    have hsorted : (targets.insertionSort (· ≤ ·)).Pairwise (· < ·) :=
      (List.sorted_insertionSort (· ≤ ·) targets).lt_of_le (hperm.nodup_iff.mpr hndt)
    have hcts : CheckTargetsSanity f.m_num_leaves (targets.insertionSort (· ≤ ·)) = true := by
      unfold CheckTargetsSanity
      rw [Bool.and_eq_true, List.all_eq_true, decide_eq_true_eq]
      refine ⟨?_, hsorted⟩
      intro t ht
      rw [Bool.and_eq_true, decide_eq_true_eq, decide_eq_true_eq]
      exact hrange t ht
    refine ⟨hrange, hsorted, hcts, ?_⟩
    rw [Prove_of_lookup ProofPositions f proof targetHashes targets hl, if_pos hcts]
  · intro hdup
    have hndt : ¬ targets.Nodup := by
      intro h
      apply hdup
      have h2 : (targets.map some).Nodup := List.Nodup.map (fun a b e => Option.some.inj e) h
      rw [← hmap] at h2
      exact List.Nodup.of_map _ h2
    have hsorted : ¬ (targets.insertionSort (· ≤ ·)).Pairwise (· < ·) := by
      intro h
      apply hndt
      rw [← hperm.nodup_iff]
      exact List.Pairwise.imp (fun hab => Nat.ne_of_lt hab) h
    have hcts : CheckTargetsSanity f.m_num_leaves (targets.insertionSort (· ≤ ·)) = false := by
      unfold CheckTargetsSanity
      rw [Bool.and_eq_false_iff]
      right
      exact decide_eq_false hsorted
    refine ⟨hsorted, hcts, ?_⟩
    rw [Prove_of_lookup ProofPositions f proof targetHashes targets hl, hcts]
    rfl

/-- Witness for C21: the targets `h2, h1` on the three-leaf sample state. -/
theorem prove_targets_sanity_witness :
    ∃ targets, lookupTargets sampleForest3.m_posmap [mkHash 2, mkHash 1] [] = some targets ∧
      [mkHash 2, mkHash 1].map (PosMap.find sampleForest3.m_posmap) = targets.map some ∧
      (R3 sampleForest3 → [mkHash 2, mkHash 1].Nodup →
        (∀ t ∈ targets.insertionSort (· ≤ ·),
          ForestState.DetectRow sampleForest3.m_num_leaves t = 0 ∧
            t < sampleForest3.m_num_leaves) ∧
        (targets.insertionSort (· ≤ ·)).Pairwise (· < ·) ∧
        ForestState.CheckTargetsSanity sampleForest3.m_num_leaves
          (targets.insertionSort (· ≤ ·)) = true ∧
        Prove (fun _ ts => ts.map (fun t => t ^^^ 1)) sampleForest3 ⟨[], []⟩
            [mkHash 2, mkHash 1] =
          (readAll sampleForest3 ((fun (_ : Nat) (ts : List Nat) => ts.map (fun t => t ^^^ 1))
              sampleForest3.m_num_leaves (targets.insertionSort (· ≤ ·)))).map
            (fun proof_hashes => (true, ⟨targets, proof_hashes⟩, sampleForest3))) ∧
      (¬ [mkHash 2, mkHash 1].Nodup →
        ¬ (targets.insertionSort (· ≤ ·)).Pairwise (· < ·) ∧
        ForestState.CheckTargetsSanity sampleForest3.m_num_leaves
          (targets.insertionSort (· ≤ ·)) = false ∧
        Prove (fun _ ts => ts.map (fun t => t ^^^ 1)) sampleForest3 ⟨[], []⟩
            [mkHash 2, mkHash 1] = none) :=
  prove_targets_sanity (fun _ ts => ts.map (fun t => t ^^^ 1)) sampleForest3 ⟨[], []⟩
    [mkHash 2, mkHash 1] (by decide)

/-- A repeated target on the three-leaf sample state: `h1, h1` gives the
positions `0, 0`, the check is false and `Prove` stops at its assertion. -/
theorem prove_repeated_target_sample :
    lookupTargets sampleForest3.m_posmap [mkHash 1, mkHash 1] [] = some [0, 0] ∧
      ForestState.CheckTargetsSanity sampleForest3.m_num_leaves
        ([0, 0].insertionSort (· ≤ ·)) = false ∧
      Prove (fun _ ts => ts.map (fun t => t ^^^ 1)) sampleForest3 ⟨[], []⟩
        [mkHash 1, mkHash 1] = none := by
  decide

end RamForest

end utreexo
